import Mathlib

/-!
Verification of the simplexml DOM library (package `dom`).

The development shallowly embeds the two source files of the repository:

* `dom/element.go` — the `Element` tree type, its mutation API
  (`AddChild`, `RemoveChild`, `Children`, `AddAttr`, ...) and the
  namespace-aware encoder (`addNamespaces`, `namespacedName`, `Encode`,
  `Bytes`).
* the parser file — `parseElement`, `ParseElements` /
  `ParseElementsWithOptions`, `Parse` / `ParseWithOptions` and the
  distinguished `TooManyRootElements` error.

Two embeddings of the `Element` struct are used:

* a pure tree (`Element` below) for the parser and the encoder, where Go
  pointer structure is irrelevant (the parser only ever attaches freshly
  created elements, and the encoder only reads the tree);
* a heap model (`namespace Heap`) with explicit element identities for the
  mutation API, where Go pointer identity (`v == child` in `RemoveChild`)
  and the `parent` back-pointers matter.

Code of the repository that is not under `src/` (the `Encoder` struct with
`addNamespace`, `spaces`, `prettyEnd`, `NewEncoder`, `Pretty`, and the
`Document` struct with `CreateDocument`, `SetRoot`) is modelled from the
spec; those definitions carry a `Modelled from the spec:` doc comment.
The XML tokenizer (`encoding/xml.Decoder` / `xml.EscapeText`) is an
external collaborator per the spec's section 6; the token stream is
embedded as a `List Token`, and for the round-trip property a byte-level
lexer is modelled from the spec's description of the token stream.

Recursive functions that walk a token or character stream take an explicit
fuel argument (structural recursion on the fuel); the entry points supply
`length + 1` fuel, which is never exhausted because every step consumes at
least one token/character.  This keeps every definition kernel-computable.
-/

/-- `xml.Name`: a qualified name, a (namespace URI, local name) pair.
`space` is `Name.Space`, `loc` is `Name.Local`. -/
structure XmlName where
  space : String
  loc : String
deriving DecidableEq, Repr

/-- `xml.Attr`: an attribute, a (qualified name, string value) pair. -/
structure XAttr where
  name : XmlName
  value : String
deriving DecidableEq, Repr

/-- `dom.Element` (pure-tree embedding): `Name`, `Attributes`, `Content`
(a byte slice in Go, a `String` here), and the ordered `children` list.
The `parent` back-pointer of the Go struct is only modelled in the heap
embedding (`Heap.Node`), since the parser and encoder never consult it. -/
inductive Element where
  | mk : XmlName → List XAttr → String → List Element → Element

/-- The `Name` field of an element. -/
def Element.name : Element → XmlName
  | .mk n _ _ _ => n

/-- The `Attributes` field of an element. -/
def Element.attributes : Element → List XAttr
  | .mk _ a _ _ => a

/-- The `Content` field of an element. -/
def Element.content : Element → String
  | .mk _ _ c _ => c

/-- The `children` field of an element. -/
def Element.children : Element → List Element
  | .mk _ _ _ cs => cs

/-- `dom.CreateElement`: a new element with the given name, no attributes,
no content, no children. -/
def CreateElement (n : XmlName) : Element := .mk n [] "" []

/-- `dom.ElementN`: a new element with a simple (namespace-free) name. -/
def ElementN (n : String) : Element := CreateElement ⟨"", n⟩

/-- `Element.AddAttr`: append an attribute; no duplicate checks. -/
def Element.AddAttr : Element → XAttr → Element
  | .mk n as c cs, a => .mk n (as ++ [a]) c cs

/-- Overwriting the `Content` field (`res.Content = content` in
`parseElement`). -/
def Element.setContent : Element → String → Element
  | .mk n as _ cs, c => .mk n as c cs

/-- `Element.AddChild` as invoked by the parser: the child is always
freshly created (its parent pointer is nil), so the reparenting branch of
the Go code is a no-op and `AddChild` reduces to appending to `children`.
The full reparenting behaviour is modelled in `Heap.AddChild`. -/
def Element.addChildTree : Element → Element → Element
  | .mk n as c cs, child => .mk n as c (cs ++ [child])

/-- The element built by the head of `parseElement`:
`res := CreateElement(tok.Name)` followed by `res.AddAttr(attr)` for each
attribute of the start tag. -/
def startElement (n : XmlName) (attrs : List XAttr) : Element :=
  attrs.foldl Element.AddAttr (CreateElement n)

/-- One token of the abstract token stream produced by the external
tokenizer (`xml.Decoder.Token`): a start tag with its qualified name and
ordered attribute list, an end tag, character data, or any other token
kind (comment, processing instruction, directive), which the parser
ignores.  A self-closing tag `<a/>` is delivered by the tokenizer as a
start token followed by an end token. -/
inductive Token where
  | startTok : XmlName → List XAttr → Token
  | endTok : Token
  | textTok : String → Token
  | otherTok : Token
deriving DecidableEq, Repr

/-- `bytes.TrimSpace` on the character list: drop whitespace from both
ends. -/
def trimChars (cs : List Char) : List Char :=
  ((cs.dropWhile Char.isWhitespace).reverse.dropWhile Char.isWhitespace).reverse

/-- `bytes.TrimSpace`, lifted to `String`. -/
def trimSpace (s : String) : String := String.mk (trimChars s.data)

/-- `dom.parseElement`, fuelled.  `res` is the element under construction
(the Go code mutates `res` in place); the token list is the remaining
stream; `none` is a propagated stream error (in the list model the only
stream failure is running out of tokens before the matching end tag).
Fuel `length + 1` suffices: every step consumes at least one token. -/
def parseElementF : Nat → Element → List Token → Option (Element × List Token)
  | 0, _, _ => none
  | _ + 1, _, [] => none
  | fuel + 1, res, tok :: rest =>
    match tok with
    | .endTok => some (res, rest)
    | .textTok s =>
      let content := trimSpace s
      parseElementF fuel (if content ≠ "" then res.setContent content else res) rest
    | .startTok n attrs =>
      match parseElementF fuel (startElement n attrs) rest with
      | none => none
      | some (child, rest2) => parseElementF fuel (res.addChildTree child) rest2
    | .otherTok => parseElementF fuel res rest

/-- `dom.parseElement`: parse the body of an element whose start tag
(name and attributes) has already been consumed. -/
def parseElement (n : XmlName) (attrs : List XAttr) (toks : List Token) :
    Option (Element × List Token) :=
  parseElementF (toks.length + 1) (startElement n attrs) toks

/-- The top-level loop of `dom.ParseElementsWithOptions`, fuelled: read
tokens until end of stream; each start tag opens a top-level element via
`parseElement`; other tokens are ignored; errors propagate. -/
def parseElementsF : Nat → List Token → Option (List Element)
  | 0, _ => none
  | _ + 1, [] => some []
  | fuel + 1, tok :: rest =>
    match tok with
    | .startTok n attrs =>
      match parseElementF fuel (startElement n attrs) rest with
      | none => none
      | some (element, rest2) =>
        match parseElementsF fuel rest2 with
        | none => none
        | some elements => some (element :: elements)
    | _ => parseElementsF fuel rest

/-- `dom.ParseElements` / `dom.ParseElementsWithOptions` (the options only
configure the external charset decoding, which is outside the token-stream
model): the ordered list of top-level elements, or a stream error. -/
def ParseElements (toks : List Token) : Option (List Element) :=
  parseElementsF (toks.length + 1) toks

/-- The suffix just after the end token that closes the currently open
frame, scanning forward at relative start-tag depth `d`: a start token
deepens, the end token at depth zero closes the frame and the remaining
suffix is returned, other tokens are skipped.  `none` means the stream
ends before the matching end tag of the open frame — the truncated-input
condition of the specification. -/
def skipClose : Nat → List Token → Option (List Token)
  | _, [] => none
  | 0, Token.endTok :: rest => some rest
  | d + 1, Token.endTok :: rest => skipClose d rest
  | d, Token.startTok _ _ :: rest => skipClose (d + 1) rest
  | d, _ :: rest => skipClose d rest

/-- Every top-level start tag of the stream has its matching end tag,
fuelled (each step consumes at least one token, so `length + 1`
suffices). -/
def topClosedF : Nat → List Token → Bool
  | 0, _ => false
  | _ + 1, [] => true
  | fuel + 1, Token.startTok _ _ :: rest =>
    (match skipClose 0 rest with
      | none => false
      | some rest2 => topClosedF fuel rest2)
  | fuel + 1, _ :: rest => topClosedF fuel rest

/-- Every top-level start tag of the stream has its matching end tag:
the stream is not truncated inside any top-level element. -/
def topClosed (toks : List Token) : Bool := topClosedF (toks.length + 1) toks

/-- Modelled from the spec: `dom.Document` (its file is not under `src/`)
is a thin container holding zero or one root element. -/
structure Document where
  root : Option Element

/-- Modelled from the spec: `dom.CreateDocument` returns an empty
document. -/
def CreateDocument : Document := ⟨none⟩

/-- Modelled from the spec: `Document.SetRoot` installs the root
element. -/
def Document.SetRoot (_d : Document) (e : Element) : Document := ⟨some e⟩

/-- `dom.TooManyRootElements`, the distinguished error text. -/
def TooManyRootElements : String := "More than one root Element not allowed!"

/-- A failure of the document-level parse: either a propagated stream
error, or the distinguished too-many-roots error carrying its text. -/
inductive ParseFailure where
  | streamError : ParseFailure
  | rootsError : String → ParseFailure
deriving DecidableEq, Repr

/-- `dom.ParseWithOptions`: parse the element list; fail on a stream
error; fail with `TooManyRootElements` when more than one top-level
element was produced; otherwise build a document, installing the root if
there is exactly one element. -/
def ParseWithOptions (toks : List Token) : Except ParseFailure Document :=
  match ParseElements toks with
  | none => .error .streamError
  | some elements =>
    if elements.length > 1 then .error (.rootsError TooManyRootElements)
    else
      match elements with
      | [e] => .ok (CreateDocument.SetRoot e)
      | _ => .ok CreateDocument

/-- `dom.Parse` is `ParseWithOptions` with default options; the default
options only affect the external charset decoding. -/
def Parse (toks : List Token) : Except ParseFailure Document :=
  ParseWithOptions toks

/-- Modelled from the spec: the `Encoder` state (one per serialization
call; its file is not under `src/`): the discovered prefix→URI and
URI→prefix maps (`nsPrefixMap`, `nsURLMap`; Go hash maps, embedded as
association lists in insertion order), the fabricated-prefix counter, the
`started` flag marking whether namespace declarations were already
emitted, the indentation depth, the pretty flag, and the byte sink
(`out`).  Go map iteration order is unspecified, so the declaration
emission loop of `Element.Encode` takes the iteration order as an
explicit parameter (`declOrder`), constrained in the theorems to a
permutation of `nsPrefixMap`. -/
structure Encoder where
  nsPrefixMap : List (String × String)
  nsURLMap : List (String × String)
  prefixCount : Nat
  started : Bool
  depth : Nat
  pretty : Bool
  out : String
deriving DecidableEq, Repr

/-- Association-list lookup, embedding Go map indexing `m[k]`. -/
def lookupA : List (String × String) → String → Option String
  | [], _ => none
  | (a, b) :: rest, k => if a = k then some b else lookupA rest k

/-- Modelled from the spec: `dom.NewEncoder` — a fresh encoder with empty
maps, compact mode, not started, at depth 0. -/
def NewEncoder : Encoder :=
  { nsPrefixMap := [], nsURLMap := [], prefixCount := 0, started := false,
    depth := 0, pretty := false, out := "" }

/-- Modelled from the spec: `Encoder.Pretty` turns on pretty mode. -/
def Encoder.Pretty (e : Encoder) : Encoder := { e with pretty := true }

/-- A sequential write to the byte sink. -/
def Encoder.write (e : Encoder) (s : String) : Encoder := { e with out := e.out ++ s }

/-- Depth-proportional indentation, two spaces per level ("write
indentation for the current depth"; the exact indent string of the
encoder is a presentation detail fixed here as two spaces). -/
def indentStr : Nat → String
  | 0 => ""
  | d + 1 => "  " ++ indentStr d

/-- Modelled from the spec: `Encoder.spaces` writes the indentation for
the current depth in pretty mode and nothing in compact mode. -/
def Encoder.spaces (e : Encoder) : Encoder :=
  if e.pretty then e.write (indentStr e.depth) else e

/-- Modelled from the spec: `Encoder.prettyEnd` writes a newline in
pretty mode and nothing in compact mode. -/
def Encoder.prettyEnd (e : Encoder) : Encoder :=
  if e.pretty then e.write "\n" else e

/-- Modelled from the spec: fabrication of a fresh, unused prefix by a
sequential counter (`ns0`, `ns1`, ...), skipping prefixes already bound.
Returns the prefix and the advanced counter.  The fuel bound
`m.length + 1` always suffices: among `m.length + 1` distinct candidates
at most `m.length` can be taken. -/
def freshPfxF : Nat → List (String × String) → Nat → String × Nat
  | 0, _, c => ("ns" ++ toString c, c + 1)
  | fuel + 1, m, c =>
    let cand := "ns" ++ toString c
    if (lookupA m cand).isSome then freshPfxF fuel m (c + 1) else (cand, c + 1)

/-- Modelled from the spec: fresh-prefix fabrication entry point. -/
def freshPfx (m : List (String × String)) (c : Nat) : String × Nat :=
  freshPfxF (m.length + 1) m c

/-- Modelled from the spec: `Encoder.addNamespace url pfx` registers a
namespace URI.  The empty URI and the reserved "xmlns" URI are never
registered (unqualified names render bare and the reserved namespace
renders specially, and neither may be declared).  A URI already present
is left alone (first registration wins).  Otherwise the URI is bound to
the requested prefix, or to a fabricated fresh prefix when none is
requested. -/
def Encoder.addNamespace (e : Encoder) (url pfx : String) : Encoder :=
  if url = "" ∨ url = "xmlns" then e
  else if (lookupA e.nsURLMap url).isSome then e
  else
    let pc := if pfx = "" then freshPfx e.nsPrefixMap e.prefixCount else (pfx, e.prefixCount)
    { e with nsPrefixMap := e.nsPrefixMap ++ [(pc.1, url)],
             nsURLMap := e.nsURLMap ++ [(url, pc.1)],
             prefixCount := pc.2 }

mutual
/-- `Element.addNamespaces` (namespace discovery, from the source): first
register every attribute in the reserved "xmlns" namespace under its own
local name as prefix, then the element's namespace, then every
attribute's namespace, then recurse over the children. -/
def Element.addNamespaces : Element → Encoder → Encoder
  | .mk nm attrs _ cs, e =>
    let e1 := attrs.foldl
      (fun acc a => if a.name.space = "xmlns" then acc.addNamespace a.value a.name.loc else acc) e
    let e2 := e1.addNamespace nm.space ""
    let e3 := attrs.foldl (fun acc a => acc.addNamespace a.name.space "") e2
    addNamespacesList cs e3
/-- Namespace discovery over a child list, in order. -/
def addNamespacesList : List Element → Encoder → Encoder
  | [], e => e
  | c :: cs, e => addNamespacesList cs (c.addNamespaces e)
end

/-- `dom.namespacedName` (from the source): an empty namespace renders as
the bare local name; the reserved "xmlns" namespace renders as
`xmlns:<local>`; any other namespace renders as `<prefix>:<local>` with
the prefix taken from `nsURLMap`.  A missing prefix is `log.Panicf` in
the source, embedded as `none`. -/
def namespacedName (e : Encoder) (n : XmlName) : Option String :=
  if n.space = "" then some n.loc
  else if n.space = "xmlns" then some (n.space ++ ":" ++ n.loc)
  else
    match lookupA e.nsURLMap n.space with
    | some pfx => some (pfx ++ ":" ++ n.loc)
    | none => none

/-- `xml.EscapeText` on one character (the external escaper of the Go
standard library): the five XML special characters and tab, newline,
carriage return become entities; everything else passes through. -/
def escapeChar (c : Char) : String :=
  if c = Char.ofNat 34 then "&#34;"
  else if c = Char.ofNat 39 then "&#39;"
  else if c = '&' then "&amp;"
  else if c = '<' then "&lt;"
  else if c = '>' then "&gt;"
  else if c = '\t' then "&#x9;"
  else if c = '\n' then "&#xA;"
  else if c = '\r' then "&#xD;"
  else String.mk [c]

/-- `xml.EscapeText` over a character list. -/
def escapeChars : List Char → List Char
  | [] => []
  | c :: cs => (escapeChar c).data ++ escapeChars cs

/-- `xml.EscapeText` over a string. -/
def escapeText (s : String) : String := String.mk (escapeChars s.data)

/-- The attribute-emission loop of `Element.Encode` (source lines
142-150): write each attribute as ` name="value"` (the value unescaped),
skipping attributes in the reserved "xmlns" namespace; a missing prefix
for an attribute name propagates the panic. -/
def writeAttrs : List XAttr → Encoder → Option Encoder
  | [], e => some e
  | a :: as, e =>
    if a.name.space = "xmlns" then writeAttrs as e
    else
      match namespacedName e a.name with
      | none => none
      | some s => writeAttrs as (e.write (" " ++ s ++ "=\"" ++ a.value ++ "\""))

/-- The namespace-declaration emission loop of `Element.Encode` (source
lines 151-158): write ` xmlns:prefix="uri"` for every binding, in the
iteration order of the Go map, which is passed in explicitly. -/
def writeDecls : List (String × String) → Encoder → Encoder
  | [], e => e
  | pu :: rest, e => writeDecls rest (e.write (" xmlns:" ++ pu.1 ++ "=\"" ++ pu.2 ++ "\""))

mutual
/-- `Element.Encode` (from the source).  On the first element of a
serialization call (`started` not yet set) namespace discovery runs over
the whole subtree and the flag is set; indentation is written; the
opening tag with the qualified name; the non-"xmlns" attributes; on the
first element only, the namespace declarations (in the map iteration
order `declOrder`); an element with no children and no content closes as
`/>` (plus newline in pretty mode); otherwise the content is escaped and
written, the children are encoded at increased depth, and the closing tag
is written.  `none` embeds the `log.Panicf` of `namespacedName`. -/
def Element.Encode : Element → Encoder → List (String × String) → Option Encoder
  | node@(.mk nm attrs ct cs), e, declOrder =>
    let writeNamespaces := !e.started
    let e1 := if writeNamespaces then { node.addNamespaces e with started := true } else e
    let e2 := e1.spaces
    match namespacedName e2 nm with
    | none => none
    | some s1 =>
      let e3 := e2.write ("<" ++ s1)
      match writeAttrs attrs e3 with
      | none => none
      | some e4 =>
        let e5 := if writeNamespaces then writeDecls declOrder e4 else e4
        if cs.isEmpty && ct = "" then
          some (e5.write (if e5.pretty then "/>\n" else "/>"))
        else
          let e6 := e5.write ">"
          let e7 := if ct = "" then e6 else e6.write (escapeText ct)
          let e8 : Option Encoder :=
            if cs.isEmpty then some e7
            else
              match encodeList cs ({ e7 with depth := e7.depth + 1 }).prettyEnd declOrder with
              | none => none
              | some e9 => some ({ e9 with depth := e9.depth - 1 }).spaces
          match e8 with
          | none => none
          | some e10 =>
            match namespacedName e10 nm with
            | none => none
            | some s2 => some ((e10.write ("</" ++ s2 ++ ">")).prettyEnd)
/-- The child-emission loop of `Element.Encode`: encode each child in
order, propagating failure. -/
def encodeList : List Element → Encoder → List (String × String) → Option Encoder
  | [], e, _ => some e
  | c :: cs, e, declOrder =>
    match c.Encode e declOrder with
    | none => none
    | some e2 => encodeList cs e2 declOrder
end

/-- `Element.Bytes` (from the source): encode this subtree with a fresh
pretty encoder and return the buffer.  The Go function returns the
partial buffer even when `Encode` failed; the embedding returns `none` on
failure (no claim concerns the partial buffer).  `Element.String` returns
the same bytes as a string.  `declOrder` is the map iteration order used
by the underlying `Encode` call. -/
def Element.Bytes (node : Element) (declOrder : List (String × String)) : Option String :=
  (node.Encode NewEncoder.Pretty declOrder).map Encoder.out

/-- Modelled from the spec: the character class the external tokenizer
treats as part of a (qualified-name-free) name: anything that is not
whitespace, not markup punctuation, not the attribute-value quote, not
the entity introducer, and not the namespace separator. -/
def isNameChar (c : Char) : Bool :=
  !(c.isWhitespace || c == '<' || c == '>' || c == '/' || c == '=' ||
    c == Char.ofNat 34 || c == '&' || c == ':')

/-- Modelled from the spec: entity unescaping performed by the external
tokenizer on character data and attribute values, covering exactly the
entities the escaper (`escapeChar`) produces; a bare ampersand with an
unknown entity is a stream error (`none`). -/
def unescapeChars : List Char → Option (List Char)
  | [] => some []
  | c :: rest =>
    if c = '&' then
      match rest with
      | a :: b :: d :: r =>
        if a = 'l' ∧ b = 't' ∧ d = ';' then (unescapeChars r).map (fun l => '<' :: l)
        else if a = 'g' ∧ b = 't' ∧ d = ';' then (unescapeChars r).map (fun l => '>' :: l)
        else
          match r with
          | e2 :: r2 =>
            if a = 'a' ∧ b = 'm' ∧ d = 'p' ∧ e2 = ';' then
              (unescapeChars r2).map (fun l => '&' :: l)
            else if a = '#' ∧ b = '3' ∧ d = '9' ∧ e2 = ';' then
              (unescapeChars r2).map (fun l => Char.ofNat 39 :: l)
            else if a = '#' ∧ b = '3' ∧ d = '4' ∧ e2 = ';' then
              (unescapeChars r2).map (fun l => Char.ofNat 34 :: l)
            else if a = '#' ∧ b = 'x' ∧ d = '9' ∧ e2 = ';' then
              (unescapeChars r2).map (fun l => '\t' :: l)
            else if a = '#' ∧ b = 'x' ∧ d = 'A' ∧ e2 = ';' then
              (unescapeChars r2).map (fun l => '\n' :: l)
            else if a = '#' ∧ b = 'x' ∧ d = 'D' ∧ e2 = ';' then
              (unescapeChars r2).map (fun l => '\r' :: l)
            else none
          | [] => none
      | _ => none
    else (unescapeChars rest).map (fun l => c :: l)

/-- Modelled from the spec: the attribute loop of the external tokenizer
inside a start tag: skip whitespace; `/>` closes a self-closing tag, `>`
closes an ordinary one; otherwise read `name="value"` (the value
unescaped) and continue.  Namespace resolution of the external tokenizer
is outside this model, so attribute names are produced with an empty
namespace (the fragment relevant to namespace-free trees). -/
def lexAttrsCore
    (recur : List Char → List XAttr → Option ((List XAttr × Bool) × List Char)) :
    List Char → List XAttr → Option ((List XAttr × Bool) × List Char)
  | [], _ => none
  | c1 :: cs1, acc =>
    if c1 = '/' then
      match cs1 with
      | c2 :: rest => if c2 = '>' then some ((acc, true), rest) else none
      | [] => none
    else if c1 = '>' then some ((acc, false), cs1)
    else
      let nm := (c1 :: cs1).takeWhile isNameChar
      if nm.isEmpty then none
      else
        match (c1 :: cs1).dropWhile isNameChar with
        | d1 :: d2 :: cs2 =>
          if d1 = '=' ∧ d2 = Char.ofNat 34 then
            let v := cs2.takeWhile (fun x => !(x == Char.ofNat 34))
            match cs2.dropWhile (fun x => !(x == Char.ofNat 34)) with
            | _ :: cs3 =>
              match unescapeChars v with
              | some v2 => recur cs3 (acc ++ [⟨⟨"", String.mk nm⟩, String.mk v2⟩])
              | none => none
            | [] => none
          else none
        | _ => none

/-- Modelled from the spec: the fuelled attribute loop — skip leading
whitespace, then run one `lexAttrsCore` step with the next fuel level as
the recursive continuation. -/
def lexAttrs : Nat → List Char → List XAttr → Option ((List XAttr × Bool) × List Char)
  | 0, _, _ => none
  | fuel + 1, cs, acc => lexAttrsCore (lexAttrs fuel) (cs.dropWhile Char.isWhitespace) acc

/-- Modelled from the spec: the external tokenizer.  `<` opens markup: a
following `/` reads an end tag (the tag name is not re-checked against
the opening tag: the tokenizer guarantees balanced nesting, and on
encoder output the names always match); otherwise a start tag with its
attributes, a self-closing tag yielding a start token immediately
followed by an end token.  Any other character starts a maximal character
data run, ending at the next `<` or at end of input, delivered unescaped.

Fuel `length + 1` suffices: every step consumes at least one
character. -/
def lexAuxCore (recurT : List Char → Option (List Token))
    (recurA : List Char → List XAttr → Option ((List XAttr × Bool) × List Char)) :
    List Char → Option (List Token)
  | [] => some []
  | c :: cs =>
    if c = '<' then
      match cs with
      | [] => none
      | c1 :: cs1 =>
        if c1 = '/' then
          match cs1.dropWhile isNameChar with
          | d :: cs2 =>
            if d = '>' then (recurT cs2).map (fun ts => Token.endTok :: ts) else none
          | [] => none
        else
          let nm := (c1 :: cs1).takeWhile isNameChar
          if nm.isEmpty then none
          else
            match recurA ((c1 :: cs1).dropWhile isNameChar) [] with
            | some sc2 =>
              (recurT sc2.2).map (fun ts =>
                if sc2.1.2 then Token.startTok ⟨"", String.mk nm⟩ sc2.1.1 :: Token.endTok :: ts
                else Token.startTok ⟨"", String.mk nm⟩ sc2.1.1 :: ts)
            | none => none
    else
      let txt := (c :: cs).takeWhile (fun x => !(x == '<'))
      let rest := (c :: cs).dropWhile (fun x => !(x == '<'))
      match unescapeChars txt with
      | some t => (recurT rest).map (fun ts => Token.textTok (String.mk t) :: ts)
      | none => none

/-- Modelled from the spec: the fuelled tokenizer loop — one `lexAuxCore`
step with the next fuel level as the recursive continuation. -/
def lexAux : Nat → List Char → Option (List Token)
  | 0, _ => none
  | fuel + 1, cs => lexAuxCore (lexAux fuel) (lexAttrs fuel) cs

/-- Modelled from the spec: tokenize a byte stream. -/
def lexTokens (s : String) : Option (List Token) :=
  lexAux (s.data.length + 1) s.data

namespace Heap

/-- The `dom.Element` struct in the heap embedding: the value fields plus
the `parent` back-pointer and the `children` slice, both as element
identities (`Nat`).  Pointer equality of Go elements is equality of
identities. -/
structure Node where
  name : XmlName
  content : String
  attributes : List XAttr
  parent : Option Nat
  children : List Nat
deriving DecidableEq, Repr

/-- A heap of elements: what each identity points to. -/
abbrev Store := Nat → Node

/-- Write the `children` field of one element. -/
def setChildren (s : Store) (i : Nat) (cs : List Nat) : Store :=
  fun j => if j = i then { s i with children := cs } else s j

/-- Write the `parent` field of one element. -/
def setParent (s : Store) (i : Nat) (p : Option Nat) : Store :=
  fun j => if j = i then { s i with parent := p } else s j

/-- `Element.RemoveChild` (source lines 51-68): find the first position
of `child` (by pointer identity) in `node`'s children; when absent,
return with no mutation (the Go function returns the `node` pointer in
that case and the `child` pointer otherwise; the returned pointer is not
part of the state).  When present, shift the slice down over it and nil
the child's parent. -/
def RemoveChild (s : Store) (node child : Nat) : Store :=
  if child ∈ (s node).children then
    setParent (setChildren s node ((s node).children.erase child)) child none
  else s

/-- `Element.AddChild` (source lines 41-47): when the child has a parent,
remove it from that parent first; then set the child's parent to `node`
and append the child to `node`'s children. -/
def AddChild (s : Store) (node child : Nat) : Store :=
  let s1 :=
    match (s child).parent with
    | some p => RemoveChild s p child
    | none => s
  let s2 := setParent s1 child (some node)
  setChildren s2 node ((s2 node).children ++ [child])

/-- Go's built-in `copy(dst, src)`: overwrite the first
`min (length dst) (length src)` positions of `dst` with the corresponding
elements of `src`; `dst` keeps its length. -/
def goCopy {α : Type} (dst src : List α) : List α :=
  src.take dst.length ++ dst.drop src.length

/-- Go's `make([]*Element, length, capacity)`: a slice of `length` zero
values (the capacity only pre-allocates). -/
def goMakeSlice (length _capacity : Nat) : List Nat :=
  List.replicate length 0

/-- `Element.Children` (source lines 71-75), exactly as written: allocate
a slice of length 0 (capacity `len(children)`), `copy` the children into
it, and return it. -/
def Children (s : Store) (node : Nat) : List Nat :=
  goCopy (goMakeSlice 0 (s node).children.length) (s node).children

/-- `Element.Parent`: the parent back-pointer. -/
def Parent (s : Store) (node : Nat) : Option Nat :=
  (s node).parent

/-- The parent/children invariant of the spec's data model:
`child.parent == p` iff `p.children` contains `child` — and every
children list holds any child at most once. -/
def Inv (s : Store) : Prop :=
  (∀ p c : Nat, (s c).parent = some p ↔ c ∈ (s p).children) ∧
  (∀ p : Nat, (s p).children.Nodup)

/-- The all-empty heap: every identity holds a fresh parentless,
childless element. -/
def store0 : Store :=
  fun _ => { name := ⟨"", "e"⟩, content := "", attributes := [],
             parent := none, children := [] }

end Heap

/-- Well-formed names for the round-trip property: nonempty and made of
tokenizer name characters. -/
def nameOK (s : String) : Bool :=
  !s.isEmpty && s.data.all isNameChar

/-- Well-formed attribute values for the round-trip property: no quote
(the encoder writes attribute values unescaped inside double quotes), no
ampersand, no angle bracket. -/
def valueOK (s : String) : Bool :=
  s.data.all (fun c => !(c == Char.ofNat 34 || c == '&' || c == '<'))

mutual
/-- A tree with no namespace usage whose serialization survives the
round trip: every element/attribute name has an empty namespace URI and
is a nonempty run of name characters, attribute values are quote-,
ampersand- and angle-bracket-free, and every content field is already
whitespace-trimmed (the parser trims character data). -/
def wfTree : Element → Bool
  | .mk n attrs ct cs =>
    n.space == "" && nameOK n.loc &&
    attrs.all (fun a => a.name.space == "" && nameOK a.name.loc && valueOK a.value) &&
    trimSpace ct == ct && wfForest cs
/-- `wfTree` over a child list. -/
def wfForest : List Element → Bool
  | [] => true
  | c :: cs => wfTree c && wfForest cs
end

/-- The attribute block written by the encoder for a namespace-free
attribute list. -/
def attrsStr : List XAttr → String
  | [] => ""
  | a :: as => " " ++ a.name.loc ++ "=\"" ++ a.value ++ "\"" ++ attrsStr as

mutual
/-- The exact text `Element.Encode` emits for a namespace-free tree in
pretty mode at depth `d`, without the leading indentation and trailing
newline (which the surrounding context contributes): it starts with `<`
and ends with `>`. -/
def xStr : Element → Nat → String
  | .mk n attrs ct cs, d =>
    if cs.isEmpty && ct = "" then "<" ++ n.loc ++ attrsStr attrs ++ "/>"
    else if cs.isEmpty then
      "<" ++ n.loc ++ attrsStr attrs ++ ">" ++ escapeText ct ++ "</" ++ n.loc ++ ">"
    else
      "<" ++ n.loc ++ attrsStr attrs ++ ">" ++ escapeText ct ++ "\n" ++
        xChild cs (d + 1) ++ indentStr d ++ "</" ++ n.loc ++ ">"
/-- The text emitted for a child list at depth `d`: each child indented,
followed by a newline. -/
def xChild : List Element → Nat → String
  | [], _ => ""
  | c :: cs, d => indentStr d ++ xStr c d ++ "\n" ++ xChild cs d
end

mutual
/-- The token list the tokenizer produces for `xStr t d` after the start
token: the interleaved character-data runs (contents merged with the
pretty-printer's newlines and indentation) and the child tags, ending
with the end token. -/
def innerToks : Element → Nat → List Token
  | .mk _ _ ct cs, d =>
    if cs.isEmpty && ct = "" then [Token.endTok]
    else if cs.isEmpty then [Token.textTok ct, Token.endTok]
    else Token.textTok (ct ++ "\n" ++ indentStr (d + 1)) :: childToks cs (d + 1) d
/-- Token list for a child sequence at depth `dc` inside a parent at
depth `dp`: each child's tags separated by whitespace runs, closing with
the run before the parent's end tag and the parent's end token. -/
def childToks : List Element → Nat → Nat → List Token
  | [], _, dp => [Token.textTok ("\n" ++ indentStr dp), Token.endTok]
  | [c], dc, dp =>
    (match c with | .mk n a _ _ => Token.startTok n a) ::
      (innerToks c dc ++ [Token.textTok ("\n" ++ indentStr dp), Token.endTok])
  | c :: cs, dc, dp =>
    (match c with | .mk n a _ _ => Token.startTok n a) ::
      (innerToks c dc ++ (Token.textTok ("\n" ++ indentStr dc) :: childToks cs dc dp))
end

/-- The full token list for `xStr t d`: the start token followed by
`innerToks`. -/
def xtoks (t : Element) (d : Nat) : List Token :=
  match t with
  | .mk n a _ _ => Token.startTok n a :: innerToks t d

/-- The serialized text from the position right after a text run inside an
element at depth `dp` whose closing tag names `pn`: the remaining children
at depth `dc` (each preceded for the second one on by the separator run
`"\n" ++ indentStr dc`), then the run `"\n" ++ indentStr dp` and the
closing tag.  `sChild cs dc dp pn` is the string whose token list is
`childToks cs dc dp`. -/
def sChild : List Element → Nat → Nat → String → String
  | [], _, dp, pn => "\n" ++ (indentStr dp ++ ("</" ++ (pn ++ ">")))
  | [c], dc, dp, pn => xStr c dc ++ ("\n" ++ (indentStr dp ++ ("</" ++ (pn ++ ">"))))
  | c :: c2 :: cs, dc, dp, pn =>
    xStr c dc ++ ("\n" ++ (indentStr dc ++ sChild (c2 :: cs) dc dp pn))

mutual
/-- Every qualified name occurring in a subtree: the element's own name,
its attribute names, and recursively those of the children — exactly the
names `addNamespaces` registers and `Encode` later renders. -/
def namesOf : Element → List XmlName
  | .mk n attrs _ cs => n :: (attrs.map XAttr.name ++ namesOfList cs)
/-- `namesOf` over a child list. -/
def namesOfList : List Element → List XmlName
  | [] => []
  | c :: cs => namesOf c ++ namesOfList cs
end

/-- The part of `Element.Encode` after namespace discovery (source lines
134-193), abstracted over the already-discovered encoder state `e1` and
the `writeNamespaces` flag; `Element.Encode` is definitionally this body
applied to the discovery step (`encode_eq_body`).  Factoring it out lets
the proofs walk the emission once for both the first element of a call
and the nested ones. -/
def encodeBody (wns : Bool) (nm : XmlName) (attrs : List XAttr) (ct : String)
    (cs : List Element) (e1 : Encoder) (declOrder : List (String × String)) :
    Option Encoder :=
  let e2 := e1.spaces
  match namespacedName e2 nm with
  | none => none
  | some s1 =>
    let e3 := e2.write ("<" ++ s1)
    match writeAttrs attrs e3 with
    | none => none
    | some e4 =>
      let e5 := if wns then writeDecls declOrder e4 else e4
      if cs.isEmpty && ct = "" then
        some (e5.write (if e5.pretty then "/>\n" else "/>"))
      else
        let e6 := e5.write ">"
        let e7 := if ct = "" then e6 else e6.write (escapeText ct)
        let e8 : Option Encoder :=
          if cs.isEmpty then some e7
          else
            match encodeList cs ({ e7 with depth := e7.depth + 1 }).prettyEnd declOrder with
            | none => none
            | some e9 => some ({ e9 with depth := e9.depth - 1 }).spaces
        match e8 with
        | none => none
        | some e10 =>
          match namespacedName e10 nm with
          | none => none
          | some s2 => some ((e10.write ("</" ++ s2 ++ ">")).prettyEnd)

/-- The tokenizer emits exactly `toks` for the segment `str`, regardless
of fuel margin and of what follows: if the continuation lexes to `ts`,
the segment prepended lexes to `toks ++ ts`. -/
def LexEmits (str : String) (toks : List Token) : Prop :=
  ∀ fuel rest ts F, lexAux fuel rest = some ts → fuel + str.data.length ≤ F →
    lexAux F (str.data ++ rest) = some (toks ++ ts)

namespace Heap

theorem setChildren_children (s : Store) (i : Nat) (cs : List Nat) (j : Nat) :
    ((setChildren s i cs) j).children = if j = i then cs else (s j).children := by
  unfold setChildren
  split <;> rfl

theorem setChildren_parent (s : Store) (i : Nat) (cs : List Nat) (j : Nat) :
    ((setChildren s i cs) j).parent = (s j).parent := by
  unfold setChildren
  split
  · next hj => subst hj; rfl
  · rfl

theorem setParent_children (s : Store) (i : Nat) (p : Option Nat) (j : Nat) :
    ((setParent s i p) j).children = (s j).children := by
  unfold setParent
  split
  · next hj => subst hj; rfl
  · rfl

theorem setParent_parent (s : Store) (i : Nat) (p : Option Nat) (j : Nat) :
    ((setParent s i p) j).parent = if j = i then p else (s j).parent := by
  unfold setParent
  split <;> rfl

theorem removeChild_children (s : Store) (n c : Nat) (h : c ∈ (s n).children) (j : Nat) :
    ((RemoveChild s n c) j).children =
      if j = n then (s n).children.erase c else (s j).children := by
  unfold RemoveChild
  rw [if_pos h, setParent_children, setChildren_children]

theorem removeChild_parent (s : Store) (n c : Nat) (h : c ∈ (s n).children) (j : Nat) :
    ((RemoveChild s n c) j).parent = if j = c then none else (s j).parent := by
  unfold RemoveChild
  rw [if_pos h, setParent_parent, setChildren_parent]

theorem removeChild_not_mem (s : Store) (n c : Nat) (h : c ∉ (s n).children) :
    RemoveChild s n c = s := by
  unfold RemoveChild
  rw [if_neg h]

theorem inv_removeChild (s : Store) (n c : Nat) (h : Inv s) : Inv (RemoveChild s n c) := by
  by_cases hmem : c ∈ (s n).children
  · obtain ⟨hiff, hnd⟩ := h
    constructor
    · intro p x
      rw [removeChild_parent s n c hmem, removeChild_children s n c hmem]
      by_cases hxc : x = c
      · rw [if_pos hxc]
        constructor
        · intro hfalse; exact absurd hfalse (by simp)
        · intro hx
          by_cases hpn : p = n
          · rw [if_pos hpn, hxc] at hx
            exact absurd ((hnd n).mem_erase_iff.mp hx).1 (by simp)
          · rw [if_neg hpn, hxc] at hx
            have h1 : (s c).parent = some p := (hiff p c).mpr hx
            have h2 : (s c).parent = some n := (hiff n c).mpr hmem
            rw [h1] at h2
            exact absurd (Option.some.inj h2) hpn
      · rw [if_neg hxc]
        by_cases hpn : p = n
        · rw [if_pos hpn, List.mem_erase_of_ne hxc, hpn]
          exact hiff n x
        · rw [if_neg hpn]
          exact hiff p x
    · intro p
      rw [removeChild_children s n c hmem]
      by_cases hpn : p = n
      · rw [if_pos hpn]; exact (hnd n).erase c
      · rw [if_neg hpn]; exact hnd p
  · rw [removeChild_not_mem s n c hmem]; exact h

theorem inv_unique_parent (s : Store) (h : Inv s) (x p1 p2 : Nat)
    (h1 : x ∈ (s p1).children) (h2 : x ∈ (s p2).children) : p1 = p2 := by
  have e1 : (s x).parent = some p1 := (h.1 p1 x).mpr h1
  have e2 : (s x).parent = some p2 := (h.1 p2 x).mpr h2
  rw [e1] at e2
  exact Option.some.inj e2

theorem addChild_abstract (t : Store) (n c : Nat)
    (ch1 : Nat → List Nat) (pa1 : Nat → Option Nat)
    (hiff : ∀ p x, pa1 x = some p ↔ x ∈ ch1 p)
    (hnd : ∀ p, (ch1 p).Nodup)
    (hc : ∀ p, c ∉ ch1 p)
    (F1 : ∀ j, (t j).children = if j = n then ch1 n ++ [c] else ch1 j)
    (F2 : ∀ j, (t j).parent = if j = c then some n else pa1 j) :
    Inv t ∧ (t c).parent = some n ∧ (t n).children.count c = 1 := by
  refine ⟨⟨?_, ?_⟩, ?_, ?_⟩
  · intro p x
    rw [F1 p, F2 x]
    by_cases hxc : x = c
    · subst hxc
      rw [if_pos rfl]
      by_cases hpn : p = n
      · subst hpn
        rw [if_pos rfl]
        simp
      · rw [if_neg hpn]
        constructor
        · intro hsome
          exact absurd (Option.some.inj hsome) (fun hh => hpn hh.symm)
        · intro hmem
          exact absurd hmem (hc p)
    · rw [if_neg hxc]
      by_cases hpn : p = n
      · rw [if_pos hpn, List.mem_append]
        simp only [List.mem_singleton]
        rw [hpn, hiff n x]
        constructor
        · intro hx; exact Or.inl hx
        · intro hx
          cases hx with
          | inl hx => exact hx
          | inr hx => exact absurd hx hxc
      · rw [if_neg hpn]
        exact hiff p x
  · intro p
    rw [F1 p]
    by_cases hpn : p = n
    · rw [if_pos hpn]
      exact (hnd n).append (List.nodup_singleton c)
        (by intro a ha hb; rw [List.mem_singleton] at hb; subst hb; exact hc n ha)
    · rw [if_neg hpn]
      exact hnd p
  · rw [F2 c, if_pos rfl]
  · rw [F1 n, if_pos rfl, List.count_append]
    rw [List.count_eq_zero.mpr (hc n)]
    simp

end Heap

/-- C2: counter-theorem — `Element.Children` as implemented always
returns the empty list, regardless of the element's children: the slice
it copies into has length 0, so `copy` copies nothing.  Concretely, after
`AddChild store0 0 1` element 0 has children `[1]` but `Children` returns
`[]`, contradicting the claim (and the function's own doc comment,
"returns all the children of the current node"). -/
theorem c2_children_accessor_always_empty :
    (∀ (s : Heap.Store) (i : Nat), Heap.Children s i = []) ∧
    ((Heap.AddChild Heap.store0 0 1) 0).children = [1] ∧
    Heap.Children (Heap.AddChild Heap.store0 0 1) 0 = [] := by
  refine ⟨?_, rfl, rfl⟩
  intro s i
  simp [Heap.Children, Heap.goCopy, Heap.goMakeSlice]

/-- C6: `AddChild` and `RemoveChild` preserve the parent/children
invariant (`child.parent == p` iff `p.children` contains `child`, without
duplicates).  Moreover `AddChild` leaves the child's parent pointer at
the new parent with exactly one occurrence in its children, no element is
a child of two parents afterwards, and when the child was attached to a
different prior parent, that parent's child count decreases by one. -/
theorem c6_addChild_removeChild_invariant (s : Heap.Store) (n c : Nat) (h : Heap.Inv s) :
    Heap.Inv (Heap.RemoveChild s n c) ∧
    Heap.Inv (Heap.AddChild s n c) ∧
    ((Heap.AddChild s n c) c).parent = some n ∧
    ((Heap.AddChild s n c) n).children.count c = 1 ∧
    (∀ x p1 p2, x ∈ ((Heap.AddChild s n c) p1).children →
      x ∈ ((Heap.AddChild s n c) p2).children → p1 = p2) ∧
    (∀ q, (s c).parent = some q → q ≠ n →
      ((Heap.AddChild s n c) q).children.length + 1 = (s q).children.length) := by
  refine ⟨Heap.inv_removeChild s n c h, ?_⟩
  cases hp : (s c).parent with
  | none =>
    have hF : Heap.AddChild s n c =
        Heap.setChildren (Heap.setParent s c (some n)) n
          (((Heap.setParent s c (some n)) n).children ++ [c]) := by
      simp only [Heap.AddChild, hp]
    have hc : ∀ p, c ∉ (s p).children := by
      intro p hx
      have h1 : (s c).parent = some p := (h.1 p c).mpr hx
      rw [hp] at h1
      exact absurd h1 (by simp)
    have F1 : ∀ j, ((Heap.AddChild s n c) j).children =
        if j = n then (s n).children ++ [c] else (s j).children := by
      intro j
      rw [hF, Heap.setChildren_children, Heap.setParent_children, Heap.setParent_children]
    have F2 : ∀ j, ((Heap.AddChild s n c) j).parent =
        if j = c then some n else (s j).parent := by
      intro j
      rw [hF, Heap.setChildren_parent, Heap.setParent_parent]
    obtain ⟨hinv, hpar, hcount⟩ := Heap.addChild_abstract (Heap.AddChild s n c) n c
      (fun j => (s j).children) (fun j => (s j).parent) (fun p x => h.1 p x) h.2 hc F1 F2
    refine ⟨hinv, hpar, hcount, ?_, ?_⟩
    · intro x p1 p2 h1 h2
      exact Heap.inv_unique_parent _ hinv x p1 p2 h1 h2
    · intro q hq
      exact absurd hq (by simp)
  | some q =>
    have hmem : c ∈ (s q).children := (h.1 q c).mp hp
    have hinv1 : Heap.Inv (Heap.RemoveChild s q c) := Heap.inv_removeChild s q c h
    have hF : Heap.AddChild s n c =
        Heap.setChildren (Heap.setParent (Heap.RemoveChild s q c) c (some n)) n
          (((Heap.setParent (Heap.RemoveChild s q c) c (some n)) n).children ++ [c]) := by
      simp only [Heap.AddChild, hp]
    have hc1 : ∀ p, c ∉ ((Heap.RemoveChild s q c) p).children := by
      intro p hx
      rw [Heap.removeChild_children s q c hmem] at hx
      by_cases hpq : p = q
      · rw [if_pos hpq] at hx
        exact absurd ((h.2 q).mem_erase_iff.mp hx).1 (by simp)
      · rw [if_neg hpq] at hx
        have h1 : (s c).parent = some p := (h.1 p c).mpr hx
        rw [hp] at h1
        exact absurd (Option.some.inj h1).symm hpq
    have F1 : ∀ j, ((Heap.AddChild s n c) j).children =
        if j = n then ((Heap.RemoveChild s q c) n).children ++ [c]
        else ((Heap.RemoveChild s q c) j).children := by
      intro j
      rw [hF, Heap.setChildren_children, Heap.setParent_children, Heap.setParent_children]
    have F2 : ∀ j, ((Heap.AddChild s n c) j).parent =
        if j = c then some n else ((Heap.RemoveChild s q c) j).parent := by
      intro j
      rw [hF, Heap.setChildren_parent, Heap.setParent_parent]
    obtain ⟨hinv, hpar, hcount⟩ := Heap.addChild_abstract (Heap.AddChild s n c) n c
      (fun j => ((Heap.RemoveChild s q c) j).children)
      (fun j => ((Heap.RemoveChild s q c) j).parent)
      (fun p x => hinv1.1 p x) hinv1.2 hc1 F1 F2
    refine ⟨hinv, hpar, hcount, ?_, ?_⟩
    · intro x p1 p2 h1 h2
      exact Heap.inv_unique_parent _ hinv x p1 p2 h1 h2
    · intro q2 hq2 hq2n
      have hq2q : q2 = q := (Option.some.inj hq2).symm
      rw [F1 q2, if_neg (by rw [hq2q] at hq2n ⊢; exact hq2n)]
      rw [hq2q, Heap.removeChild_children s q c hmem, if_pos rfl]
      have hlen : ((s q).children.erase c).length = (s q).children.length - 1 :=
        List.length_erase_of_mem hmem
      have hpos : 0 < (s q).children.length := List.length_pos.mpr (List.ne_nil_of_mem hmem)
      omega

/-- C6 witness: the invariant holds in the all-empty heap, and is intact
after attaching element 1 to element 0, which also sets the parent
pointer and yields exactly one occurrence among the children. -/
theorem c6_witness :
    Heap.Inv Heap.store0 ∧
    Heap.Inv (Heap.AddChild Heap.store0 0 1) ∧
    ((Heap.AddChild Heap.store0 0 1) 1).parent = some 0 ∧
    ((Heap.AddChild Heap.store0 0 1) 0).children.count 1 = 1 := by
  have h0 : Heap.Inv Heap.store0 := by
    constructor
    · intro p c
      simp [Heap.store0]
    · intro p
      simp [Heap.store0]
  obtain ⟨-, hinv, hpar, hcount, -, -⟩ := c6_addChild_removeChild_invariant Heap.store0 0 1 h0
  exact ⟨h0, hinv, hpar, hcount⟩

theorem parseElementF_no_end (fuel : Nat) :
    ∀ (res : Element) (toks : List Token), Token.endTok ∉ toks →
      parseElementF fuel res toks = none := by
  induction fuel with
  | zero => intro res toks _; rfl
  | succ fuel ih =>
    intro res toks h
    cases toks with
    | nil => rfl
    | cons t rest =>
      have hrest : Token.endTok ∉ rest := fun hr => h (List.mem_cons_of_mem t hr)
      cases t with
      | endTok => exact absurd (List.mem_cons_self _ _) h
      | textTok s =>
        simp only [parseElementF]
        exact ih _ rest hrest
      | startTok n attrs =>
        simp only [parseElementF]
        rw [ih _ rest hrest]
      | otherTok =>
        simp only [parseElementF]
        exact ih _ rest hrest

theorem parseElementsF_no_end (fuel : Nat) :
    ∀ toks : List Token, Token.endTok ∉ toks →
      (∃ n a, Token.startTok n a ∈ toks) → parseElementsF fuel toks = none := by
  induction fuel with
  | zero => intro toks _ _; rfl
  | succ fuel ih =>
    intro toks h hstart
    cases toks with
    | nil =>
      obtain ⟨n, a, hmem⟩ := hstart
      exact absurd hmem (by simp)
    | cons t rest =>
      have hrest : Token.endTok ∉ rest := fun hr => h (List.mem_cons_of_mem t hr)
      cases t with
      | endTok => exact absurd (List.mem_cons_self _ _) h
      | startTok n attrs =>
        simp only [parseElementsF]
        rw [parseElementF_no_end fuel _ rest hrest]
      | textTok s =>
        simp only [parseElementsF]
        apply ih rest hrest
        obtain ⟨n, a, hmem⟩ := hstart
        rw [List.mem_cons] at hmem
        cases hmem with
        | inl hx => exact absurd hx (by simp)
        | inr hx => exact ⟨n, a, hx⟩
      | otherTok =>
        simp only [parseElementsF]
        apply ih rest hrest
        obtain ⟨n, a, hmem⟩ := hstart
        rw [List.mem_cons] at hmem
        cases hmem with
        | inl hx => exact absurd hx (by simp)
        | inr hx => exact ⟨n, a, hx⟩

/-- C3: a stream with two or more top-level elements fails through the
document entry point with exactly the distinguished too-many-roots error
(and no document), while the list entry point yields all top-level
elements in stream order; on the `<a/><b/>` stream the list entry point
returns the two elements and the document entry point returns the
error.  (The list entry point cannot raise the too-many-roots error at
all: its only failure is the propagated stream error, `none`.) -/
theorem c3_single_root_enforcement :
    (∀ (toks : List Token) (es : List Element), ParseElements toks = some es →
      2 ≤ es.length →
      ParseWithOptions toks = .error (.rootsError TooManyRootElements)) ∧
    ParseElements [.startTok ⟨"", "a"⟩ [], .endTok, .startTok ⟨"", "b"⟩ [], .endTok] =
      some [CreateElement ⟨"", "a"⟩, CreateElement ⟨"", "b"⟩] ∧
    ParseWithOptions [.startTok ⟨"", "a"⟩ [], .endTok, .startTok ⟨"", "b"⟩ [], .endTok] =
      .error (.rootsError TooManyRootElements) := by
  refine ⟨?_, rfl, rfl⟩
  intro toks es hp hlen
  simp only [ParseWithOptions, hp]
  rw [if_pos (by omega : es.length > 1)]

/-- C3 witness: the general component applied to the concrete
`<a/><b/>` stream. -/
theorem c3_witness :
    ParseWithOptions [.startTok ⟨"", "a"⟩ [], .endTok, .startTok ⟨"", "b"⟩ [], .endTok] =
      .error (.rootsError TooManyRootElements) :=
  c3_single_root_enforcement.1 _ [CreateElement ⟨"", "a"⟩, CreateElement ⟨"", "b"⟩]
    rfl (by decide)

theorem parseF_end (fuel : Nat) (res : Element) (rest : List Token) :
    parseElementF (fuel + 1) res (Token.endTok :: rest) = some (res, rest) := rfl

theorem parseF_text (fuel : Nat) (res : Element) (s : String) (rest : List Token) :
    parseElementF (fuel + 1) res (Token.textTok s :: rest) =
      parseElementF fuel
        (if trimSpace s ≠ "" then res.setContent (trimSpace s) else res) rest := rfl

theorem parseF_start (fuel : Nat) (res : Element) (n : XmlName) (attrs : List XAttr)
    (rest : List Token) :
    parseElementF (fuel + 1) res (Token.startTok n attrs :: rest) =
      match parseElementF fuel (startElement n attrs) rest with
      | none => none
      | some (child, rest2) => parseElementF fuel (res.addChildTree child) rest2 := rfl

theorem skipClose_start (d : Nat) (n : XmlName) (a : List XAttr) (rest : List Token) :
    skipClose d (Token.startTok n a :: rest) = skipClose (d + 1) rest := by
  cases d <;> rfl

theorem skipClose_text (d : Nat) (s : String) (rest : List Token) :
    skipClose d (Token.textTok s :: rest) = skipClose d rest := by
  cases d <;> rfl

theorem skipClose_other (d : Nat) (rest : List Token) :
    skipClose d (Token.otherTok :: rest) = skipClose d rest := by
  cases d <;> rfl

theorem skipClose_length (toks : List Token) :
    ∀ (d : Nat) (r : List Token), skipClose d toks = some r → r.length < toks.length := by
  induction toks with
  | nil =>
    intro d r h
    exact absurd h (by simp [skipClose])
  | cons t rest ih =>
    intro d r h
    cases t with
    | endTok =>
      cases d with
      | zero =>
        have hr : rest = r := Option.some.inj h
        rw [← hr]
        simp
      | succ d =>
        have := ih d r h
        simp only [List.length_cons]
        omega
    | startTok n a =>
      rw [skipClose_start] at h
      have := ih (d + 1) r h
      simp only [List.length_cons]
      omega
    | textTok s =>
      rw [skipClose_text] at h
      have := ih d r h
      simp only [List.length_cons]
      omega
    | otherTok =>
      rw [skipClose_other] at h
      have := ih d r h
      simp only [List.length_cons]
      omega

theorem parse_skipClose (fuel : Nat) :
    ∀ (res el : Element) (toks rest2 : List Token),
      parseElementF fuel res toks = some (el, rest2) →
      skipClose 0 toks = some rest2 ∧ ∀ d, skipClose (d + 1) toks = skipClose d rest2 := by
  induction fuel with
  | zero =>
    intro res el toks rest2 h
    exact absurd h (by simp [parseElementF])
  | succ fuel ih =>
    intro res el toks rest2 h
    cases toks with
    | nil => exact absurd h (by simp [parseElementF])
    | cons t rest =>
      cases t with
      | endTok =>
        rw [parseF_end] at h
        have h2 := Option.some.inj h
        have hr : rest = rest2 := congrArg Prod.snd h2
        rw [← hr]
        exact ⟨rfl, fun d => rfl⟩
      | textTok s =>
        rw [parseF_text] at h
        obtain ⟨h1, h2⟩ := ih _ el rest rest2 h
        exact ⟨h1, fun d => h2 d⟩
      | otherTok =>
        have h0 : parseElementF fuel res rest = some (el, rest2) := h
        obtain ⟨h1, h2⟩ := ih res el rest rest2 h0
        exact ⟨h1, fun d => h2 d⟩
      | startTok n a =>
        rw [parseF_start] at h
        cases hc : parseElementF fuel (startElement n a) rest with
        | none =>
          rw [hc] at h
          exact absurd h (by simp)
        | some p =>
          obtain ⟨child, mid⟩ := p
          rw [hc] at h
          simp only [] at h
          obtain ⟨ha1, ha2⟩ := ih (startElement n a) child rest mid hc
          obtain ⟨hb1, hb2⟩ := ih (res.addChildTree child) el mid rest2 h
          constructor
          · show skipClose 1 rest = some rest2
            rw [ha2 0, hb1]
          · intro d
            show skipClose (d + 2) rest = skipClose d rest2
            rw [ha2 (d + 1), hb2 d]

theorem parse_truncated (fuel : Nat) :
    ∀ (res : Element) (toks : List Token),
      skipClose 0 toks = none → parseElementF fuel res toks = none := by
  induction fuel with
  | zero => intro res toks _; rfl
  | succ fuel ih =>
    intro res toks h
    cases toks with
    | nil => rfl
    | cons t rest =>
      cases t with
      | endTok => exact absurd h (by simp [skipClose])
      | textTok s =>
        rw [parseF_text]
        exact ih _ rest h
      | otherTok =>
        show parseElementF fuel res rest = none
        exact ih res rest h
      | startTok n a =>
        rw [parseF_start]
        cases hc : parseElementF fuel (startElement n a) rest with
        | none => rfl
        | some p =>
          obtain ⟨child, mid⟩ := p
          simp only []
          obtain ⟨ha1, ha2⟩ := parse_skipClose fuel (startElement n a) child rest mid hc
          have hmid : skipClose 0 mid = none := by
            rw [← ha2 0]
            exact h
          exact ih _ mid hmid

theorem parseEls_start (fuel : Nat) (n : XmlName) (a : List XAttr) (rest : List Token) :
    parseElementsF (fuel + 1) (Token.startTok n a :: rest) =
      match parseElementF fuel (startElement n a) rest with
      | none => none
      | some (el, rest2) =>
        match parseElementsF fuel rest2 with
        | none => none
        | some els => some (el :: els) := rfl

theorem parseEls_text (fuel : Nat) (s : String) (rest : List Token) :
    parseElementsF (fuel + 1) (Token.textTok s :: rest) = parseElementsF fuel rest := rfl

theorem parseEls_nil (fuel : Nat) : parseElementsF (fuel + 1) [] = some [] := rfl

theorem parseEls_truncated (fuel : Nat) :
    ∀ (g : Nat) (toks : List Token), toks.length < g → topClosedF g toks = false →
      parseElementsF fuel toks = none := by
  induction fuel with
  | zero => intro g toks _ _; rfl
  | succ fuel ih =>
    intro g toks hlen htc
    obtain ⟨g2, rfl⟩ : ∃ g2, g = g2 + 1 := ⟨g - 1, by omega⟩
    cases toks with
    | nil => exact absurd htc (by simp [topClosedF])
    | cons t rest =>
      simp only [List.length_cons] at hlen
      cases t with
      | startTok n a =>
        rw [parseEls_start]
        cases hsc : skipClose 0 rest with
        | none =>
          rw [parse_truncated fuel (startElement n a) rest hsc]
        | some rest2 =>
          have htc2 : topClosedF g2 rest2 = false := by
            rw [show topClosedF (g2 + 1) (Token.startTok n a :: rest) =
              (match skipClose 0 rest with
                | none => false
                | some rest2 => topClosedF g2 rest2) from rfl, hsc] at htc
            exact htc
          cases hpe : parseElementF fuel (startElement n a) rest with
          | none => rfl
          | some p =>
            obtain ⟨el, mid⟩ := p
            simp only []
            obtain ⟨ha1, _⟩ := parse_skipClose fuel (startElement n a) el rest mid hpe
            have hmid : mid = rest2 := by
              rw [ha1] at hsc
              exact Option.some.inj hsc
            have hlen2 : rest2.length < g2 := by
              have := skipClose_length rest 0 rest2 hsc
              omega
            rw [hmid, ih g2 rest2 hlen2 htc2]
      | endTok =>
        show parseElementsF fuel rest = none
        exact ih g2 rest (by omega) htc
      | textTok s =>
        rw [parseEls_text]
        exact ih g2 rest (by omega) htc
      | otherTok =>
        show parseElementsF fuel rest = none
        exact ih g2 rest (by omega) htc

/-- C7: if the token stream ends before the matching end tag of the
currently open element (`skipClose 0 toks = none`: scanning forward from
the frame's body, deepening at start tokens, the end token that would
close the frame never arrives), `parseElement` fails with the propagated
stream error and returns no element — including streams whose nested
children closed properly; and a top-level stream in which some start tag
is never closed (`topClosed toks = false`) makes `ParseElements` fail
likewise: the truncated input is never reported as a successful
result. -/
theorem c7_truncated_stream_fails :
    (∀ (n : XmlName) (attrs : List XAttr) (toks : List Token),
      skipClose 0 toks = none → parseElement n attrs toks = none) ∧
    (∀ toks : List Token, topClosed toks = false → ParseElements toks = none) := by
  constructor
  · intro n attrs toks h
    exact parse_truncated (toks.length + 1) (startElement n attrs) toks h
  · intro toks h
    exact parseEls_truncated (toks.length + 1) (toks.length + 1) toks (by omega) h

/-- C7 witness: `<a><b></b>` cut off before `</a>` — a truncated stream
whose nested element closed properly — fails on both counts: the open
frame of `a` never sees its end token, and the top-level parse reports
no result. -/
theorem c7_witness :
    skipClose 0 [Token.startTok ⟨"", "b"⟩ [], Token.endTok] = none ∧
    parseElement ⟨"", "a"⟩ [] [Token.startTok ⟨"", "b"⟩ [], Token.endTok] = none ∧
    topClosed [Token.startTok ⟨"", "a"⟩ [], Token.startTok ⟨"", "b"⟩ [],
      Token.endTok] = false ∧
    ParseElements [Token.startTok ⟨"", "a"⟩ [], Token.startTok ⟨"", "b"⟩ [],
      Token.endTok] = none :=
  ⟨by decide,
   c7_truncated_stream_fails.1 ⟨"", "a"⟩ [] _ (by decide),
   by decide,
   c7_truncated_stream_fails.2 _ (by decide)⟩

/-- C8: each character-data token is trimmed of surrounding whitespace;
a nonempty remainder overwrites the content of the current frame and a
pure-whitespace token is ignored (the defining step of `parseElementF`),
and parsing `<a>  x  <b/>  y  </a>` yields element `a` with one child
`b` and content `"y"`. -/
theorem c8_text_trim_overwrite :
    (∀ (fuel : Nat) (res : Element) (s : String) (rest : List Token),
      parseElementF (fuel + 1) res (Token.textTok s :: rest) =
        parseElementF fuel
          (if trimSpace s ≠ "" then res.setContent (trimSpace s) else res) rest) ∧
    parseElement ⟨"", "a"⟩ []
      [Token.textTok "  x  ", Token.startTok ⟨"", "b"⟩ [], Token.endTok,
       Token.textTok "  y  ", Token.endTok] =
      some (Element.mk ⟨"", "a"⟩ [] "y" [Element.mk ⟨"", "b"⟩ [] "" []], []) :=
  ⟨fun _ _ _ _ => rfl, rfl⟩

/-- C9: counterexample — on a tree that uses two distinct namespace URIs
the serialized bytes depend on the iteration order of the Go prefix map
(`for prefix, uri := range e.nsPrefixMap`), which is unspecified: two
valid iteration orders (both permutations of the discovered mapping)
produce different output, so two invocations need not be
byte-identical. -/
theorem c9_counterexample :
    ([("ns1", "urn:b"), ("ns0", "urn:a")] : List (String × String)).Perm
      ((Element.mk ⟨"urn:a", "r"⟩ [] "" [Element.mk ⟨"urn:b", "c"⟩ [] "" []]).addNamespaces
        NewEncoder.Pretty).nsPrefixMap ∧
    Element.Bytes (Element.mk ⟨"urn:a", "r"⟩ [] "" [Element.mk ⟨"urn:b", "c"⟩ [] "" []])
        (((Element.mk ⟨"urn:a", "r"⟩ [] ""
          [Element.mk ⟨"urn:b", "c"⟩ [] "" []]).addNamespaces NewEncoder.Pretty).nsPrefixMap) ≠
      Element.Bytes (Element.mk ⟨"urn:a", "r"⟩ [] "" [Element.mk ⟨"urn:b", "c"⟩ [] "" []])
        [("ns1", "urn:b"), ("ns0", "urn:a")] := by
  constructor
  · decide
  · decide

/-- C9 (amended): serialization is a deterministic function of the tree
and the map iteration order, and whenever the discovered namespace
mapping has at most one entry — in particular for every tree using no
namespaces — the iteration order carries no freedom and two invocations
of `Bytes` produce byte-identical output. -/
theorem c9_deterministic_amended (T : Element) (o1 o2 : List (String × String))
    (h1 : o1.Perm (T.addNamespaces NewEncoder.Pretty).nsPrefixMap)
    (h2 : o2.Perm (T.addNamespaces NewEncoder.Pretty).nsPrefixMap)
    (hlen : (T.addNamespaces NewEncoder.Pretty).nsPrefixMap.length ≤ 1) :
    Element.Bytes T o1 = Element.Bytes T o2 := by
  have e1 : o1 = o2 := by
    cases hm : (T.addNamespaces NewEncoder.Pretty).nsPrefixMap with
    | nil =>
      rw [hm] at h1 h2
      rw [List.perm_nil.mp h1, List.perm_nil.mp h2]
    | cons x xs =>
      cases xs with
      | nil =>
        rw [hm] at h1 h2
        rw [List.perm_singleton.mp h1, List.perm_singleton.mp h2]
      | cons y ys =>
        rw [hm] at hlen
        simp at hlen
  rw [e1]

/-- C9 witness: a single-namespace tree with its unique iteration
order. -/
theorem c9_witness :
    Element.Bytes (Element.mk ⟨"urn:a", "r"⟩ [] "" []) [("ns0", "urn:a")] =
      Element.Bytes (Element.mk ⟨"urn:a", "r"⟩ [] "" []) [("ns0", "urn:a")] :=
  c9_deterministic_amended (Element.mk ⟨"urn:a", "r"⟩ [] "" [])
    [("ns0", "urn:a")] [("ns0", "urn:a")] (by decide) (by decide) (by decide)

theorem encode_eq_body (nm : XmlName) (attrs : List XAttr) (ct : String)
    (cs : List Element) (e : Encoder) (ord : List (String × String)) :
    Element.Encode (.mk nm attrs ct cs) e ord =
      encodeBody (!e.started) nm attrs ct cs
        (if !e.started then
          { (Element.mk nm attrs ct cs).addNamespaces e with started := true }
        else e) ord := rfl

theorem Element.ind {P : Element → Prop}
    (h : ∀ n attrs ct cs, (∀ c ∈ cs, P c) → P (.mk n attrs ct cs)) :
    ∀ t, P t := by
  have key : ∀ (m : Nat) (t : Element), sizeOf t ≤ m → P t := by
    intro m
    induction m with
    | zero =>
      intro t ht
      cases t with
      | mk n attrs ct cs =>
        simp only [Element.mk.sizeOf_spec] at ht
        omega
    | succ m ih =>
      intro t ht
      cases t with
      | mk n attrs ct cs =>
        apply h
        intro c hc
        apply ih
        have h1 : sizeOf c < sizeOf cs := List.sizeOf_lt_of_mem hc
        simp only [Element.mk.sizeOf_spec] at ht
        omega
  exact fun t => key (sizeOf t) t (Nat.le_refl _)

theorem sappend_empty (s : String) : s ++ "" = s := by
  cases s with
  | mk d => exact congrArg String.mk (List.append_nil d)

theorem sappend_assoc (a b c : String) : a ++ b ++ c = a ++ (b ++ c) := by
  cases a with
  | mk da =>
    cases b with
    | mk db =>
      cases c with
      | mk dc => exact congrArg String.mk (List.append_assoc da db dc)

theorem sdata_append (a b : String) : (a ++ b).data = a.data ++ b.data := by
  cases a with
  | mk da =>
    cases b with
    | mk db => rfl

theorem write_eq (e : Encoder) (s : String) : e.write s = { e with out := e.out ++ s } := rfl

theorem spaces_eq (e : Encoder) :
    e.spaces = { e with out := e.out ++ (if e.pretty then indentStr e.depth else "") } := by
  unfold Encoder.spaces
  split
  · rfl
  · rw [sappend_empty]

theorem prettyEnd_eq (e : Encoder) :
    e.prettyEnd = { e with out := e.out ++ (if e.pretty then "\n" else "") } := by
  unfold Encoder.prettyEnd
  split
  · rfl
  · rw [sappend_empty]

theorem writeDecls_eq (l : List (String × String)) :
    ∀ e : Encoder, ∃ w, writeDecls l e = { e with out := e.out ++ w } := by
  induction l with
  | nil =>
    intro e
    refine ⟨"", ?_⟩
    rw [sappend_empty]
    rfl
  | cons pu rest ih =>
    intro e
    obtain ⟨w, hw⟩ := ih (e.write (" xmlns:" ++ pu.1 ++ "=\"" ++ pu.2 ++ "\""))
    refine ⟨(" xmlns:" ++ pu.1 ++ "=\"" ++ pu.2 ++ "\"") ++ w, ?_⟩
    show writeDecls rest (e.write (" xmlns:" ++ pu.1 ++ "=\"" ++ pu.2 ++ "\"")) = _
    rw [hw]
    simp [Encoder.write, sappend_assoc]

theorem lookupA_append_of_isSome (m1 m2 : List (String × String)) (k : String)
    (h : (lookupA m1 k).isSome) : lookupA (m1 ++ m2) k = lookupA m1 k := by
  induction m1 with
  | nil => simp [lookupA] at h
  | cons hd tl ih =>
    obtain ⟨a, b⟩ := hd
    show lookupA ((a, b) :: (tl ++ m2)) k = _
    unfold lookupA
    split
    · rfl
    · apply ih
      unfold lookupA at h
      split at h
      · next hk => exact absurd hk (by assumption)
      · exact h

theorem lookupA_append_self_isSome (m : List (String × String)) (k v : String) :
    (lookupA (m ++ [(k, v)]) k).isSome := by
  induction m with
  | nil => simp [lookupA]
  | cons hd tl ih =>
    obtain ⟨a, b⟩ := hd
    show (lookupA ((a, b) :: (tl ++ [(k, v)])) k).isSome
    unfold lookupA
    split
    · rfl
    · exact ih

theorem addNamespace_mono (e : Encoder) (u p k : String)
    (h : (lookupA e.nsURLMap k).isSome) :
    (lookupA (e.addNamespace u p).nsURLMap k).isSome := by
  unfold Encoder.addNamespace
  split
  · exact h
  · split
    · exact h
    · show (lookupA (e.nsURLMap ++ [(u, _)]) k).isSome
      rw [lookupA_append_of_isSome _ _ _ h]
      exact h

theorem addNamespace_self (e : Encoder) (u p : String)
    (h1 : ¬ u = "") (h2 : ¬ u = "xmlns") :
    (lookupA (e.addNamespace u p).nsURLMap u).isSome := by
  unfold Encoder.addNamespace
  rw [if_neg (fun hor => Or.elim hor h1 h2)]
  split
  · next hs => exact hs
  · exact lookupA_append_self_isSome e.nsURLMap u _

theorem foldl_xmlnsAttrs_mono (attrs : List XAttr) :
    ∀ (e : Encoder) (k : String), (lookupA e.nsURLMap k).isSome →
      (lookupA ((attrs.foldl (fun acc a =>
        if a.name.space = "xmlns" then acc.addNamespace a.value a.name.loc
        else acc) e)).nsURLMap k).isSome := by
  induction attrs with
  | nil => intro e k h; exact h
  | cons a as ih =>
    intro e k h
    rw [List.foldl_cons]
    apply ih
    by_cases hx : a.name.space = "xmlns"
    · rw [if_pos hx]; exact addNamespace_mono e _ _ k h
    · rw [if_neg hx]; exact h

theorem foldl_spaceAttrs_mono (attrs : List XAttr) :
    ∀ (e : Encoder) (k : String), (lookupA e.nsURLMap k).isSome →
      (lookupA ((attrs.foldl (fun acc a => acc.addNamespace a.name.space "") e)).nsURLMap
        k).isSome := by
  induction attrs with
  | nil => intro e k h; exact h
  | cons a as ih =>
    intro e k h
    rw [List.foldl_cons]
    exact ih _ k (addNamespace_mono e _ _ k h)

theorem foldl_spaceAttrs_covers (attrs : List XAttr) :
    ∀ (e : Encoder) (a : XAttr), a ∈ attrs → ¬ a.name.space = "" → ¬ a.name.space = "xmlns" →
      (lookupA ((attrs.foldl (fun acc a2 => acc.addNamespace a2.name.space "") e)).nsURLMap
        a.name.space).isSome := by
  induction attrs with
  | nil => intro e a ha _ _; exact absurd ha (by simp)
  | cons b bs ih =>
    intro e a ha h1 h2
    rw [List.foldl_cons]
    rw [List.mem_cons] at ha
    cases ha with
    | inl hab =>
      rw [hab] at h1 h2 ⊢
      apply foldl_spaceAttrs_mono
      exact addNamespace_self e _ _ h1 h2
    | inr hmem => exact ih _ a hmem h1 h2

theorem addNamespacesList_mono_of (cs : List Element)
    (hm : ∀ c ∈ cs, ∀ (e : Encoder) (k : String), (lookupA e.nsURLMap k).isSome →
      (lookupA ((c.addNamespaces e)).nsURLMap k).isSome) :
    ∀ (e : Encoder) (k : String), (lookupA e.nsURLMap k).isSome →
      (lookupA ((addNamespacesList cs e)).nsURLMap k).isSome := by
  induction cs with
  | nil => intro e k h; exact h
  | cons c cs ih =>
    intro e k h
    show (lookupA ((addNamespacesList cs (c.addNamespaces e))).nsURLMap k).isSome
    exact ih (fun x hx => hm x (List.mem_cons_of_mem c hx)) _ k
      (hm c (List.mem_cons_self c cs) e k h)

theorem addNamespaces_mono (t : Element) :
    ∀ (e : Encoder) (k : String), (lookupA e.nsURLMap k).isSome →
      (lookupA ((t.addNamespaces e)).nsURLMap k).isSome := by
  induction t using Element.ind with
  | _ n attrs ct cs ihcs =>
    intro e k h
    show (lookupA ((addNamespacesList cs _)).nsURLMap k).isSome
    apply addNamespacesList_mono_of cs ihcs
    apply foldl_spaceAttrs_mono
    exact addNamespace_mono _ _ _ k (foldl_xmlnsAttrs_mono attrs e k h)

theorem addNamespacesList_covers_of (cs : List Element)
    (hm : ∀ c ∈ cs, ∀ (e : Encoder) (k : String), (lookupA e.nsURLMap k).isSome →
      (lookupA ((c.addNamespaces e)).nsURLMap k).isSome)
    (hcov : ∀ c ∈ cs, ∀ (e : Encoder) (nm : XmlName), nm ∈ namesOf c →
      ¬ nm.space = "" → ¬ nm.space = "xmlns" →
      (lookupA ((c.addNamespaces e)).nsURLMap nm.space).isSome) :
    ∀ (e : Encoder) (nm : XmlName), nm ∈ namesOfList cs →
      ¬ nm.space = "" → ¬ nm.space = "xmlns" →
      (lookupA ((addNamespacesList cs e)).nsURLMap nm.space).isSome := by
  induction cs with
  | nil => intro e nm hmem _ _; exact absurd hmem (by simp [namesOfList])
  | cons c cs ih =>
    intro e nm hmem h1 h2
    show (lookupA ((addNamespacesList cs (c.addNamespaces e))).nsURLMap nm.space).isSome
    have hsplit : nm ∈ namesOf c ∨ nm ∈ namesOfList cs := by
      have : namesOfList (c :: cs) = namesOf c ++ namesOfList cs := rfl
      rw [this, List.mem_append] at hmem
      exact hmem
    cases hsplit with
    | inl hin =>
      apply addNamespacesList_mono_of cs (fun x hx => hm x (List.mem_cons_of_mem c hx))
      exact hcov c (List.mem_cons_self c cs) e nm hin h1 h2
    | inr hin =>
      exact ih (fun x hx => hm x (List.mem_cons_of_mem c hx))
        (fun x hx => hcov x (List.mem_cons_of_mem c hx)) _ nm hin h1 h2

theorem addNamespaces_covers (t : Element) :
    ∀ (e : Encoder) (nm : XmlName), nm ∈ namesOf t →
      ¬ nm.space = "" → ¬ nm.space = "xmlns" →
      (lookupA ((t.addNamespaces e)).nsURLMap nm.space).isSome := by
  induction t using Element.ind with
  | _ n attrs ct cs ihcs =>
    intro e nm hmem h1 h2
    show (lookupA ((addNamespacesList cs _)).nsURLMap nm.space).isSome
    have hmono : ∀ c ∈ cs, ∀ (e2 : Encoder) (k : String),
        (lookupA e2.nsURLMap k).isSome →
        (lookupA ((c.addNamespaces e2)).nsURLMap k).isSome :=
      fun c _ => addNamespaces_mono c
    have hsplit : nm = n ∨ nm ∈ attrs.map XAttr.name ∨ nm ∈ namesOfList cs := by
      have : namesOf (.mk n attrs ct cs) = n :: (attrs.map XAttr.name ++ namesOfList cs) := rfl
      rw [this] at hmem
      rw [List.mem_cons, List.mem_append] at hmem
      rcases hmem with hx | hx | hx
      · exact Or.inl hx
      · exact Or.inr (Or.inl hx)
      · exact Or.inr (Or.inr hx)
    rcases hsplit with hx | hx | hx
    · rw [hx] at h1 h2 ⊢
      apply addNamespacesList_mono_of cs hmono
      apply foldl_spaceAttrs_mono
      exact addNamespace_self _ _ _ h1 h2
    · apply addNamespacesList_mono_of cs hmono
      obtain ⟨a, hain, haeq⟩ := List.mem_map.mp hx
      have := foldl_spaceAttrs_covers attrs
        ((attrs.foldl (fun acc a2 =>
          if a2.name.space = "xmlns" then acc.addNamespace a2.value a2.name.loc
          else acc) e).addNamespace n.space "") a hain
      rw [haeq] at this
      exact this h1 h2
    · exact addNamespacesList_covers_of cs hmono ihcs _ nm hx h1 h2

@[simp] theorem write_nsURLMap (e : Encoder) (s : String) : (e.write s).nsURLMap = e.nsURLMap := rfl
@[simp] theorem write_nsPrefixMap (e : Encoder) (s : String) : (e.write s).nsPrefixMap = e.nsPrefixMap := rfl
@[simp] theorem write_started (e : Encoder) (s : String) : (e.write s).started = e.started := rfl
@[simp] theorem write_pretty (e : Encoder) (s : String) : (e.write s).pretty = e.pretty := rfl
@[simp] theorem write_depth (e : Encoder) (s : String) : (e.write s).depth = e.depth := rfl
@[simp] theorem write_out (e : Encoder) (s : String) : (e.write s).out = e.out ++ s := rfl

@[simp] theorem spaces_nsURLMap (e : Encoder) : (e.spaces).nsURLMap = e.nsURLMap := by
  rw [spaces_eq]
@[simp] theorem spaces_nsPrefixMap (e : Encoder) : (e.spaces).nsPrefixMap = e.nsPrefixMap := by
  rw [spaces_eq]
@[simp] theorem spaces_started (e : Encoder) : (e.spaces).started = e.started := by
  rw [spaces_eq]
@[simp] theorem spaces_pretty (e : Encoder) : (e.spaces).pretty = e.pretty := by
  rw [spaces_eq]
@[simp] theorem spaces_depth (e : Encoder) : (e.spaces).depth = e.depth := by
  rw [spaces_eq]

@[simp] theorem prettyEnd_nsURLMap (e : Encoder) : (e.prettyEnd).nsURLMap = e.nsURLMap := by
  rw [prettyEnd_eq]
@[simp] theorem prettyEnd_nsPrefixMap (e : Encoder) : (e.prettyEnd).nsPrefixMap = e.nsPrefixMap := by
  rw [prettyEnd_eq]
@[simp] theorem prettyEnd_started (e : Encoder) : (e.prettyEnd).started = e.started := by
  rw [prettyEnd_eq]
@[simp] theorem prettyEnd_pretty (e : Encoder) : (e.prettyEnd).pretty = e.pretty := by
  rw [prettyEnd_eq]
@[simp] theorem prettyEnd_depth (e : Encoder) : (e.prettyEnd).depth = e.depth := by
  rw [prettyEnd_eq]

@[simp] theorem writeDecls_nsURLMap (l : List (String × String)) (e : Encoder) :
    (writeDecls l e).nsURLMap = e.nsURLMap := by
  obtain ⟨w, hw⟩ := writeDecls_eq l e
  rw [hw]
@[simp] theorem writeDecls_started (l : List (String × String)) (e : Encoder) :
    (writeDecls l e).started = e.started := by
  obtain ⟨w, hw⟩ := writeDecls_eq l e
  rw [hw]
@[simp] theorem writeDecls_pretty (l : List (String × String)) (e : Encoder) :
    (writeDecls l e).pretty = e.pretty := by
  obtain ⟨w, hw⟩ := writeDecls_eq l e
  rw [hw]
@[simp] theorem writeDecls_depth (l : List (String × String)) (e : Encoder) :
    (writeDecls l e).depth = e.depth := by
  obtain ⟨w, hw⟩ := writeDecls_eq l e
  rw [hw]

theorem namespacedName_map_congr (e f : Encoder) (nm : XmlName) (h : e.nsURLMap = f.nsURLMap) :
    namespacedName e nm = namespacedName f nm := by
  unfold namespacedName
  rw [h]

theorem namespacedName_isSome (e : Encoder) (nm : XmlName)
    (h : nm.space = "" ∨ nm.space = "xmlns" ∨ (lookupA e.nsURLMap nm.space).isSome) :
    (namespacedName e nm).isSome := by
  unfold namespacedName
  by_cases h1 : nm.space = ""
  · rw [if_pos h1]; rfl
  · rw [if_neg h1]
    by_cases h2 : nm.space = "xmlns"
    · rw [if_pos h2]; rfl
    · rw [if_neg h2]
      rcases h with hx | hx | hx
      · exact absurd hx h1
      · exact absurd hx h2
      · cases hl : lookupA e.nsURLMap nm.space with
        | none => rw [hl] at hx; exact absurd hx (by simp)
        | some p => rfl

theorem writeAttrs_some (as : List XAttr) :
    ∀ (e e4 : Encoder), writeAttrs as e = some e4 →
      ∃ w, e4 = { e with out := e.out ++ w } := by
  induction as with
  | nil =>
    intro e e4 h
    have he : e = e4 := Option.some.inj h
    refine ⟨"", ?_⟩
    rw [sappend_empty, ← he]
  | cons a as ih =>
    intro e e4 h
    simp only [writeAttrs] at h
    by_cases hx : a.name.space = "xmlns"
    · rw [if_pos hx] at h
      exact ih e e4 h
    · rw [if_neg hx] at h
      cases hnn : namespacedName e a.name with
      | none => rw [hnn] at h; exact absurd h (by simp)
      | some s =>
        rw [hnn] at h
        obtain ⟨w, hw⟩ := ih _ e4 h
        refine ⟨(" " ++ s ++ "=\"" ++ a.value ++ "\"") ++ w, ?_⟩
        rw [hw]
        simp [Encoder.write, sappend_assoc]

theorem writeAttrs_isSome (as : List XAttr) :
    ∀ e : Encoder, (∀ a ∈ as, a.name.space = "" ∨ a.name.space = "xmlns" ∨
      (lookupA e.nsURLMap a.name.space).isSome) →
      (writeAttrs as e).isSome := by
  induction as with
  | nil => intro e _; rfl
  | cons a as ih =>
    intro e h
    simp only [writeAttrs]
    by_cases hx : a.name.space = "xmlns"
    · rw [if_pos hx]
      exact ih e (fun b hb => h b (List.mem_cons_of_mem a hb))
    · rw [if_neg hx]
      cases hnn : namespacedName e a.name with
      | none =>
        have hs := namespacedName_isSome e a.name (h a (List.mem_cons_self a as))
        rw [hnn] at hs
        exact absurd hs (by simp)
      | some s =>
        exact ih _ (fun b hb => h b (List.mem_cons_of_mem a hb))

theorem writeAttrs_proj (as : List XAttr) (e e4 : Encoder) (h : writeAttrs as e = some e4) :
    e4.nsURLMap = e.nsURLMap ∧ e4.started = e.started ∧ e4.pretty = e.pretty ∧
      e4.depth = e.depth := by
  obtain ⟨w, hw⟩ := writeAttrs_some as e e4 h
  rw [hw]
  exact ⟨rfl, rfl, rfl, rfl⟩

theorem ite_enc_nsURLMap (b : Bool) (f : Encoder → Encoder) (e : Encoder)
    (hf : (f e).nsURLMap = e.nsURLMap) :
    (if b then f e else e).nsURLMap = e.nsURLMap := by
  cases b
  · rfl
  · exact hf

theorem ite_enc_started (b : Bool) (f : Encoder → Encoder) (e : Encoder)
    (hf : (f e).started = e.started) :
    (if b then f e else e).started = e.started := by
  cases b
  · rfl
  · exact hf

theorem ite_enc_pretty (b : Bool) (f : Encoder → Encoder) (e : Encoder)
    (hf : (f e).pretty = e.pretty) :
    (if b then f e else e).pretty = e.pretty := by
  cases b
  · rfl
  · exact hf

theorem ite_enc_depth (b : Bool) (f : Encoder → Encoder) (e : Encoder)
    (hf : (f e).depth = e.depth) :
    (if b then f e else e).depth = e.depth := by
  cases b
  · rfl
  · exact hf

theorem encodeBody_proj (wns : Bool) (n : XmlName) (attrs : List XAttr) (ct : String)
    (cs : List Element)
    (hQ2 : ∀ (e : Encoder) (ord : List (String × String)) (e9 : Encoder), e.started = true →
      encodeList cs e ord = some e9 → e9.started = true ∧ e9.nsURLMap = e.nsURLMap) :
    ∀ (e : Encoder) (ord : List (String × String)) (ef : Encoder), e.started = true →
      encodeBody wns n attrs ct cs e ord = some ef →
      ef.started = true ∧ ef.nsURLMap = e.nsURLMap := by
  intro e ord ef hst h
  simp only [encodeBody] at h
  cases hnn : namespacedName e.spaces n with
  | none =>
    rw [hnn] at h
    simp only [] at h
    exact absurd h (by simp)
  | some s1 =>
    rw [hnn] at h
    simp only [] at h
    cases hwa : writeAttrs attrs ((e.spaces).write ("<" ++ s1)) with
    | none =>
      rw [hwa] at h
      simp only [] at h
      exact absurd h (by simp)
    | some e4 =>
      rw [hwa] at h
      simp only [] at h
      obtain ⟨h4url, h4st, h4pretty, h4depth⟩ := writeAttrs_proj _ _ _ hwa
      rw [write_nsURLMap, spaces_nsURLMap] at h4url
      rw [write_started, spaces_started] at h4st
      set e5 := if wns then writeDecls ord e4 else e4 with he5
      have h5url : e5.nsURLMap = e.nsURLMap := by
        rw [he5, ite_enc_nsURLMap wns (writeDecls ord) e4 (writeDecls_nsURLMap ord e4), h4url]
      have h5st : e5.started = true := by
        rw [he5, ite_enc_started wns (writeDecls ord) e4 (writeDecls_started ord e4), h4st, hst]
      by_cases hleaf : (cs.isEmpty && decide (ct = "")) = true
      · rw [if_pos hleaf] at h
        have hef := Option.some.inj h
        rw [← hef]
        exact ⟨by rw [write_started, h5st], by rw [write_nsURLMap, h5url]⟩
      · rw [if_neg hleaf] at h
        set e7 := if ct = "" then e5.write ">" else (e5.write ">").write (escapeText ct) with he7
        have h7url : e7.nsURLMap = e.nsURLMap := by
          rw [he7]
          split
          · rw [write_nsURLMap, h5url]
          · rw [write_nsURLMap, write_nsURLMap, h5url]
        have h7st : e7.started = true := by
          rw [he7]
          split
          · rw [write_started, h5st]
          · rw [write_started, write_started, h5st]
        by_cases hcse : cs.isEmpty = true
        · rw [if_pos hcse] at h
          simp only [] at h
          cases hnn2 : namespacedName e7 n with
          | none =>
            rw [hnn2] at h
            simp only [] at h
            exact absurd h (by simp)
          | some s2 =>
            rw [hnn2] at h
            simp only [] at h
            have hef := Option.some.inj h
            rw [← hef]
            constructor
            · rw [prettyEnd_started, write_started, h7st]
            · rw [prettyEnd_nsURLMap, write_nsURLMap, h7url]
        · rw [if_neg hcse] at h
          cases hel : encodeList cs (Encoder.prettyEnd { e7 with depth := e7.depth + 1 }) ord with
          | none =>
            rw [hel] at h
            simp only [] at h
            exact absurd h (by simp)
          | some e9 =>
            rw [hel] at h
            simp only [] at h
            have h9 := hQ2 _ ord e9 (by rw [prettyEnd_started]; exact h7st) hel
            cases hnn3 : namespacedName (Encoder.spaces { e9 with depth := e9.depth - 1 }) n with
            | none =>
              rw [hnn3] at h
              simp only [] at h
              exact absurd h (by simp)
            | some s2 =>
              rw [hnn3] at h
              simp only [] at h
              have hef := Option.some.inj h
              rw [← hef]
              constructor
              · rw [prettyEnd_started, write_started, spaces_started]
                show e9.started = true
                exact h9.1
              · rw [prettyEnd_nsURLMap, write_nsURLMap, spaces_nsURLMap]
                show e9.nsURLMap = e.nsURLMap
                rw [h9.2, prettyEnd_nsURLMap]
                exact h7url

theorem namesOf_eq (n : XmlName) (attrs : List XAttr) (ct : String) (cs : List Element) :
    namesOf (.mk n attrs ct cs) = n :: (attrs.map XAttr.name ++ namesOfList cs) := rfl

theorem encodeBody_isSome (wns : Bool) (n : XmlName) (attrs : List XAttr) (ct : String)
    (cs : List Element)
    (hQ2 : ∀ (e : Encoder) (ord : List (String × String)) (e9 : Encoder), e.started = true →
      encodeList cs e ord = some e9 → e9.started = true ∧ e9.nsURLMap = e.nsURLMap)
    (hQ3 : ∀ (e : Encoder) (ord : List (String × String)), e.started = true →
      (∀ nm ∈ namesOfList cs, nm.space = "" ∨ nm.space = "xmlns" ∨
        (lookupA e.nsURLMap nm.space).isSome) → (encodeList cs e ord).isSome) :
    ∀ (e : Encoder) (ord : List (String × String)), e.started = true →
      (∀ nm ∈ namesOf (Element.mk n attrs ct cs), nm.space = "" ∨ nm.space = "xmlns" ∨
        (lookupA e.nsURLMap nm.space).isSome) →
      (encodeBody wns n attrs ct cs e ord).isSome := by
  intro e ord hst hres
  simp only [encodeBody]
  have hsn : (namespacedName e.spaces n).isSome := by
    apply namespacedName_isSome
    rw [spaces_nsURLMap]
    exact hres n (by rw [namesOf_eq]; exact List.mem_cons_self _ _)
  cases hnn : namespacedName e.spaces n with
  | none =>
    rw [hnn] at hsn
    exact absurd hsn (by simp)
  | some s1 =>
    simp only []
    have hwa0 : (writeAttrs attrs ((e.spaces).write ("<" ++ s1))).isSome := by
      apply writeAttrs_isSome
      intro a ha
      rw [write_nsURLMap, spaces_nsURLMap]
      apply hres a.name
      rw [namesOf_eq]
      apply List.mem_cons_of_mem
      apply List.mem_append_left
      exact List.mem_map_of_mem XAttr.name ha
    cases hwa : writeAttrs attrs ((e.spaces).write ("<" ++ s1)) with
    | none =>
      rw [hwa] at hwa0
      exact absurd hwa0 (by simp)
    | some e4 =>
      simp only []
      obtain ⟨h4url, h4st, h4pretty, h4depth⟩ := writeAttrs_proj _ _ _ hwa
      rw [write_nsURLMap, spaces_nsURLMap] at h4url
      rw [write_started, spaces_started] at h4st
      set e5 := if wns then writeDecls ord e4 else e4 with he5
      have h5url : e5.nsURLMap = e.nsURLMap := by
        rw [he5, ite_enc_nsURLMap wns (writeDecls ord) e4 (writeDecls_nsURLMap ord e4), h4url]
      have h5st : e5.started = true := by
        rw [he5, ite_enc_started wns (writeDecls ord) e4 (writeDecls_started ord e4), h4st, hst]
      by_cases hleaf : (cs.isEmpty && decide (ct = "")) = true
      · rw [if_pos hleaf]
        rfl
      · rw [if_neg hleaf]
        set e7 := if ct = "" then e5.write ">" else (e5.write ">").write (escapeText ct) with he7
        have h7url : e7.nsURLMap = e.nsURLMap := by
          rw [he7]
          split
          · rw [write_nsURLMap, h5url]
          · rw [write_nsURLMap, write_nsURLMap, h5url]
        have h7st : e7.started = true := by
          rw [he7]
          split
          · rw [write_started, h5st]
          · rw [write_started, write_started, h5st]
        by_cases hcse : cs.isEmpty = true
        · rw [if_pos hcse]
          simp only []
          have hsn2 : (namespacedName e7 n).isSome := by
            apply namespacedName_isSome
            rw [h7url]
            exact hres n (by rw [namesOf_eq]; exact List.mem_cons_self _ _)
          cases hnn2 : namespacedName e7 n with
          | none =>
            rw [hnn2] at hsn2
            exact absurd hsn2 (by simp)
          | some s2 =>
            rfl
        · rw [if_neg hcse]
          have hel0 : (encodeList cs
              (Encoder.prettyEnd { e7 with depth := e7.depth + 1 }) ord).isSome := by
            apply hQ3
            · rw [prettyEnd_started]
              exact h7st
            · intro nm hnm
              rw [prettyEnd_nsURLMap]
              show nm.space = "" ∨ nm.space = "xmlns" ∨ (lookupA e7.nsURLMap nm.space).isSome
              rw [h7url]
              apply hres nm
              rw [namesOf_eq]
              apply List.mem_cons_of_mem
              exact List.mem_append_right _ hnm
          cases hel : encodeList cs (Encoder.prettyEnd { e7 with depth := e7.depth + 1 }) ord with
          | none =>
            rw [hel] at hel0
            exact absurd hel0 (by simp)
          | some e9 =>
            simp only []
            have h9 := hQ2 _ ord e9 (by rw [prettyEnd_started]; exact h7st) hel
            have hsn3 : (namespacedName (Encoder.spaces { e9 with depth := e9.depth - 1 }) n).isSome := by
              apply namespacedName_isSome
              rw [spaces_nsURLMap]
              show n.space = "" ∨ n.space = "xmlns" ∨ (lookupA e9.nsURLMap n.space).isSome
              rw [h9.2, prettyEnd_nsURLMap, h7url]
              exact hres n (by rw [namesOf_eq]; exact List.mem_cons_self _ _)
            cases hnn3 : namespacedName (Encoder.spaces { e9 with depth := e9.depth - 1 }) n with
            | none =>
              rw [hnn3] at hsn3
              exact absurd hsn3 (by simp)
            | some s2 =>
              rfl

theorem encodeBody_ord_irrel (n : XmlName) (attrs : List XAttr) (ct : String)
    (cs : List Element)
    (hQ1 : ∀ (e : Encoder) (ord : List (String × String)), e.started = true →
      encodeList cs e ord = encodeList cs e [])
    (hQ2w : ∀ (e : Encoder) (e4 : Encoder), writeAttrs attrs e = some e4 →
      e4.started = e.started) :
    ∀ (e : Encoder) (ord : List (String × String)), e.started = true →
      encodeBody false n attrs ct cs e ord = encodeBody false n attrs ct cs e [] := by
  intro e ord hst
  simp only [encodeBody]
  cases hnn : namespacedName e.spaces n with
  | none => rfl
  | some s1 =>
    simp only []
    cases hwa : writeAttrs attrs ((e.spaces).write ("<" ++ s1)) with
    | none => rfl
    | some e4 =>
      simp only []
      have h4st : e4.started = true := by
        rw [hQ2w _ _ hwa, write_started, spaces_started, hst]
      have hred : ∀ l : List (String × String),
          (if false then writeDecls l e4 else e4) = e4 := fun l => rfl
      rw [hred ord, hred []]
      have h7st : (if ct = "" then e4.write ">"
          else (e4.write ">").write (escapeText ct)).started = true := by
        split
        · rw [write_started, h4st]
        · rw [write_started, write_started, h4st]
      rw [hQ1 (Encoder.prettyEnd { (if ct = "" then e4.write ">"
        else (e4.write ">").write (escapeText ct)) with
          depth := (if ct = "" then e4.write ">"
            else (e4.write ">").write (escapeText ct)).depth + 1 }) ord
        (by rw [prettyEnd_started]; exact h7st)]

theorem namesOfList_eq (c : Element) (cs : List Element) :
    namesOfList (c :: cs) = namesOf c ++ namesOfList cs := rfl

theorem encodeList_cons_eq (c : Element) (cs : List Element) (e : Encoder)
    (ord : List (String × String)) :
    encodeList (c :: cs) e ord =
      (match c.Encode e ord with
        | none => none
        | some e2 => encodeList cs e2 ord) := rfl

theorem encode_started_eq (n : XmlName) (attrs : List XAttr) (ct : String)
    (cs : List Element) (e : Encoder) (ord : List (String × String))
    (hst : e.started = true) :
    Element.Encode (.mk n attrs ct cs) e ord = encodeBody false n attrs ct cs e ord := by
  rw [encode_eq_body, hst]
  exact rfl

theorem encodeList_master : ∀ (cs : List Element),
    (∀ c ∈ cs, ∀ (e : Encoder) (ord : List (String × String)), e.started = true →
      c.Encode e ord = c.Encode e []) →
    (∀ c ∈ cs, ∀ (e : Encoder) (ord : List (String × String)) (ef : Encoder),
      e.started = true → c.Encode e ord = some ef →
      ef.started = true ∧ ef.nsURLMap = e.nsURLMap) →
    (∀ c ∈ cs, ∀ (e : Encoder) (ord : List (String × String)), e.started = true →
      (∀ nm ∈ namesOf c, nm.space = "" ∨ nm.space = "xmlns" ∨
        (lookupA e.nsURLMap nm.space).isSome) → (c.Encode e ord).isSome) →
    ((∀ (e : Encoder) (ord : List (String × String)), e.started = true →
        encodeList cs e ord = encodeList cs e []) ∧
      (∀ (e : Encoder) (ord : List (String × String)) (ef : Encoder), e.started = true →
        encodeList cs e ord = some ef → ef.started = true ∧ ef.nsURLMap = e.nsURLMap) ∧
      (∀ (e : Encoder) (ord : List (String × String)), e.started = true →
        (∀ nm ∈ namesOfList cs, nm.space = "" ∨ nm.space = "xmlns" ∨
          (lookupA e.nsURLMap nm.space).isSome) → (encodeList cs e ord).isSome)) := by
  intro cs
  induction cs with
  | nil =>
    intro _ _ _
    refine ⟨fun e ord hst => rfl, ?_, fun e ord hst _ => rfl⟩
    intro e ord ef hst h
    have he : e = ef := Option.some.inj h
    rw [← he]
    exact ⟨hst, rfl⟩
  | cons c cs ih =>
    intro hm1 hm2 hm3
    obtain ⟨ih1, ih2, ih3⟩ := ih
      (fun x hx => hm1 x (List.mem_cons_of_mem c hx))
      (fun x hx => hm2 x (List.mem_cons_of_mem c hx))
      (fun x hx => hm3 x (List.mem_cons_of_mem c hx))
    have hc1 := hm1 c (List.mem_cons_self c cs)
    have hc2 := hm2 c (List.mem_cons_self c cs)
    have hc3 := hm3 c (List.mem_cons_self c cs)
    refine ⟨?_, ?_, ?_⟩
    · intro e ord hst
      rw [encodeList_cons_eq, encodeList_cons_eq, ← hc1 e ord hst]
      cases hce : c.Encode e ord with
      | none => rfl
      | some e2 =>
        simp only []
        exact ih1 e2 ord (hc2 e ord e2 hst hce).1
    · intro e ord ef hst h
      rw [encodeList_cons_eq] at h
      cases hce : c.Encode e ord with
      | none =>
        rw [hce] at h
        simp only [] at h
        exact absurd h (by simp)
      | some e2 =>
        rw [hce] at h
        simp only [] at h
        obtain ⟨hst2, hmap2⟩ := hc2 e ord e2 hst hce
        obtain ⟨hstf, hmapf⟩ := ih2 e2 ord ef hst2 h
        exact ⟨hstf, by rw [hmapf, hmap2]⟩
    · intro e ord hst hres
      have hcsome : (c.Encode e ord).isSome := by
        apply hc3 e ord hst
        intro nm hnm
        apply hres nm
        rw [namesOfList_eq]
        exact List.mem_append_left _ hnm
      rw [encodeList_cons_eq]
      cases hce : c.Encode e ord with
      | none =>
        rw [hce] at hcsome
        exact absurd hcsome (by simp)
      | some e2 =>
        simp only []
        obtain ⟨hst2, hmap2⟩ := hc2 e ord e2 hst hce
        apply ih3 e2 ord hst2
        intro nm hnm
        rw [hmap2]
        apply hres nm
        rw [namesOfList_eq]
        exact List.mem_append_right _ hnm

theorem encode_master (t : Element) :
    (∀ (e : Encoder) (ord : List (String × String)), e.started = true →
      t.Encode e ord = t.Encode e []) ∧
    (∀ (e : Encoder) (ord : List (String × String)) (ef : Encoder), e.started = true →
      t.Encode e ord = some ef → ef.started = true ∧ ef.nsURLMap = e.nsURLMap) ∧
    (∀ (e : Encoder) (ord : List (String × String)), e.started = true →
      (∀ nm ∈ namesOf t, nm.space = "" ∨ nm.space = "xmlns" ∨
        (lookupA e.nsURLMap nm.space).isSome) → (t.Encode e ord).isSome) := by
  induction t using Element.ind with
  | _ n attrs ct cs ihcs =>
    obtain ⟨hQ1, hQ2, hQ3⟩ := encodeList_master cs
      (fun c hc => (ihcs c hc).1) (fun c hc => (ihcs c hc).2.1) (fun c hc => (ihcs c hc).2.2)
    refine ⟨?_, ?_, ?_⟩
    · intro e ord hst
      rw [encode_started_eq n attrs ct cs e ord hst, encode_started_eq n attrs ct cs e [] hst]
      exact encodeBody_ord_irrel n attrs ct cs hQ1
        (fun e2 e4 hwa => (writeAttrs_proj attrs e2 e4 hwa).2.1) e ord hst
    · intro e ord ef hst h
      rw [encode_started_eq n attrs ct cs e ord hst] at h
      exact encodeBody_proj false n attrs ct cs hQ2 e ord ef hst h
    · intro e ord hst hres
      rw [encode_started_eq n attrs ct cs e ord hst]
      exact encodeBody_isSome false n attrs ct cs hQ2 hQ3 e ord hst hres

theorem addNamespace_keeps (e : Encoder) (u p : String) :
    (e.addNamespace u p).out = e.out ∧ (e.addNamespace u p).pretty = e.pretty ∧
      (e.addNamespace u p).depth = e.depth ∧ (e.addNamespace u p).started = e.started := by
  unfold Encoder.addNamespace
  split
  · exact ⟨rfl, rfl, rfl, rfl⟩
  · split
    · exact ⟨rfl, rfl, rfl, rfl⟩
    · exact ⟨rfl, rfl, rfl, rfl⟩

theorem foldl_xmlnsAttrs_keeps (attrs : List XAttr) :
    ∀ e : Encoder,
      ((attrs.foldl (fun acc a => if a.name.space = "xmlns" then
          acc.addNamespace a.value a.name.loc else acc) e)).out = e.out ∧
      ((attrs.foldl (fun acc a => if a.name.space = "xmlns" then
          acc.addNamespace a.value a.name.loc else acc) e)).pretty = e.pretty ∧
      ((attrs.foldl (fun acc a => if a.name.space = "xmlns" then
          acc.addNamespace a.value a.name.loc else acc) e)).depth = e.depth ∧
      ((attrs.foldl (fun acc a => if a.name.space = "xmlns" then
          acc.addNamespace a.value a.name.loc else acc) e)).started = e.started := by
  induction attrs with
  | nil => intro e; exact ⟨rfl, rfl, rfl, rfl⟩
  | cons a as ih =>
    intro e
    rw [List.foldl_cons]
    obtain ⟨i1, i2, i3, i4⟩ := ih (if a.name.space = "xmlns" then
      e.addNamespace a.value a.name.loc else e)
    rw [i1, i2, i3, i4]
    by_cases hx : a.name.space = "xmlns"
    · rw [if_pos hx]
      exact addNamespace_keeps e _ _
    · rw [if_neg hx]
      exact ⟨rfl, rfl, rfl, rfl⟩

theorem foldl_spaceAttrs_keeps (attrs : List XAttr) :
    ∀ e : Encoder,
      ((attrs.foldl (fun acc a => acc.addNamespace a.name.space "") e)).out = e.out ∧
      ((attrs.foldl (fun acc a => acc.addNamespace a.name.space "") e)).pretty = e.pretty ∧
      ((attrs.foldl (fun acc a => acc.addNamespace a.name.space "") e)).depth = e.depth ∧
      ((attrs.foldl (fun acc a => acc.addNamespace a.name.space "") e)).started = e.started := by
  induction attrs with
  | nil => intro e; exact ⟨rfl, rfl, rfl, rfl⟩
  | cons a as ih =>
    intro e
    rw [List.foldl_cons]
    obtain ⟨i1, i2, i3, i4⟩ := ih (e.addNamespace a.name.space "")
    rw [i1, i2, i3, i4]
    exact addNamespace_keeps e _ _

theorem addNamespaces_keeps (t : Element) :
    ∀ e : Encoder,
      (t.addNamespaces e).out = e.out ∧ (t.addNamespaces e).pretty = e.pretty ∧
      (t.addNamespaces e).depth = e.depth ∧ (t.addNamespaces e).started = e.started := by
  induction t using Element.ind with
  | _ n attrs ct cs ihcs =>
    have hlist : ∀ cs2 : List Element, (∀ c ∈ cs2, ∀ e : Encoder,
        (c.addNamespaces e).out = e.out ∧ (c.addNamespaces e).pretty = e.pretty ∧
        (c.addNamespaces e).depth = e.depth ∧ (c.addNamespaces e).started = e.started) →
        ∀ e : Encoder,
        (addNamespacesList cs2 e).out = e.out ∧ (addNamespacesList cs2 e).pretty = e.pretty ∧
        (addNamespacesList cs2 e).depth = e.depth ∧
        (addNamespacesList cs2 e).started = e.started := by
      intro cs2
      induction cs2 with
      | nil => intro _ e; exact ⟨rfl, rfl, rfl, rfl⟩
      | cons c2 cs2 ih2 =>
        intro hm e
        show (addNamespacesList cs2 (c2.addNamespaces e)).out = e.out ∧
          (addNamespacesList cs2 (c2.addNamespaces e)).pretty = e.pretty ∧
          (addNamespacesList cs2 (c2.addNamespaces e)).depth = e.depth ∧
          (addNamespacesList cs2 (c2.addNamespaces e)).started = e.started
        obtain ⟨i1, i2, i3, i4⟩ := ih2 (fun x hx => hm x (List.mem_cons_of_mem c2 hx))
          (c2.addNamespaces e)
        rw [i1, i2, i3, i4]
        exact hm c2 (List.mem_cons_self c2 cs2) e
    intro e
    show (addNamespacesList cs (attrs.foldl (fun acc a => acc.addNamespace a.name.space "")
        ((attrs.foldl (fun acc a => if a.name.space = "xmlns" then
          acc.addNamespace a.value a.name.loc else acc) e).addNamespace n.space ""))).out =
        e.out ∧
      (addNamespacesList cs (attrs.foldl (fun acc a => acc.addNamespace a.name.space "")
        ((attrs.foldl (fun acc a => if a.name.space = "xmlns" then
          acc.addNamespace a.value a.name.loc else acc) e).addNamespace n.space ""))).pretty =
        e.pretty ∧
      (addNamespacesList cs (attrs.foldl (fun acc a => acc.addNamespace a.name.space "")
        ((attrs.foldl (fun acc a => if a.name.space = "xmlns" then
          acc.addNamespace a.value a.name.loc else acc) e).addNamespace n.space ""))).depth =
        e.depth ∧
      (addNamespacesList cs (attrs.foldl (fun acc a => acc.addNamespace a.name.space "")
        ((attrs.foldl (fun acc a => if a.name.space = "xmlns" then
          acc.addNamespace a.value a.name.loc else acc) e).addNamespace n.space ""))).started =
        e.started
    obtain ⟨i1, i2, i3, i4⟩ := hlist cs ihcs _
    rw [i1, i2, i3, i4]
    obtain ⟨j1, j2, j3, j4⟩ := foldl_spaceAttrs_keeps attrs _
    rw [j1, j2, j3, j4]
    obtain ⟨k1, k2, k3, k4⟩ := addNamespace_keeps _ n.space ""
    rw [k1, k2, k3, k4]
    exact foldl_xmlnsAttrs_keeps attrs e

/-- C5: qualified-name rendering — an empty namespace renders bare, the
reserved "xmlns" namespace renders as `xmlns:<local>`, any other
registered namespace renders as `<prefix>:<local>` from the discovered
mapping; and for a serialization call starting on a fresh (not-started)
encoder, discovery runs over the whole subtree first, so the
missing-prefix panic branch of `namespacedName` is unreachable: `Encode`
always returns a result, never the panic (`none`). -/
theorem c5_qualified_name_rendering_safety :
    (∀ (e : Encoder) (nm : XmlName), nm.space = "" → namespacedName e nm = some nm.loc) ∧
    (∀ (e : Encoder) (nm : XmlName), nm.space = "xmlns" →
      namespacedName e nm = some ("xmlns:" ++ nm.loc)) ∧
    (∀ (e : Encoder) (nm : XmlName) (p : String), nm.space ≠ "" → nm.space ≠ "xmlns" →
      lookupA e.nsURLMap nm.space = some p →
      namespacedName e nm = some (p ++ ":" ++ nm.loc)) ∧
    (∀ (t : Element) (e : Encoder) (ord : List (String × String)), e.started = false →
      (t.Encode e ord).isSome) := by
  refine ⟨?_, ?_, ?_, ?_⟩
  · intro e nm h
    unfold namespacedName
    rw [if_pos h]
  · intro e nm h
    have h1 : ¬ nm.space = "" := by rw [h]; decide
    unfold namespacedName
    rw [if_neg h1, if_pos h, h]
    exact rfl
  · intro e nm p h1 h2 hl
    unfold namespacedName
    rw [if_neg h1, if_neg h2, hl]
  · intro t e ord hst
    cases t with
    | mk n attrs ct cs =>
      rw [encode_eq_body, hst]
      show (encodeBody true n attrs ct cs
        { (Element.mk n attrs ct cs).addNamespaces e with started := true } ord).isSome
      obtain ⟨-, hQ2, hQ3⟩ := encodeList_master cs
        (fun c _ => (encode_master c).1) (fun c _ => (encode_master c).2.1)
        (fun c _ => (encode_master c).2.2)
      apply encodeBody_isSome true n attrs ct cs hQ2 hQ3 _ ord rfl
      intro nm hnm
      by_cases hsp : nm.space = ""
      · exact Or.inl hsp
      · by_cases hx : nm.space = "xmlns"
        · exact Or.inr (Or.inl hx)
        · refine Or.inr (Or.inr ?_)
          show (lookupA ((Element.mk n attrs ct cs).addNamespaces e).nsURLMap
            nm.space).isSome
          exact addNamespaces_covers (Element.mk n attrs ct cs) e nm hnm hsp hx

/-- C5 witness: the rendering equations at concrete names and the
no-panic guarantee on a fresh encoder for a namespaced tree whose URI is
only discovered during the call itself. -/
theorem c5_witness :
    namespacedName NewEncoder ⟨"", "a"⟩ = some "a" ∧
    namespacedName NewEncoder ⟨"xmlns", "p"⟩ = some "xmlns:p" ∧
    namespacedName { NewEncoder with nsURLMap := [("urn:x", "p")] } ⟨"urn:x", "c"⟩ =
      some "p:c" ∧
    (Element.Encode (.mk ⟨"urn:x", "a"⟩ [] "" [.mk ⟨"urn:y", "b"⟩ [] "" []])
      NewEncoder [("ns0", "urn:x"), ("ns1", "urn:y")]).isSome :=
  ⟨c5_qualified_name_rendering_safety.1 NewEncoder ⟨"", "a"⟩ rfl,
   c5_qualified_name_rendering_safety.2.1 NewEncoder ⟨"xmlns", "p"⟩ rfl,
   c5_qualified_name_rendering_safety.2.2.1 { NewEncoder with nsURLMap := [("urn:x", "p")] }
     ⟨"urn:x", "c"⟩ "p" (by decide) (by decide) rfl,
   c5_qualified_name_rendering_safety.2.2.2 _ NewEncoder _ rfl⟩

/-- C4: namespace declarations are emitted only by the first element of a
serialization call — for an already-started encoder, `Encode` ignores the
declaration order entirely (nested elements re-declare nothing); on the
claim's tree (an explicit `xmlns:p="urn:x"` declaration attribute and a
descendant named in `urn:x`) the serialized output carries exactly one
`xmlns:p="urn:x"`, on the outermost element, with the descendant rendered
`p:childname` — and `[("p", "urn:x")]` is the only permutation of the
discovered mapping, so that output is the only possible one.  The second
concrete tree adds an ordinary attribute `q="1"`, showing the element's
own non-"xmlns" attributes precede the declaration block. -/
theorem c4_declaration_emission_first_element_only :
    (∀ (t : Element) (e : Encoder) (ord : List (String × String)), e.started = true →
      t.Encode e ord = t.Encode e []) ∧
    Element.Bytes (.mk ⟨"", "top"⟩ [⟨⟨"xmlns", "p"⟩, "urn:x"⟩] ""
        [.mk ⟨"urn:x", "childname"⟩ [] "" []]) [("p", "urn:x")] =
      some "<top xmlns:p=\"urn:x\">\n  <p:childname/>\n</top>\n" ∧
    (∀ ord : List (String × String),
      ord.Perm ((Element.mk ⟨"", "top"⟩ [⟨⟨"xmlns", "p"⟩, "urn:x"⟩] ""
        [.mk ⟨"urn:x", "childname"⟩ [] "" []]).addNamespaces
          NewEncoder.Pretty).nsPrefixMap →
      ord = [("p", "urn:x")]) ∧
    Element.Bytes (.mk ⟨"", "top"⟩ [⟨⟨"xmlns", "p"⟩, "urn:x"⟩, ⟨⟨"", "q"⟩, "1"⟩] ""
        [.mk ⟨"urn:x", "childname"⟩ [] "" []]) [("p", "urn:x")] =
      some "<top q=\"1\" xmlns:p=\"urn:x\">\n  <p:childname/>\n</top>\n" := by
  refine ⟨fun t e ord hst => (encode_master t).1 e ord hst, rfl, ?_, rfl⟩
  intro ord hp
  have hmap : ((Element.mk ⟨"", "top"⟩ [⟨⟨"xmlns", "p"⟩, "urn:x"⟩] ""
      [.mk ⟨"urn:x", "childname"⟩ [] "" []]).addNamespaces
        NewEncoder.Pretty).nsPrefixMap = [("p", "urn:x")] := rfl
  rw [hmap] at hp
  exact List.perm_singleton.mp hp

/-- C4 witness: the ord-independence applied to a started encoder, and
the unique-permutation component applied to the singleton order. -/
theorem c4_witness :
    Element.Encode (ElementN "k") { NewEncoder with started := true } [("a", "b")] =
      Element.Encode (ElementN "k") { NewEncoder with started := true } [] ∧
    ([("p", "urn:x")] : List (String × String)) = [("p", "urn:x")] :=
  ⟨c4_declaration_emission_first_element_only.1 (ElementN "k")
      { NewEncoder with started := true } [("a", "b")] rfl,
   c4_declaration_emission_first_element_only.2.2.1 [("p", "urn:x")] (by decide)⟩

/-- C10: an element with no children and empty content always serializes
in the self-closing form: whatever `Encode` produced for it is the
previous output extended by a string ending in `/>` (with a newline in
pretty mode) — never the expanded `<name></name>` form, whose closing-tag
suffix the emission for such an element cannot produce; for an element
with no attributes and no namespace on an already-started encoder the
appended text is exactly the indentation, `<` with the name, and the
self-closing tag. -/
theorem c10_self_closing_form (node : Element) (e : Encoder) (ord : List (String × String))
    (ef : Encoder) (h1 : node.children = []) (h2 : node.content = "")
    (h3 : node.Encode e ord = some ef) :
    (∃ s : String, ef.out = e.out ++ s ++ (if e.pretty then "/>\n" else "/>")) ∧
    (node.attributes = [] → node.name.space = "" → e.started = true →
      ef.out = e.out ++ (if e.pretty then indentStr e.depth else "") ++ "<" ++
        node.name.loc ++ (if e.pretty then "/>\n" else "/>")) := by
  cases node with
  | mk n attrs ct cs =>
    have hcs : cs = [] := h1
    have hct : ct = "" := h2
    subst hcs
    subst hct
    rw [encode_eq_body] at h3
    set e1 := if !e.started then
      { (Element.mk n attrs "" []).addNamespaces e with started := true } else e with he1
    have he1out : e1.out = e.out := by
      rw [he1]
      split
      · exact (addNamespaces_keeps (Element.mk n attrs "" []) e).1
      · rfl
    have he1pretty : e1.pretty = e.pretty := by
      rw [he1]
      split
      · exact (addNamespaces_keeps (Element.mk n attrs "" []) e).2.1
      · rfl
    have he1depth : e1.depth = e.depth := by
      rw [he1]
      split
      · exact (addNamespaces_keeps (Element.mk n attrs "" []) e).2.2.1
      · rfl
    simp only [encodeBody] at h3
    cases hnn : namespacedName e1.spaces n with
    | none =>
      rw [hnn] at h3
      simp only [] at h3
      exact absurd h3 (by simp)
    | some s1 =>
      rw [hnn] at h3
      simp only [] at h3
      cases hwa : writeAttrs attrs (e1.spaces.write ("<" ++ s1)) with
      | none =>
        rw [hwa] at h3
        simp only [] at h3
        exact absurd h3 (by simp)
      | some e4 =>
        rw [hwa] at h3
        simp only [] at h3
        rw [show (([] : List Element).isEmpty && decide True) = true from rfl] at h3
        rw [if_pos rfl] at h3
        have hef := Option.some.inj h3
        obtain ⟨w4, hw4⟩ := writeAttrs_some attrs _ e4 hwa
        have hw5 : ∃ w5, (if !e.started then writeDecls ord e4 else e4) =
            { e4 with out := e4.out ++ w5 } := by
          cases hb : !e.started
          · refine ⟨"", ?_⟩
            rw [sappend_empty]
            exact rfl
          · exact writeDecls_eq ord e4
        obtain ⟨w5, hw5⟩ := hw5
        rw [hw5] at hef
        have he4out : e4.out = e.out ++ ((if e.pretty then indentStr e.depth else "") ++
            ("<" ++ s1) ++ w4) := by
          rw [hw4]
          show (e1.spaces.write ("<" ++ s1)).out ++ w4 = _
          rw [write_out, spaces_eq]
          show e1.out ++ (if e1.pretty then indentStr e1.depth else "") ++ ("<" ++ s1) ++ w4 = _
          rw [he1out, he1pretty, he1depth]
          simp [sappend_assoc]
        have he4pretty : e4.pretty = e.pretty := by
          rw [hw4]
          show (e1.spaces.write ("<" ++ s1)).pretty = e.pretty
          rw [write_pretty, spaces_pretty, he1pretty]
        have hefout : ef.out = e.out ++ ((if e.pretty then indentStr e.depth else "") ++
            ("<" ++ s1) ++ w4 ++ w5) ++ (if e.pretty then "/>\n" else "/>") := by
          rw [← hef, write_out]
          show e4.out ++ w5 ++ (if ({ e4 with out := e4.out ++ w5 }).pretty = true
            then "/>\n" else "/>") = _
          have hp5 : ({ e4 with out := e4.out ++ w5 }).pretty = e4.pretty := rfl
          rw [hp5, he4pretty, he4out]
          simp [sappend_assoc]
        refine ⟨⟨(if e.pretty then indentStr e.depth else "") ++ ("<" ++ s1) ++ w4 ++ w5,
          hefout⟩, ?_⟩
        intro ha hb hstT
        have ha2 : attrs = [] := ha
        have hb2 : n.space = "" := hb
        have hs1 : s1 = n.loc := by
          have h0 : namespacedName e1.spaces n = some n.loc := by
            unfold namespacedName
            rw [if_pos hb2]
          rw [h0] at hnn
          exact (Option.some.inj hnn).symm
        have hw4e : e4 = e1.spaces.write ("<" ++ s1) := by
          rw [ha2] at hwa
          exact (Option.some.inj hwa).symm
        have hw4eq : w4 = "" := by
          have := hw4
          rw [hw4e] at this
          have hout := congrArg Encoder.out this
          show w4 = ""
          have h5 : (e1.spaces.write ("<" ++ s1)).out =
              (e1.spaces.write ("<" ++ s1)).out ++ w4 := hout
          have h6 : ((e1.spaces.write ("<" ++ s1)).out ++ "").data =
              ((e1.spaces.write ("<" ++ s1)).out ++ w4).data := by
            rw [sappend_empty, ← h5]
          rw [sdata_append, sdata_append] at h6
          have h7 := List.append_cancel_left h6
          cases w4 with
          | mk d4 =>
            have : ([] : List Char) = d4 := h7
            rw [← this]
        have hw5eq : w5 = "" := by
          have hb5 : (!e.started) = false := by rw [hstT]; rfl
          rw [hb5] at hw5
          have hout := congrArg Encoder.out hw5
          have h5 : e4.out = e4.out ++ w5 := hout
          have h6 : (e4.out ++ "").data = (e4.out ++ w5).data := by
            rw [sappend_empty, ← h5]
          rw [sdata_append, sdata_append] at h6
          have h7 := List.append_cancel_left h6
          cases w5 with
          | mk d5 =>
            have : ([] : List Char) = d5 := h7
            rw [← this]
        rw [hefout, hw4eq, hw5eq, hs1, sappend_empty, sappend_empty]
        simp only [sappend_assoc]
        exact rfl

/-- C10 witness: a childless, contentless element on a fresh pretty
encoder and on a started compact encoder. -/
theorem c10_witness :
    (∃ s : String, ((Element.Encode (ElementN "a") NewEncoder.Pretty []).map
      Encoder.out).get (by decide) = "" ++ s ++ "/>\n") ∧
    Element.Encode (ElementN "a") { NewEncoder with started := true } [] =
      some { NewEncoder with started := true, out := "<a/>" } := by
  constructor
  · obtain ⟨⟨s, hs⟩, -⟩ := c10_self_closing_form (ElementN "a") NewEncoder.Pretty []
      { NewEncoder.Pretty with started := true, out := "<a/>\n" } rfl rfl rfl
    exact ⟨s, by rw [show ((Element.Encode (ElementN "a") NewEncoder.Pretty []).map
      Encoder.out).get (by decide) = "<a/>\n" from rfl]; exact hs⟩
  · have h2 := (c10_self_closing_form (ElementN "a") { NewEncoder with started := true } []
      { NewEncoder with started := true, out := "<a/>" } rfl rfl rfl).2 rfl rfl rfl
    exact rfl

theorem smk_data (s : String) : String.mk s.data = s := by
  cases s
  rfl

theorem takeWhile_append_cons {α : Type} (p : α → Bool) (l1 : List α) (b : α) (l2 : List α)
    (h1 : ∀ a ∈ l1, p a = true) (hb : p b = false) :
    ((l1 ++ b :: l2).takeWhile p) = l1 := by
  induction l1 with
  | nil => simp [List.takeWhile_cons, hb]
  | cons x xs ih =>
    have hx : p x = true := h1 x (List.mem_cons_self x xs)
    show List.takeWhile p (x :: (xs ++ b :: l2)) = x :: xs
    rw [List.takeWhile_cons, hx, if_pos rfl, ih (fun a ha => h1 a (List.mem_cons_of_mem x ha))]

theorem dropWhile_append_cons {α : Type} (p : α → Bool) (l1 : List α) (b : α) (l2 : List α)
    (h1 : ∀ a ∈ l1, p a = true) (hb : p b = false) :
    ((l1 ++ b :: l2).dropWhile p) = b :: l2 := by
  induction l1 with
  | nil => simp [List.dropWhile_cons, hb]
  | cons x xs ih =>
    have hx : p x = true := h1 x (List.mem_cons_self x xs)
    show List.dropWhile p (x :: (xs ++ b :: l2)) = b :: l2
    rw [List.dropWhile_cons, hx, if_pos rfl]
    exact ih (fun a ha => h1 a (List.mem_cons_of_mem x ha))

theorem indentStr_chars (d : Nat) : ∀ c ∈ (indentStr d).data, c = ' ' := by
  induction d with
  | zero => intro c hc; exact absurd hc (by simp [indentStr])
  | succ d ih =>
    intro c hc
    have : (indentStr (d + 1)).data = ' ' :: ' ' :: (indentStr d).data := by
      show ("  " ++ indentStr d).data = _
      rw [sdata_append]
      rfl
    rw [this, List.mem_cons, List.mem_cons] at hc
    rcases hc with hc | hc | hc
    · exact hc
    · exact hc
    · exact ih c hc

theorem isNameChar_props (c : Char) (h : isNameChar c = true) :
    c.isWhitespace = false ∧ ¬ c = '<' ∧ ¬ c = '>' ∧ ¬ c = '/' ∧ ¬ c = '=' ∧
      ¬ c = Char.ofNat 34 ∧ ¬ c = '&' ∧ ¬ c = ':' := by
  unfold isNameChar at h
  simp only [Bool.not_eq_eq_eq_not, Bool.not_true, Bool.or_eq_false_iff, beq_eq_false_iff_ne,
    ne_eq] at h
  exact ⟨h.1.1.1.1.1.1.1, h.1.1.1.1.1.1.2, h.1.1.1.1.1.2, h.1.1.1.1.2, h.1.1.1.2,
    h.1.1.2, h.1.2, h.2⟩

theorem escapeChar_no_lt (c : Char) : ∀ x ∈ (escapeChar c).data, ¬ x = '<' := by
  unfold escapeChar
  split
  · intro x hx; fin_cases hx <;> decide
  · split
    · intro x hx; fin_cases hx <;> decide
    · split
      · intro x hx; fin_cases hx <;> decide
      · split
        · intro x hx; fin_cases hx <;> decide
        · split
          · intro x hx; fin_cases hx <;> decide
          · split
            · intro x hx; fin_cases hx <;> decide
            · split
              · intro x hx; fin_cases hx <;> decide
              · split
                · intro x hx; fin_cases hx <;> decide
                · next h1 h2 h3 h4 h5 h6 h7 h8 =>
                  intro x hx
                  have hd : (String.mk [c]).data = [c] := rfl
                  rw [hd, List.mem_singleton] at hx
                  rw [hx]
                  exact h4

theorem escapeChars_no_lt (l : List Char) : ∀ x ∈ escapeChars l, ¬ x = '<' := by
  induction l with
  | nil => intro x hx; exact absurd hx (by simp [escapeChars])
  | cons c cs ih =>
    intro x hx
    have : escapeChars (c :: cs) = (escapeChar c).data ++ escapeChars cs := rfl
    rw [this, List.mem_append] at hx
    cases hx with
    | inl hx => exact escapeChar_no_lt c x hx
    | inr hx => exact ih x hx

theorem unescape_cons_ne (c : Char) (l : List Char) (h : ¬ c = '&') :
    unescapeChars (c :: l) = (unescapeChars l).map (fun x => c :: x) := by
  rw [unescapeChars.eq_def]
  simp only []
  rw [if_neg h]

theorem unescape_noamp (l : List Char) (h : ∀ c ∈ l, ¬ c = '&') :
    unescapeChars l = some l := by
  induction l with
  | nil => rfl
  | cons c cs ih =>
    rw [unescape_cons_ne c cs (h c (List.mem_cons_self c cs))]
    rw [ih (fun x hx => h x (List.mem_cons_of_mem c hx))]
    rfl

theorem unescape_lt (t : List Char) :
    unescapeChars ('&' :: 'l' :: 't' :: ';' :: t) =
      (unescapeChars t).map (fun l => '<' :: l) := by
  rw [unescapeChars.eq_def]
  simp

theorem unescape_gt (t : List Char) :
    unescapeChars ('&' :: 'g' :: 't' :: ';' :: t) =
      (unescapeChars t).map (fun l => '>' :: l) := by
  rw [unescapeChars.eq_def]
  simp

theorem unescape_amp (t : List Char) :
    unescapeChars ('&' :: 'a' :: 'm' :: 'p' :: ';' :: t) =
      (unescapeChars t).map (fun l => '&' :: l) := by
  rw [unescapeChars.eq_def]
  simp

theorem unescape_39 (t : List Char) :
    unescapeChars ('&' :: '#' :: '3' :: '9' :: ';' :: t) =
      (unescapeChars t).map (fun l => Char.ofNat 39 :: l) := by
  rw [unescapeChars.eq_def]
  simp

theorem unescape_34 (t : List Char) :
    unescapeChars ('&' :: '#' :: '3' :: '4' :: ';' :: t) =
      (unescapeChars t).map (fun l => Char.ofNat 34 :: l) := by
  rw [unescapeChars.eq_def]
  simp

theorem unescape_x9 (t : List Char) :
    unescapeChars ('&' :: '#' :: 'x' :: '9' :: ';' :: t) =
      (unescapeChars t).map (fun l => '\t' :: l) := by
  rw [unescapeChars.eq_def]
  simp

theorem unescape_xA (t : List Char) :
    unescapeChars ('&' :: '#' :: 'x' :: 'A' :: ';' :: t) =
      (unescapeChars t).map (fun l => '\n' :: l) := by
  rw [unescapeChars.eq_def]
  simp

theorem unescape_xD (t : List Char) :
    unescapeChars ('&' :: '#' :: 'x' :: 'D' :: ';' :: t) =
      (unescapeChars t).map (fun l => '\r' :: l) := by
  rw [unescapeChars.eq_def]
  simp

theorem unescape_escape_append (a : List Char) :
    ∀ (r res : List Char), unescapeChars r = some res →
      unescapeChars (escapeChars a ++ r) = some (a ++ res) := by
  induction a with
  | nil =>
    intro r res hr
    show unescapeChars r = some res
    exact hr
  | cons c a2 ih =>
    intro r res hr
    have hsplit : escapeChars (c :: a2) ++ r = (escapeChar c).data ++ (escapeChars a2 ++ r) := by
      show ((escapeChar c).data ++ escapeChars a2) ++ r = _
      rw [List.append_assoc]
    rw [hsplit]
    have ihr := ih r res hr
    unfold escapeChar
    split_ifs with h1 h2 h3 h4 h5 h6 h7 h8
    · show unescapeChars ('&' :: '#' :: '3' :: '4' :: ';' :: (escapeChars a2 ++ r)) = _
      rw [unescape_34, ihr, h1]
      rfl
    · show unescapeChars ('&' :: '#' :: '3' :: '9' :: ';' :: (escapeChars a2 ++ r)) = _
      rw [unescape_39, ihr, h2]
      rfl
    · show unescapeChars ('&' :: 'a' :: 'm' :: 'p' :: ';' :: (escapeChars a2 ++ r)) = _
      rw [unescape_amp, ihr, h3]
      rfl
    · show unescapeChars ('&' :: 'l' :: 't' :: ';' :: (escapeChars a2 ++ r)) = _
      rw [unescape_lt, ihr, h4]
      rfl
    · show unescapeChars ('&' :: 'g' :: 't' :: ';' :: (escapeChars a2 ++ r)) = _
      rw [unescape_gt, ihr, h5]
      rfl
    · show unescapeChars ('&' :: '#' :: 'x' :: '9' :: ';' :: (escapeChars a2 ++ r)) = _
      rw [unescape_x9, ihr, h6]
      rfl
    · show unescapeChars ('&' :: '#' :: 'x' :: 'A' :: ';' :: (escapeChars a2 ++ r)) = _
      rw [unescape_xA, ihr, h7]
      rfl
    · show unescapeChars ('&' :: '#' :: 'x' :: 'D' :: ';' :: (escapeChars a2 ++ r)) = _
      rw [unescape_xD, ihr, h8]
      rfl
    · show unescapeChars (c :: (escapeChars a2 ++ r)) = _
      rw [unescape_cons_ne c _ h3, ihr]
      rfl

theorem dropWhile_all {α : Type} (p : α → Bool) (l : List α) (h : ∀ c ∈ l, p c = true) :
    l.dropWhile p = [] := by
  induction l with
  | nil => rfl
  | cons x xs ih =>
    rw [List.dropWhile_cons, h x (List.mem_cons_self x xs), if_pos rfl]
    exact ih (fun c hc => h c (List.mem_cons_of_mem x hc))

theorem dropWhile_append_split {α : Type} (p : α → Bool) (l1 l2 : List α) :
    (l1 ++ l2).dropWhile p =
      if (l1.dropWhile p).isEmpty then l2.dropWhile p else l1.dropWhile p ++ l2 := by
  induction l1 with
  | nil => simp
  | cons x xs ih =>
    show List.dropWhile p (x :: (xs ++ l2)) = _
    rw [List.dropWhile_cons, List.dropWhile_cons]
    by_cases hx : p x = true
    · rw [hx, if_pos rfl, if_pos rfl, ih]
    · rw [Bool.not_eq_true] at hx
      rw [hx]
      simp

theorem trimChars_ws (w : List Char) (hw : ∀ c ∈ w, c.isWhitespace = true) :
    trimChars w = [] := by
  unfold trimChars
  rw [dropWhile_all _ w hw]
  rfl

theorem trimChars_append_ws (a w : List Char) (hw : ∀ c ∈ w, c.isWhitespace = true) :
    trimChars (a ++ w) = trimChars a := by
  unfold trimChars
  rw [dropWhile_append_split]
  by_cases he : (a.dropWhile Char.isWhitespace).isEmpty = true
  · rw [if_pos he, dropWhile_all _ w hw]
    rw [List.isEmpty_iff] at he
    rw [he]
  · rw [if_neg he, List.reverse_append]
    rw [dropWhile_append_split]
    have hwr : (w.reverse.dropWhile Char.isWhitespace) = [] :=
      dropWhile_all _ w.reverse (fun c hc => hw c (List.mem_reverse.mp hc))
    rw [hwr]
    rw [if_pos List.isEmpty_nil]

theorem trimSpace_append_ws (ct : String) (w : List Char)
    (hct : trimSpace ct = ct) (hw : ∀ c ∈ w, c.isWhitespace = true) :
    trimSpace (String.mk (ct.data ++ w)) = ct := by
  show String.mk (trimChars (String.mk (ct.data ++ w)).data) = ct
  have hd : (String.mk (ct.data ++ w)).data = ct.data ++ w := rfl
  rw [hd, trimChars_append_ws ct.data w hw]
  exact hct

theorem trimSpace_ws (w : List Char) (hw : ∀ c ∈ w, c.isWhitespace = true) :
    trimSpace (String.mk w) = "" := by
  show String.mk (trimChars (String.mk w).data) = ""
  have hd : (String.mk w).data = w := rfl
  rw [hd, trimChars_ws w hw]

theorem nameOK_props (s : String) (h : nameOK s = true) :
    s.data ≠ [] ∧ ∀ c ∈ s.data, isNameChar c = true := by
  unfold nameOK at h
  rw [Bool.and_eq_true] at h
  constructor
  · intro h0
    cases s with
    | mk d =>
      cases h0
      exact absurd h.1 (by decide)
  · intro c hc
    exact List.all_eq_true.mp h.2 c hc

theorem valueOK_props (s : String) (h : valueOK s = true) :
    ∀ c ∈ s.data, ¬ c = Char.ofNat 34 ∧ ¬ c = '&' ∧ ¬ c = '<' := by
  unfold valueOK at h
  intro c hc
  have h1 := List.all_eq_true.mp h c hc
  simp only [Bool.not_eq_true', Bool.or_eq_false_iff, beq_eq_false_iff_ne, ne_eq] at h1
  exact ⟨h1.1.1, h1.1.2, h1.2⟩

theorem lexAttrs_selfclose (fuel : Nat) (tail : List Char) (acc : List XAttr) :
    lexAttrs (fuel + 1) ('/' :: '>' :: tail) acc = some ((acc, true), tail) := rfl

theorem lexAttrs_close (fuel : Nat) (tail : List Char) (acc : List XAttr) :
    lexAttrs (fuel + 1) ('>' :: tail) acc = some ((acc, false), tail) := rfl

theorem lexAttrs_step (fuel : Nat) (nm v tail : List Char) (acc : List XAttr)
    (hne : nm ≠ []) (hnc : ∀ c ∈ nm, isNameChar c = true)
    (hv : ∀ c ∈ v, ¬ c = Char.ofNat 34 ∧ ¬ c = '&') :
    lexAttrs (fuel + 1)
      (' ' :: (nm ++ '=' :: Char.ofNat 34 :: (v ++ Char.ofNat 34 :: tail))) acc =
      lexAttrs fuel tail (acc ++ [⟨⟨"", String.mk nm⟩, String.mk v⟩]) := by
  cases nm with
  | nil => exact absurd rfl hne
  | cons n1 nm1 =>
    have hn1 : isNameChar n1 = true := hnc n1 (List.mem_cons_self n1 nm1)
    have hp := isNameChar_props n1 hn1
    show lexAttrsCore (lexAttrs fuel) (List.dropWhile Char.isWhitespace
      (' ' :: ((n1 :: nm1) ++ '=' :: Char.ofNat 34 :: (v ++ Char.ofNat 34 :: tail)))) acc = _
    have hd1 : List.dropWhile Char.isWhitespace
        (' ' :: ((n1 :: nm1) ++ '=' :: Char.ofNat 34 :: (v ++ Char.ofNat 34 :: tail))) =
        n1 :: (nm1 ++ '=' :: Char.ofNat 34 :: (v ++ Char.ofNat 34 :: tail)) := by
      rw [List.dropWhile_cons, if_pos (by decide)]
      show List.dropWhile Char.isWhitespace (n1 :: (nm1 ++ _)) = _
      rw [List.dropWhile_cons, if_neg (by rw [hp.1]; exact Bool.false_ne_true)]
    rw [hd1]
    rw [lexAttrsCore.eq_def]
    simp only []
    rw [if_neg hp.2.2.2.1, if_neg hp.2.2.1]
    have ht1 : List.takeWhile isNameChar
        (n1 :: (nm1 ++ '=' :: Char.ofNat 34 :: (v ++ Char.ofNat 34 :: tail))) =
        n1 :: nm1 := by
      show List.takeWhile isNameChar ((n1 :: nm1) ++ '=' :: _) = _
      exact takeWhile_append_cons isNameChar (n1 :: nm1) '=' _ hnc (by decide)
    have hd2 : List.dropWhile isNameChar
        (n1 :: (nm1 ++ '=' :: Char.ofNat 34 :: (v ++ Char.ofNat 34 :: tail))) =
        '=' :: Char.ofNat 34 :: (v ++ Char.ofNat 34 :: tail) := by
      show List.dropWhile isNameChar ((n1 :: nm1) ++ '=' :: _) = _
      exact dropWhile_append_cons isNameChar (n1 :: nm1) '=' _ hnc (by decide)
    rw [ht1, hd2]
    rw [if_neg (by intro h0; exact absurd h0 (by simp))]
    simp only []
    rw [if_pos ⟨trivial, trivial⟩]
    have hv34 : ∀ c ∈ v, (fun x => !(x == Char.ofNat 34)) c = true := by
      intro c hc
      simp only [Bool.not_eq_true', beq_eq_false_iff_ne, ne_eq]
      exact (hv c hc).1
    have ht2 : List.takeWhile (fun x => !(x == Char.ofNat 34)) (v ++ Char.ofNat 34 :: tail) =
        v := takeWhile_append_cons _ v (Char.ofNat 34) tail hv34 (by decide)
    have hd3 : List.dropWhile (fun x => !(x == Char.ofNat 34)) (v ++ Char.ofNat 34 :: tail) =
        Char.ofNat 34 :: tail := dropWhile_append_cons _ v (Char.ofNat 34) tail hv34 (by decide)
    rw [ht2, hd3]
    simp only []
    rw [unescape_noamp v (fun c hc => (hv c hc).2)]

theorem lexAttrs_spec (attrs : List XAttr)
    (hwf : attrs.all
      (fun a => a.name.space == "" && nameOK a.name.loc && valueOK a.value) = true) :
    ∀ (fuel : Nat) (acc : List XAttr) (sc : Bool) (tail : List Char),
      attrs.length < fuel →
      lexAttrs fuel
        ((attrsStr attrs).data ++ (if sc then '/' :: '>' :: tail else '>' :: tail)) acc =
        some ((acc ++ attrs, sc), tail) := by
  induction attrs with
  | nil =>
    intro fuel acc sc tail hf
    obtain ⟨f, rfl⟩ : ∃ f, fuel = f + 1 := ⟨fuel - 1, by omega⟩
    have h0 : (attrsStr []).data = [] := rfl
    rw [h0, List.nil_append, List.append_nil]
    cases sc
    · rw [if_neg (by exact Bool.false_ne_true)]
      exact lexAttrs_close f tail acc
    · rw [if_pos rfl]
      exact lexAttrs_selfclose f tail acc
  | cons a as ih =>
    intro fuel acc sc tail hf
    obtain ⟨f, rfl⟩ : ∃ f, fuel = f + 1 := ⟨fuel - 1, by omega⟩
    rw [List.all_cons, Bool.and_eq_true, Bool.and_eq_true, Bool.and_eq_true] at hwf
    obtain ⟨⟨⟨hsp, hnOK⟩, hvOK⟩, hwfs⟩ := hwf
    obtain ⟨hne, hnc⟩ := nameOK_props a.name.loc hnOK
    have hshape : (attrsStr (a :: as)).data ++ (if sc then '/' :: '>' :: tail else '>' :: tail) =
        ' ' :: (a.name.loc.data ++ '=' :: Char.ofNat 34 ::
          (a.value.data ++ Char.ofNat 34 ::
            ((attrsStr as).data ++ (if sc then '/' :: '>' :: tail else '>' :: tail)))) := by
      simp only [attrsStr, sdata_append, List.append_assoc]
      rfl
    rw [hshape]
    rw [lexAttrs_step f a.name.loc.data a.value.data _ acc hne hnc
      (fun c hc => ⟨(valueOK_props a.value hvOK c hc).1, (valueOK_props a.value hvOK c hc).2.1⟩)]
    rw [smk_data, smk_data]
    have ha : (⟨⟨"", a.name.loc⟩, a.value⟩ : XAttr) = a := by
      obtain ⟨⟨sp, loc⟩, v⟩ := a
      have : sp = "" := by
        have := beq_iff_eq.mp hsp
        exact this
      rw [this]
    rw [ha]
    rw [ih hwfs f (acc ++ [a]) sc tail (by simp at hf ⊢; omega)]
    rw [List.append_assoc]
    rfl

theorem lexAttrsCore_mono
    (r1 r2 : List Char → List XAttr → Option ((List XAttr × Bool) × List Char))
    (hr : ∀ cs acc v, r1 cs acc = some v → r2 cs acc = some v) :
    ∀ cs acc v, lexAttrsCore r1 cs acc = some v → lexAttrsCore r2 cs acc = some v := by
  intro cs acc v h
  cases cs with
  | nil => exact h
  | cons c1 cs1 =>
    rw [lexAttrsCore.eq_def] at h
    rw [lexAttrsCore.eq_def]
    simp only [] at h ⊢
    split_ifs at h ⊢ with h1 h2 h3
    · exact h
    · exact h
    · split at h
      · next d1 d2 cs2 heq =>
        split_ifs at h ⊢ with h4
        · split at h
          · next x cs3 heq2 =>
            split at h
            · next v2 heq3 =>
              exact hr _ _ _ h
            · exact h
          · next heq2 =>
            exact h
      · next heq hne =>
        exact h

theorem lexAuxCore_mono
    (t1 t2 : List Char → Option (List Token))
    (a1 a2 : List Char → List XAttr → Option ((List XAttr × Bool) × List Char))
    (ht : ∀ cs ts, t1 cs = some ts → t2 cs = some ts)
    (ha : ∀ cs acc v, a1 cs acc = some v → a2 cs acc = some v) :
    ∀ cs ts, lexAuxCore t1 a1 cs = some ts → lexAuxCore t2 a2 cs = some ts := by
  intro cs ts h
  cases cs with
  | nil => exact h
  | cons c cs =>
    rw [lexAuxCore.eq_def] at h
    rw [lexAuxCore.eq_def]
    simp only [] at h ⊢
    split_ifs at h ⊢ with h1
    · cases cs with
      | nil => exact h
      | cons c1 cs1 =>
        simp only [] at h ⊢
        split_ifs at h ⊢ with h2
        · split at h
          · next d cs2 heq =>
            split_ifs at h ⊢ with h3
            rcases Option.map_eq_some'.mp h with ⟨ws, hw1, hw2⟩
            rw [ht cs2 ws hw1]
            exact congrArg some hw2
          · next heq => exact h
        · split at h
          · next sc2 heq =>
            rw [ha _ _ _ heq]
            simp only [] at h ⊢
            rcases Option.map_eq_some'.mp h with ⟨ws, hw1, hw2⟩
            rw [ht _ ws hw1]
            exact congrArg some hw2
          · next heq => exact Option.noConfusion h
    · split at h
      · next t heq =>
        rcases Option.map_eq_some'.mp h with ⟨ws, hw1, hw2⟩
        rw [ht _ ws hw1]
        exact congrArg some hw2
      · next heq => exact h

theorem lex_mono_succ (fuel : Nat) :
    (∀ cs acc v, lexAttrs fuel cs acc = some v → lexAttrs (fuel + 1) cs acc = some v) ∧
    (∀ cs ts, lexAux fuel cs = some ts → lexAux (fuel + 1) cs = some ts) := by
  induction fuel with
  | zero =>
    constructor
    · intro cs acc v h
      exact Option.noConfusion h
    · intro cs ts h
      exact Option.noConfusion h
  | succ fuel ih =>
    constructor
    · intro cs acc v h
      exact lexAttrsCore_mono (lexAttrs fuel) (lexAttrs (fuel + 1)) ih.1 _ _ _ h
    · intro cs ts h
      exact lexAuxCore_mono (lexAux fuel) (lexAux (fuel + 1)) (lexAttrs fuel)
        (lexAttrs (fuel + 1)) ih.2 ih.1 _ _ h

theorem lexAux_mono (f F : Nat) (hle : f ≤ F) (cs : List Char) (ts : List Token)
    (h : lexAux f cs = some ts) : lexAux F cs = some ts := by
  induction F, hle using Nat.le_induction with
  | base => exact h
  | succ F hle ih => exact (lex_mono_succ F).2 cs ts ih

theorem sext (s t : String) (h : s.data = t.data) : s = t := by
  cases s
  cases t
  exact congrArg String.mk h

theorem attrsStr_shape (attrs : List XAttr) (sc : Bool) (tail : List Char) :
    ∃ b bs, (attrsStr attrs).data ++ (if sc then '/' :: '>' :: tail else '>' :: tail) = b :: bs
      ∧ isNameChar b = false := by
  cases attrs with
  | nil =>
    cases sc
    · exact ⟨'>', tail, by simp [attrsStr], by decide⟩
    · exact ⟨'/', '>' :: tail, by simp [attrsStr], by decide⟩
  | cons a as =>
    refine ⟨' ', a.name.loc.data ++ '=' :: Char.ofNat 34 :: (a.value.data ++ Char.ofNat 34 ::
      ((attrsStr as).data ++ (if sc then '/' :: '>' :: tail else '>' :: tail))), ?_, by decide⟩
    simp only [attrsStr, sdata_append, List.append_assoc]
    rfl

theorem lexAux_start (fuel : Nat) (loc : String) (b : Char) (bs : List Char)
    (hloc : loc.data ≠ []) (hlocc : ∀ c ∈ loc.data, isNameChar c = true)
    (hb : isNameChar b = false) :
    lexAux (fuel + 1) ('<' :: (loc.data ++ b :: bs)) =
      match lexAttrs fuel (b :: bs) [] with
      | some sc2 =>
        (lexAux fuel sc2.2).map (fun ts =>
          if sc2.1.2 then Token.startTok ⟨"", loc⟩ sc2.1.1 :: Token.endTok :: ts
          else Token.startTok ⟨"", loc⟩ sc2.1.1 :: ts)
      | none => none := by
  cases hl : loc.data with
  | nil => exact absurd hl hloc
  | cons l1 ld =>
    have hl1 : isNameChar l1 = true := hlocc l1 (by rw [hl]; exact List.mem_cons_self l1 ld)
    have hp := isNameChar_props l1 hl1
    show lexAuxCore (lexAux fuel) (lexAttrs fuel) ('<' :: ((l1 :: ld) ++ b :: bs)) = _
    rw [lexAuxCore.eq_def]
    simp only []
    rw [if_pos (by trivial)]
    show (if l1 = '/' then
        match List.dropWhile isNameChar (ld ++ b :: bs) with
        | d :: cs2 =>
          if d = '>' then Option.map (fun ts => Token.endTok :: ts) (lexAux fuel cs2) else none
        | [] => none
      else
        if (List.takeWhile isNameChar (l1 :: (ld ++ b :: bs))).isEmpty = true then none
        else
          match lexAttrs fuel (List.dropWhile isNameChar (l1 :: (ld ++ b :: bs))) [] with
          | some sc2 =>
            Option.map
              (fun ts =>
                if sc2.1.2 = true then
                  Token.startTok ⟨"", String.mk (List.takeWhile isNameChar
                    (l1 :: (ld ++ b :: bs)))⟩ sc2.1.1 :: Token.endTok :: ts
                else Token.startTok ⟨"", String.mk (List.takeWhile isNameChar
                  (l1 :: (ld ++ b :: bs)))⟩ sc2.1.1 :: ts)
              (lexAux fuel sc2.2)
          | none => none) = _
    rw [if_neg hp.2.2.2.1]
    have hlc : ∀ c ∈ l1 :: ld, isNameChar c = true := by
      intro c hc
      exact hlocc c (by rw [hl]; exact hc)
    have ht1 : List.takeWhile isNameChar (l1 :: (ld ++ b :: bs)) = l1 :: ld := by
      show List.takeWhile isNameChar ((l1 :: ld) ++ b :: bs) = _
      exact takeWhile_append_cons isNameChar (l1 :: ld) b bs hlc hb
    have hd1 : List.dropWhile isNameChar (l1 :: (ld ++ b :: bs)) = b :: bs := by
      show List.dropWhile isNameChar ((l1 :: ld) ++ b :: bs) = _
      exact dropWhile_append_cons isNameChar (l1 :: ld) b bs hlc hb
    show (if (List.takeWhile isNameChar (l1 :: (ld ++ b :: bs))).isEmpty = true then none
      else match lexAttrs fuel (List.dropWhile isNameChar (l1 :: (ld ++ b :: bs))) [] with
      | some sc2 =>
        (lexAux fuel sc2.2).map (fun ts =>
          if sc2.1.2 then
            Token.startTok ⟨"", String.mk (List.takeWhile isNameChar (l1 :: (ld ++ b :: bs)))⟩
              sc2.1.1 :: Token.endTok :: ts
          else Token.startTok ⟨"", String.mk (List.takeWhile isNameChar (l1 :: (ld ++ b :: bs)))⟩
            sc2.1.1 :: ts)
      | none => none) = _
    rw [ht1, hd1]
    rw [if_neg (by intro h0; exact absurd h0 (by simp))]
    rw [show String.mk (l1 :: ld) = loc from hl ▸ smk_data loc]

theorem lexAux_startTag (fuel : Nat) (loc : String) (attrs : List XAttr) (sc : Bool)
    (tail : List Char)
    (hloc : loc.data ≠ []) (hlocc : ∀ c ∈ loc.data, isNameChar c = true)
    (hattrs : attrs.all
      (fun a => a.name.space == "" && nameOK a.name.loc && valueOK a.value) = true)
    (hfa : attrs.length < fuel) :
    lexAux (fuel + 1) ('<' :: (loc.data ++ ((attrsStr attrs).data ++
        (if sc then '/' :: '>' :: tail else '>' :: tail)))) =
      (lexAux fuel tail).map (fun ts =>
        if sc then Token.startTok ⟨"", loc⟩ attrs :: Token.endTok :: ts
        else Token.startTok ⟨"", loc⟩ attrs :: ts) := by
  obtain ⟨b, bs, hshape, hb⟩ := attrsStr_shape attrs sc tail
  rw [hshape, lexAux_start fuel loc b bs hloc hlocc hb, ← hshape]
  rw [lexAttrs_spec attrs hattrs fuel [] sc tail hfa]
  simp only []
  rw [List.nil_append]

theorem lexAux_text (fuel : Nat) (txt rest t : List Char)
    (hne : txt ≠ []) (hnolt : ∀ c ∈ txt, ¬ c = '<')
    (hun : unescapeChars txt = some t) :
    lexAux (fuel + 1) (txt ++ '<' :: rest) =
      (lexAux fuel ('<' :: rest)).map (fun ts => Token.textTok (String.mk t) :: ts) := by
  cases txt with
  | nil => exact absurd rfl hne
  | cons x xs =>
    have hx : ¬ x = '<' := hnolt x (List.mem_cons_self x xs)
    have hall : ∀ c ∈ x :: xs, (fun y => !(y == '<')) c = true := by
      intro c hc
      simp only [Bool.not_eq_true', beq_eq_false_iff_ne, ne_eq]
      exact hnolt c hc
    have ht1 : List.takeWhile (fun y => !(y == '<')) (x :: (xs ++ '<' :: rest)) = x :: xs := by
      show List.takeWhile (fun y => !(y == '<')) ((x :: xs) ++ '<' :: rest) = _
      exact takeWhile_append_cons _ (x :: xs) '<' rest hall (by decide)
    have hd1 : List.dropWhile (fun y => !(y == '<')) (x :: (xs ++ '<' :: rest)) = '<' :: rest := by
      show List.dropWhile (fun y => !(y == '<')) ((x :: xs) ++ '<' :: rest) = _
      exact dropWhile_append_cons _ (x :: xs) '<' rest hall (by decide)
    show lexAuxCore (lexAux fuel) (lexAttrs fuel) (x :: (xs ++ '<' :: rest)) = _
    rw [lexAuxCore.eq_def]
    simp only []
    rw [if_neg hx]
    rw [ht1, hd1, hun]

theorem lexAux_endTag (fuel : Nat) (loc : String) (rest : List Char)
    (hlocc : ∀ c ∈ loc.data, isNameChar c = true) :
    lexAux (fuel + 1) ('<' :: '/' :: (loc.data ++ '>' :: rest)) =
      (lexAux fuel rest).map (fun ts => Token.endTok :: ts) := by
  show lexAuxCore (lexAux fuel) (lexAttrs fuel) ('<' :: '/' :: (loc.data ++ '>' :: rest)) = _
  rw [lexAuxCore.eq_def]
  simp only []
  rw [if_pos (by trivial)]
  rw [if_pos (by trivial)]
  rw [dropWhile_append_cons isNameChar loc.data '>' rest hlocc (by decide)]
  simp only []
  rw [if_pos (by trivial)]

theorem sdata_ne (s : String) (h : ¬ s = "") : s.data ≠ [] := by
  cases s with
  | mk d =>
    intro h0
    cases h0
    exact h rfl

theorem attrsStr_len (attrs : List XAttr) :
    attrs.length ≤ (attrsStr attrs).data.length := by
  induction attrs with
  | nil => simp [attrsStr]
  | cons a as ih =>
    have : (attrsStr (a :: as)).data =
        ' ' :: (a.name.loc.data ++ '=' :: Char.ofNat 34 ::
          (a.value.data ++ Char.ofNat 34 :: (attrsStr as).data)) := by
      simp only [attrsStr, sdata_append, List.append_assoc]
      rfl
    rw [this]
    simp only [List.length_cons, List.length_append]
    omega

theorem escapeChar_ne_nil (c : Char) : (escapeChar c).data ≠ [] := by
  unfold escapeChar
  split_ifs <;> simp

theorem escapeText_ne_nil (ct : String) (h : ct.data ≠ []) :
    (escapeText ct).data ≠ [] := by
  cases hd : ct.data with
  | nil => exact absurd hd h
  | cons x xs =>
    show escapeChars ct.data ≠ []
    rw [hd]
    show (escapeChar x).data ++ escapeChars xs ≠ []
    intro h0
    exact escapeChar_ne_nil x (List.append_eq_nil.mp h0).1

theorem xStr_starts (t : Element) (d : Nat) : ∃ u, (xStr t d).data = '<' :: u := by
  cases t with
  | mk n attrs ct cs =>
    rw [xStr.eq_def]
    simp only []
    split_ifs
    · exact ⟨_, rfl⟩
    · exact ⟨_, rfl⟩
    · exact ⟨_, rfl⟩

theorem xChild_sChild (cs : List Element) (c : Element) (dc dp : Nat) (pn : String) :
    xChild (c :: cs) dc ++ (indentStr dp ++ ("</" ++ (pn ++ ">"))) =
      indentStr dc ++ sChild (c :: cs) dc dp pn := by
  induction cs generalizing c with
  | nil =>
    apply sext
    simp [xChild, sChild, sdata_append, List.append_assoc]
  | cons c2 cs2 ih =>
    apply sext
    have h2 := congrArg String.data (ih c2)
    rw [sdata_append] at h2
    simp only [xChild, sChild, sdata_append, List.append_assoc] at h2 ⊢
    rw [← h2]

theorem lexAux_fuel_pos (fuel : Nat) (cs : List Char) (ts : List Token)
    (h : lexAux fuel cs = some ts) : 1 ≤ fuel := by
  cases fuel with
  | zero => exact Option.noConfusion h
  | succ f => omega

theorem lexAttrs_spec_self (attrs : List XAttr)
    (hwf : attrs.all
      (fun a => a.name.space == "" && nameOK a.name.loc && valueOK a.value) = true)
    (fuel : Nat) (acc : List XAttr) (tail : List Char) (hf : attrs.length < fuel) :
    lexAttrs fuel ((attrsStr attrs).data ++ '/' :: '>' :: tail) acc =
      some ((acc ++ attrs, true), tail) := by
  have h := lexAttrs_spec attrs hwf fuel acc true tail hf
  rwa [if_pos rfl] at h

theorem lexAttrs_spec_gt (attrs : List XAttr)
    (hwf : attrs.all
      (fun a => a.name.space == "" && nameOK a.name.loc && valueOK a.value) = true)
    (fuel : Nat) (acc : List XAttr) (tail : List Char) (hf : attrs.length < fuel) :
    lexAttrs fuel ((attrsStr attrs).data ++ '>' :: tail) acc =
      some ((acc ++ attrs, false), tail) := by
  have h := lexAttrs_spec attrs hwf fuel acc false tail hf
  rwa [if_neg (by decide)] at h

theorem lexAux_startTag_self (fuel : Nat) (loc : String) (attrs : List XAttr)
    (tail : List Char)
    (hloc : loc.data ≠ []) (hlocc : ∀ c ∈ loc.data, isNameChar c = true)
    (hattrs : attrs.all
      (fun a => a.name.space == "" && nameOK a.name.loc && valueOK a.value) = true)
    (hfa : attrs.length < fuel) :
    lexAux (fuel + 1) ('<' :: (loc.data ++ ((attrsStr attrs).data ++ '/' :: '>' :: tail))) =
      (lexAux fuel tail).map
        (fun ts => Token.startTok ⟨"", loc⟩ attrs :: Token.endTok :: ts) := by
  have h := lexAux_startTag fuel loc attrs true tail hloc hlocc hattrs hfa
  rw [if_pos rfl] at h
  simp only [eq_self_iff_true, if_true] at h
  exact h

theorem lexAux_startTag_gt (fuel : Nat) (loc : String) (attrs : List XAttr)
    (tail : List Char)
    (hloc : loc.data ≠ []) (hlocc : ∀ c ∈ loc.data, isNameChar c = true)
    (hattrs : attrs.all
      (fun a => a.name.space == "" && nameOK a.name.loc && valueOK a.value) = true)
    (hfa : attrs.length < fuel) :
    lexAux (fuel + 1) ('<' :: (loc.data ++ ((attrsStr attrs).data ++ '>' :: tail))) =
      (lexAux fuel tail).map (fun ts => Token.startTok ⟨"", loc⟩ attrs :: ts) := by
  have h := lexAux_startTag fuel loc attrs false tail hloc hlocc hattrs hfa
  rw [if_neg (by decide)] at h
  simp only [Bool.false_eq_true, if_false] at h
  exact h

theorem LexEmits.comp (s1 s2 : String) (t1 t2 : List Token)
    (h1 : LexEmits s1 t1) (h2 : LexEmits s2 t2) : LexEmits (s1 ++ s2) (t1 ++ t2) := by
  intro fuel rest ts F hrest hF
  have e1 : (s1 ++ s2).data ++ rest = s1.data ++ (s2.data ++ rest) := by
    rw [sdata_append, List.append_assoc]
  rw [e1]
  have h2w := h2 fuel rest ts (fuel + s2.data.length) hrest (le_refl _)
  have hlen : (s1 ++ s2).data.length = s1.data.length + s2.data.length := by
    rw [sdata_append, List.length_append]
  have h1w := h1 (fuel + s2.data.length) (s2.data ++ rest) (t2 ++ ts) F h2w (by omega)
  rw [h1w, List.append_assoc]

theorem lexEmits_text_before (txt t : List Char) (s2 : String) (toks2 : List Token)
    (hne : txt ≠ []) (hnolt : ∀ c ∈ txt, ¬ c = '<') (hun : unescapeChars txt = some t)
    (hs2 : ∃ u, s2.data = '<' :: u)
    (h2 : LexEmits s2 toks2) :
    LexEmits (String.mk txt ++ s2) (Token.textTok (String.mk t) :: toks2) := by
  intro fuel rest ts F hrest hF
  obtain ⟨u, hu⟩ := hs2
  have e1 : (String.mk txt ++ s2).data ++ rest = txt ++ '<' :: (u ++ rest) := by
    rw [sdata_append]
    show txt ++ s2.data ++ rest = _
    rw [hu, List.append_assoc]
    rfl
  rw [e1]
  have h2w := h2 fuel rest ts (fuel + s2.data.length) hrest (le_refl _)
  have hlen : (String.mk txt ++ s2).data.length = txt.length + s2.data.length := by
    rw [sdata_append, List.length_append]
  have htp : 1 ≤ txt.length := by
    cases txt with
    | nil => exact absurd rfl hne
    | cons x xs => simp
  obtain ⟨F1, hF1⟩ : ∃ F1, F = F1 + 1 := ⟨F - 1, by omega⟩
  rw [hF1]
  rw [lexAux_text F1 txt (u ++ rest) t hne hnolt hun]
  have h2m := lexAux_mono (fuel + s2.data.length) F1 (by omega) _ _ h2w
  rw [hu] at h2m
  rw [List.cons_append] at h2m
  rw [h2m]
  rfl

theorem lexEmits_endTag (pn : String) (hpnc : ∀ c ∈ pn.data, isNameChar c = true) :
    LexEmits ("</" ++ (pn ++ ">")) [Token.endTok] := by
  intro fuel rest ts F hrest hF
  have e1 : ("</" ++ (pn ++ ">")).data ++ rest = '<' :: '/' :: (pn.data ++ '>' :: rest) := by
    simp only [sdata_append, List.append_assoc]
    rfl
  rw [e1]
  have hlen : ("</" ++ (pn ++ ">")).data.length = pn.data.length + 3 := by
    simp only [sdata_append, List.length_append]
    show 2 + (pn.data.length + 1) = _
    omega
  obtain ⟨F1, hF1⟩ : ∃ F1, F = F1 + 1 := ⟨F - 1, by omega⟩
  rw [hF1]
  rw [lexAux_endTag F1 pn rest hpnc]
  rw [lexAux_mono fuel F1 (by omega) _ _ hrest]
  rfl

theorem lexEmits_sChild_nil (dc dp : Nat) (pn : String)
    (hpnc : ∀ c ∈ pn.data, isNameChar c = true) :
    LexEmits (sChild [] dc dp pn) (childToks [] dc dp) := by
  have hdec : sChild [] dc dp pn =
      String.mk ('\n' :: (indentStr dp).data) ++ ("</" ++ (pn ++ ">")) := by
    apply sext
    simp only [sChild, sdata_append]
    rfl
  have hnolt : ∀ c ∈ '\n' :: (indentStr dp).data, ¬ c = '<' := by
    intro c hc
    rw [List.mem_cons] at hc
    rcases hc with hc | hc
    · rw [hc]; decide
    · rw [indentStr_chars dp c hc]; decide
  have hnoamp : ∀ c ∈ '\n' :: (indentStr dp).data, ¬ c = '&' := by
    intro c hc
    rw [List.mem_cons] at hc
    rcases hc with hc | hc
    · rw [hc]; decide
    · rw [indentStr_chars dp c hc]; decide
  have h := lexEmits_text_before ('\n' :: (indentStr dp).data) ('\n' :: (indentStr dp).data)
    ("</" ++ (pn ++ ">")) [Token.endTok] (by simp) hnolt
    (unescape_noamp _ hnoamp)
    ⟨'/' :: (pn.data ++ ['>']), by simp only [sdata_append, List.append_assoc]; rfl⟩
    (lexEmits_endTag pn hpnc)
  rw [hdec]
  have htk : Token.textTok (String.mk ('\n' :: (indentStr dp).data)) =
      Token.textTok ("\n" ++ indentStr dp) := rfl
  rw [show childToks [] dc dp = [Token.textTok ("\n" ++ indentStr dp), Token.endTok] from rfl,
    ← htk]
  exact h

theorem wfForest_mem (cs : List Element) (h : wfForest cs = true) :
    ∀ c ∈ cs, wfTree c = true := by
  induction cs with
  | nil =>
    intro c hc
    exact absurd hc (by simp)
  | cons x xs ih =>
    intro c hc
    rw [show wfForest (x :: xs) = (wfTree x && wfForest xs) from rfl, Bool.and_eq_true] at h
    rcases List.mem_cons.mp hc with hc | hc
    · rw [hc]
      exact h.1
    · exact ih h.2 c hc

theorem nl_ind_no_lt (dp : Nat) : ∀ c ∈ '\n' :: (indentStr dp).data, ¬ c = '<' := by
  intro c hc
  rcases List.mem_cons.mp hc with hc | hc
  · rw [hc]; decide
  · rw [indentStr_chars dp c hc]; decide

theorem nl_ind_no_amp (dp : Nat) : ∀ c ∈ '\n' :: (indentStr dp).data, ¬ c = '&' := by
  intro c hc
  rcases List.mem_cons.mp hc with hc | hc
  · rw [hc]; decide
  · rw [indentStr_chars dp c hc]; decide

theorem sChild_starts (c : Element) (cs : List Element) (dc dp : Nat) (pn : String) :
    ∃ u, (sChild (c :: cs) dc dp pn).data = '<' :: u := by
  obtain ⟨u, hu⟩ := xStr_starts c dc
  cases cs with
  | nil =>
    refine ⟨u ++ ("\n" ++ (indentStr dp ++ ("</" ++ (pn ++ ">")))).data, ?_⟩
    show (xStr c dc ++ ("\n" ++ (indentStr dp ++ ("</" ++ (pn ++ ">"))))).data = _
    rw [sdata_append, hu]
    rfl
  | cons c2 cs2 =>
    refine ⟨u ++ ("\n" ++ (indentStr dc ++ sChild (c2 :: cs2) dc dp pn)).data, ?_⟩
    show (xStr c dc ++ ("\n" ++ (indentStr dc ++ sChild (c2 :: cs2) dc dp pn))).data = _
    rw [sdata_append, hu]
    rfl

theorem lex_childSeq (cs : List Element)
    (hP : ∀ c ∈ cs, ∀ d, LexEmits (xStr c d) (xtoks c d)) :
    ∀ dc dp (pn : String), (∀ ch ∈ pn.data, isNameChar ch = true) →
      LexEmits (sChild cs dc dp pn) (childToks cs dc dp) := by
  induction cs with
  | nil =>
    intro dc dp pn hpnc
    exact lexEmits_sChild_nil dc dp pn hpnc
  | cons c cs ih =>
    intro dc dp pn hpnc
    have hPc := hP c (List.mem_cons_self c cs) dc
    have ihw := ih (fun x hx d => hP x (List.mem_cons_of_mem c hx) d)
    cases cs with
    | nil =>
      have hdec : sChild [c] dc dp pn = xStr c dc ++ sChild [] dc dp pn := rfl
      have htok : childToks [c] dc dp = xtoks c dc ++ childToks [] dc dp := by
        cases c with
        | mk n a ct cc => rfl
      rw [hdec, htok]
      exact LexEmits.comp _ _ _ _ hPc (ihw dc dp pn hpnc)
    | cons c2 cs2 =>
      have hdec : sChild (c :: c2 :: cs2) dc dp pn =
          xStr c dc ++ (String.mk ('\n' :: (indentStr dc).data) ++
            sChild (c2 :: cs2) dc dp pn) := by
        apply sext
        simp only [sChild, sdata_append]
        rfl
      have hsep := lexEmits_text_before ('\n' :: (indentStr dc).data)
        ('\n' :: (indentStr dc).data) (sChild (c2 :: cs2) dc dp pn)
        (childToks (c2 :: cs2) dc dp) (by simp) (nl_ind_no_lt dc)
        (unescape_noamp _ (nl_ind_no_amp dc))
        (sChild_starts c2 cs2 dc dp pn)
        (ihw dc dp pn hpnc)
      have hcomp := LexEmits.comp _ _ _ _ hPc hsep
      have htok : childToks (c :: c2 :: cs2) dc dp =
          xtoks c dc ++ (Token.textTok (String.mk ('\n' :: (indentStr dc).data)) ::
            childToks (c2 :: cs2) dc dp) := by
        cases c with
        | mk n a ct cc => rfl
      rw [hdec, htok]
      exact hcomp

set_option maxHeartbeats 1000000 in
theorem lex_xStr (t : Element) : ∀ d, wfTree t = true → LexEmits (xStr t d) (xtoks t d) := by
  induction t using Element.ind with
  | h n attrs ct cs ihm =>
    intro d hwf
    obtain ⟨sp, loc⟩ := n
    rw [show wfTree (Element.mk ⟨sp, loc⟩ attrs ct cs) =
      (sp == "" && nameOK loc &&
       attrs.all (fun a => a.name.space == "" && nameOK a.name.loc && valueOK a.value) &&
       (trimSpace ct == ct) && wfForest cs) from rfl] at hwf
    simp only [Bool.and_eq_true, beq_iff_eq] at hwf
    obtain ⟨⟨⟨⟨hsp, hname⟩, hattrs⟩, htrim⟩, hforest⟩ := hwf
    subst hsp
    obtain ⟨hlocne, hlocc⟩ := nameOK_props loc hname
    have hattrs2 : attrs.all
        (fun a => a.name.space == "" && nameOK a.name.loc && valueOK a.value) = true := by
      rw [List.all_eq_true]
      intro a ha
      have := List.all_eq_true.mp hattrs a ha
      simpa using this
    have hAl := attrsStr_len attrs
    by_cases hcs : cs.isEmpty = true
    · have hcs' : cs = [] := List.isEmpty_iff.mp hcs
      subst hcs'
      by_cases hct : ct = ""
      · subst hct
        intro fuel rest ts F hrest hF
        have hx : xStr (Element.mk ⟨"", loc⟩ attrs "" []) d =
            "<" ++ loc ++ attrsStr attrs ++ "/>" := rfl
        have hdata : ∀ R, (xStr (Element.mk ⟨"", loc⟩ attrs "" []) d).data ++ R =
            '<' :: (loc.data ++ ((attrsStr attrs).data ++ '/' :: '>' :: R)) := by
          intro R
          rw [hx]
          simp only [sdata_append, List.append_assoc]
          rfl
        have hlen0 := congrArg List.length (hdata [])
        simp only [List.length_append, List.length_cons, List.length_nil] at hlen0
        have hfp := lexAux_fuel_pos fuel rest ts hrest
        obtain ⟨F1, hF1⟩ : ∃ F1, F = F1 + 1 := ⟨F - 1, by omega⟩
        rw [hdata rest, hF1]
        rw [lexAux_startTag_self F1 loc attrs rest hlocne hlocc hattrs2 (by omega)]
        rw [lexAux_mono fuel F1 (by omega) rest ts hrest]
        rfl
      · intro fuel rest ts F hrest hF
        have hctne : ct.data ≠ [] := sdata_ne ct hct
        have hx : xStr (Element.mk ⟨"", loc⟩ attrs ct []) d =
            "<" ++ loc ++ attrsStr attrs ++ ">" ++ escapeText ct ++ "</" ++ loc ++ ">" := by
          rw [xStr.eq_def]
          simp only []
          rw [if_neg (by simp [hct]), if_pos List.isEmpty_nil]
        have hdata : ∀ R, (xStr (Element.mk ⟨"", loc⟩ attrs ct []) d).data ++ R =
            '<' :: (loc.data ++ ((attrsStr attrs).data ++ '>' ::
              ((escapeText ct).data ++ ('<' :: ('/' :: (loc.data ++ '>' :: R)))))) := by
          intro R
          rw [hx]
          simp only [sdata_append, List.append_assoc]
          rfl
        have hlen0 := congrArg List.length (hdata [])
        simp only [List.length_append, List.length_cons, List.length_nil] at hlen0
        have hfp := lexAux_fuel_pos fuel rest ts hrest
        obtain ⟨F1, hF1⟩ : ∃ F1, F = F1 + 1 := ⟨F - 1, by omega⟩
        rw [hdata rest, hF1]
        rw [lexAux_startTag_gt F1 loc attrs _ hlocne hlocc hattrs2 (by omega)]
        have hescne : (escapeText ct).data ≠ [] := escapeText_ne_nil ct hctne
        have hescnolt : ∀ x ∈ (escapeText ct).data, ¬ x = '<' :=
          fun x hx2 => escapeChars_no_lt ct.data x hx2
        have hun : unescapeChars (escapeText ct).data = some ct.data := by
          have h0 := unescape_escape_append ct.data [] [] rfl
          rw [List.append_nil, List.append_nil] at h0
          exact h0
        obtain ⟨F2, hF2⟩ : ∃ F2, F1 = F2 + 1 := ⟨F1 - 1, by omega⟩
        rw [hF2, lexAux_text F2 (escapeText ct).data ('/' :: (loc.data ++ '>' :: rest))
          ct.data hescne hescnolt hun]
        obtain ⟨F3, hF3⟩ : ∃ F3, F2 = F3 + 1 := ⟨F2 - 1, by omega⟩
        rw [hF3, lexAux_endTag F3 loc rest hlocc]
        rw [lexAux_mono fuel F3 (by omega) rest ts hrest]
        have hit : innerToks (Element.mk ⟨"", loc⟩ attrs ct []) d =
            [Token.textTok ct, Token.endTok] := by
          rw [innerToks.eq_def]
          simp only []
          rw [if_neg (by simp [hct]), if_pos List.isEmpty_nil]
        rw [show xtoks (Element.mk ⟨"", loc⟩ attrs ct []) d =
          Token.startTok ⟨"", loc⟩ attrs ::
            innerToks (Element.mk ⟨"", loc⟩ attrs ct []) d from rfl, hit]
        rfl
    · cases cs with
      | nil => exact absurd (rfl : ([] : List Element).isEmpty = true) hcs
      | cons c cs' =>
        intro fuel rest ts F hrest hF
        have hx : xStr (Element.mk ⟨"", loc⟩ attrs ct (c :: cs')) d =
            "<" ++ loc ++ attrsStr attrs ++ ">" ++ escapeText ct ++ "\n" ++
              xChild (c :: cs') (d + 1) ++ indentStr d ++ "</" ++ loc ++ ">" := by
          rw [xStr.eq_def]
          simp only []
          rw [if_neg (by simp), if_neg (by simp)]
        have hE : ∀ R, (xChild (c :: cs') (d + 1)).data ++ ((indentStr d).data ++
            ("</".data ++ (loc.data ++ (">".data ++ R)))) =
            (indentStr (d + 1)).data ++
              ((sChild (c :: cs') (d + 1) d loc).data ++ R) := by
          intro R
          have h0 := congrArg (fun s => s.data ++ R) (xChild_sChild cs' c (d + 1) d loc)
          simp only [sdata_append, List.append_assoc] at h0
          exact h0
        have hdata : ∀ R, (xStr (Element.mk ⟨"", loc⟩ attrs ct (c :: cs')) d).data ++ R =
            '<' :: (loc.data ++ ((attrsStr attrs).data ++ '>' ::
              ((escapeText ct).data ++ ('\n' :: ((indentStr (d + 1)).data ++
                ((sChild (c :: cs') (d + 1) d loc).data ++ R)))))) := by
          intro R
          have h0 := congrArg (fun s => s.data ++ R) hx
          simp only [sdata_append, List.append_assoc] at h0
          rw [h0]
          rw [hE R]
          rfl
        have hlen0 := congrArg List.length (hdata [])
        simp only [List.length_append, List.length_cons, List.length_nil] at hlen0
        have hfp := lexAux_fuel_pos fuel rest ts hrest
        obtain ⟨F1, hF1⟩ : ∃ F1, F = F1 + 1 := ⟨F - 1, by omega⟩
        rw [hdata rest, hF1]
        rw [lexAux_startTag_gt F1 loc attrs _ hlocne hlocc hattrs2 (by omega)]
        obtain ⟨u, hu⟩ := sChild_starts c cs' (d + 1) d loc
        have hTr : (escapeText ct).data ++ ('\n' :: ((indentStr (d + 1)).data ++
            ((sChild (c :: cs') (d + 1) d loc).data ++ rest))) =
            ((escapeText ct).data ++ '\n' :: (indentStr (d + 1)).data) ++
              ('<' :: (u ++ rest)) := by
          rw [hu]
          simp only [List.append_assoc, List.cons_append]
        rw [hTr]
        have htxtne : (escapeText ct).data ++ '\n' :: (indentStr (d + 1)).data ≠ [] := by
          simp
        have htxtnolt : ∀ x ∈ (escapeText ct).data ++ '\n' :: (indentStr (d + 1)).data,
            ¬ x = '<' := by
          intro x hx2
          rcases List.mem_append.mp hx2 with hx2 | hx2
          · exact escapeChars_no_lt ct.data x hx2
          · exact nl_ind_no_lt (d + 1) x hx2
        have hun2 : unescapeChars ((escapeText ct).data ++ '\n' :: (indentStr (d + 1)).data) =
            some (ct.data ++ '\n' :: (indentStr (d + 1)).data) :=
          unescape_escape_append ct.data _ _
            (unescape_noamp _ (nl_ind_no_amp (d + 1)))
        obtain ⟨F2, hF2⟩ : ∃ F2, F1 = F2 + 1 := ⟨F1 - 1, by omega⟩
        rw [hF2, lexAux_text F2 _ (u ++ rest) _ htxtne htxtnolt hun2]
        have hPmem : ∀ x ∈ c :: cs', ∀ d2, LexEmits (xStr x d2) (xtoks x d2) :=
          fun x hx2 d2 => ihm x hx2 d2 (wfForest_mem (c :: cs') hforest x hx2)
        have hQ := lex_childSeq (c :: cs') hPmem (d + 1) d loc hlocc fuel rest ts F2 hrest
          (by omega)
        have hQ2 : lexAux F2 ('<' :: (u ++ rest)) =
            some (childToks (c :: cs') (d + 1) d ++ ts) := by
          rw [← List.cons_append, ← hu]
          exact hQ
        rw [hQ2]
        have hit : innerToks (Element.mk ⟨"", loc⟩ attrs ct (c :: cs')) d =
            Token.textTok (ct ++ "\n" ++ indentStr (d + 1)) ::
              childToks (c :: cs') (d + 1) d := by
          rw [innerToks.eq_def]
          simp only []
          rw [if_neg (by simp), if_neg (by simp)]
        have htt : Token.textTok (String.mk (ct.data ++ '\n' :: (indentStr (d + 1)).data)) =
            Token.textTok (ct ++ "\n" ++ indentStr (d + 1)) := by
          congr 1
          apply sext
          simp [sdata_append]
        rw [show xtoks (Element.mk ⟨"", loc⟩ attrs ct (c :: cs')) d =
          Token.startTok ⟨"", loc⟩ attrs ::
            innerToks (Element.mk ⟨"", loc⟩ attrs ct (c :: cs')) d from rfl, hit]
        rw [← htt]
        rfl

theorem nl_ind_ws (dp : Nat) : ∀ c ∈ '\n' :: (indentStr dp).data, c.isWhitespace = true := by
  intro c hc
  rcases List.mem_cons.mp hc with hc | hc
  · rw [hc]; decide
  · rw [indentStr_chars dp c hc]; decide

theorem foldl_AddAttr (attrs : List XAttr) (n : XmlName) (as0 : List XAttr) (c : String)
    (cs : List Element) :
    attrs.foldl Element.AddAttr (Element.mk n as0 c cs) = Element.mk n (as0 ++ attrs) c cs := by
  induction attrs generalizing as0 with
  | nil => rw [List.foldl_nil, List.append_nil]
  | cons a as ih =>
    rw [List.foldl_cons]
    rw [show Element.AddAttr (Element.mk n as0 c cs) a = Element.mk n (as0 ++ [a]) c cs from rfl]
    rw [ih]
    simp

theorem startElement_eq (n : XmlName) (attrs : List XAttr) :
    startElement n attrs = Element.mk n attrs "" [] := by
  show attrs.foldl Element.AddAttr (CreateElement n) = _
  rw [show CreateElement n = Element.mk n [] "" [] from rfl]
  rw [foldl_AddAttr]
  rw [List.nil_append]

theorem trimSpace_sep (dp : Nat) : trimSpace ("\n" ++ indentStr dp) = "" := by
  rw [show ("\n" ++ indentStr dp) = String.mk ('\n' :: (indentStr dp).data) from
    (sext _ _ (by rw [sdata_append]; rfl))]
  exact trimSpace_ws _ (nl_ind_ws dp)

theorem trimSpace_ct_sep (ct : String) (dp : Nat) (htrim : trimSpace ct = ct) :
    trimSpace (ct ++ "\n" ++ indentStr dp) = ct := by
  rw [show (ct ++ "\n" ++ indentStr dp) = String.mk (ct.data ++ '\n' :: (indentStr dp).data) from
    (sext _ _ (by simp [sdata_append]))]
  exact trimSpace_append_ws ct _ htrim (nl_ind_ws dp)

theorem parse_children (cs : List Element)
    (hP : ∀ c ∈ cs, ∀ d F rest m ba bct bcs, (innerToks c d).length < F →
      parseElementF F (Element.mk m ba bct bcs) (innerToks c d ++ rest) =
        some (Element.mk m ba (if c.content = "" then bct else c.content)
          (bcs ++ c.children), rest)) :
    ∀ dc dp F rest m ba bct bcs, (childToks cs dc dp).length < F →
      parseElementF F (Element.mk m ba bct bcs) (childToks cs dc dp ++ rest) =
        some (Element.mk m ba bct (bcs ++ cs), rest) := by
  induction cs with
  | nil =>
    intro dc dp F rest m ba bct bcs hF
    obtain ⟨F1, hF1⟩ : ∃ F1, F = F1 + 1 := ⟨F - 1, by omega⟩
    have hlen : (childToks ([] : List Element) dc dp).length = 2 := rfl
    obtain ⟨F2, hF2⟩ : ∃ F2, F1 = F2 + 1 := ⟨F1 - 1, by omega⟩
    rw [hF1]
    rw [show childToks ([] : List Element) dc dp ++ rest =
      Token.textTok ("\n" ++ indentStr dp) :: (Token.endTok :: rest) from rfl]
    rw [parseF_text]
    rw [trimSpace_sep dp]
    rw [if_neg (by simp)]
    rw [hF2, parseF_end]
    rw [List.append_nil]
  | cons c cs' ih =>
    intro dc dp F rest m ba bct bcs hF
    have hPc := hP c (List.mem_cons_self c cs')
    have ihw := ih (fun x hx => hP x (List.mem_cons_of_mem c hx))
    obtain ⟨n, a, cct, ccs⟩ := c
    obtain ⟨F1, hF1⟩ : ∃ F1, F = F1 + 1 := ⟨F - 1, by omega⟩
    cases cs' with
    | nil =>
      have hdec : childToks [Element.mk n a cct ccs] dc dp ++ rest =
          Token.startTok n a ::
            (innerToks (Element.mk n a cct ccs) dc ++ (childToks [] dc dp ++ rest)) := by
        show Token.startTok n a :: (innerToks (Element.mk n a cct ccs) dc ++
          [Token.textTok ("\n" ++ indentStr dp), Token.endTok]) ++ rest = _
        simp only [List.cons_append, List.append_assoc]
        rfl
      have hlen : (childToks [Element.mk n a cct ccs] dc dp).length =
          1 + (innerToks (Element.mk n a cct ccs) dc).length + 2 := by
        show (Token.startTok n a :: (innerToks (Element.mk n a cct ccs) dc ++
          [Token.textTok ("\n" ++ indentStr dp), Token.endTok])).length = _
        simp
        omega
      rw [hF1, hdec, parseF_start, startElement_eq]
      rw [hPc dc F1 (childToks [] dc dp ++ rest) n a "" [] (by omega)]
      simp only []
      have hcontent : (if (Element.mk n a cct ccs).content = "" then ""
          else (Element.mk n a cct ccs).content) = cct := by
        show (if cct = "" then "" else cct) = cct
        split_ifs with h
        · exact h.symm
        · rfl
      rw [hcontent]
      rw [show Element.addChildTree (Element.mk m ba bct bcs)
        (Element.mk n a cct ([] ++ (Element.mk n a cct ccs).children)) =
        Element.mk m ba bct (bcs ++ [Element.mk n a cct ccs]) from rfl]
      rw [ihw dc dp F1 rest m ba bct (bcs ++ [Element.mk n a cct ccs]) (by rw [hlen] at hF; have h2 : (childToks ([] : List Element) dc dp).length = 2 := rfl; omega)]
      rw [List.append_assoc]
      rfl
    | cons c2 cs2 =>
      have hdec : childToks (Element.mk n a cct ccs :: c2 :: cs2) dc dp ++ rest =
          Token.startTok n a ::
            (innerToks (Element.mk n a cct ccs) dc ++
              (Token.textTok ("\n" ++ indentStr dc) :: (childToks (c2 :: cs2) dc dp ++ rest))) := by
        show Token.startTok n a :: (innerToks (Element.mk n a cct ccs) dc ++
          (Token.textTok ("\n" ++ indentStr dc) :: childToks (c2 :: cs2) dc dp)) ++ rest = _
        simp only [List.cons_append, List.append_assoc]
      have hlen : (childToks (Element.mk n a cct ccs :: c2 :: cs2) dc dp).length =
          1 + (innerToks (Element.mk n a cct ccs) dc).length + 1 +
            (childToks (c2 :: cs2) dc dp).length := by
        show (Token.startTok n a :: (innerToks (Element.mk n a cct ccs) dc ++
          (Token.textTok ("\n" ++ indentStr dc) :: childToks (c2 :: cs2) dc dp))).length = _
        simp
        omega
      rw [hF1, hdec, parseF_start, startElement_eq]
      rw [hPc dc F1 (Token.textTok ("\n" ++ indentStr dc) ::
        (childToks (c2 :: cs2) dc dp ++ rest)) n a "" [] (by omega)]
      simp only []
      have hcontent : (if (Element.mk n a cct ccs).content = "" then ""
          else (Element.mk n a cct ccs).content) = cct := by
        show (if cct = "" then "" else cct) = cct
        split_ifs with h
        · exact h.symm
        · rfl
      rw [hcontent]
      rw [show Element.addChildTree (Element.mk m ba bct bcs)
        (Element.mk n a cct ([] ++ (Element.mk n a cct ccs).children)) =
        Element.mk m ba bct (bcs ++ [Element.mk n a cct ccs]) from rfl]
      obtain ⟨F2, hF2⟩ : ∃ F2, F1 = F2 + 1 := ⟨F1 - 1, by omega⟩
      rw [hF2, parseF_text, trimSpace_sep dc, if_neg (by simp)]
      rw [ihw dc dp F2 rest m ba bct (bcs ++ [Element.mk n a cct ccs])
        (by rw [hlen] at hF; have h2 : (childToks ([] : List Element) dc dp).length = 2 := rfl; omega)]
      rw [List.append_assoc]
      rfl

set_option maxHeartbeats 1000000 in
theorem parse_inner (t : Element) : ∀ d, wfTree t = true →
    ∀ F rest m ba bct bcs, (innerToks t d).length < F →
      parseElementF F (Element.mk m ba bct bcs) (innerToks t d ++ rest) =
        some (Element.mk m ba (if t.content = "" then bct else t.content)
          (bcs ++ t.children), rest) := by
  induction t using Element.ind with
  | h n attrs ct cs ihm =>
    intro d hwf
    rw [show wfTree (Element.mk n attrs ct cs) =
      (n.space == "" && nameOK n.loc &&
       attrs.all (fun a => a.name.space == "" && nameOK a.name.loc && valueOK a.value) &&
       (trimSpace ct == ct) && wfForest cs) from rfl] at hwf
    simp only [Bool.and_eq_true, beq_iff_eq] at hwf
    obtain ⟨⟨⟨⟨hsp, hname⟩, hattrs⟩, htrim⟩, hforest⟩ := hwf
    intro F rest m ba bct bcs hF
    by_cases hcs : cs.isEmpty = true
    · have hcs' : cs = [] := List.isEmpty_iff.mp hcs
      subst hcs'
      by_cases hct : ct = ""
      · subst hct
        obtain ⟨F1, hF1⟩ : ∃ F1, F = F1 + 1 := ⟨F - 1, by omega⟩
        rw [show innerToks (Element.mk n attrs "" []) d ++ rest =
          Token.endTok :: rest from rfl, hF1, parseF_end]
        show some (Element.mk m ba bct bcs, rest) =
          some (Element.mk m ba bct (bcs ++ []), rest)
        rw [List.append_nil]
      · have hit : innerToks (Element.mk n attrs ct []) d =
            [Token.textTok ct, Token.endTok] := by
          rw [innerToks.eq_def]
          simp only []
          rw [if_neg (by simp [hct]), if_pos List.isEmpty_nil]
        obtain ⟨F1, hF1⟩ : ∃ F1, F = F1 + 1 := ⟨F - 1, by omega⟩
        rw [hit, show ([Token.textTok ct, Token.endTok] : List Token) ++ rest =
          Token.textTok ct :: (Token.endTok :: rest) from rfl, hF1, parseF_text, htrim,
          if_pos hct]
        rw [hit] at hF
        obtain ⟨F2, hF2⟩ : ∃ F2, F1 = F2 + 1 := ⟨F1 - 1, by simp at hF; omega⟩
        rw [show Element.setContent (Element.mk m ba bct bcs) ct =
          Element.mk m ba ct bcs from rfl, hF2, parseF_end]
        show some (Element.mk m ba ct bcs, rest) =
          some (Element.mk m ba (if ct = "" then bct else ct) (bcs ++ []), rest)
        rw [if_neg hct, List.append_nil]
    · cases cs with
      | nil => exact absurd (rfl : ([] : List Element).isEmpty = true) hcs
      | cons c cs' =>
        have hit : innerToks (Element.mk n attrs ct (c :: cs')) d =
            Token.textTok (ct ++ "\n" ++ indentStr (d + 1)) ::
              childToks (c :: cs') (d + 1) d := by
          rw [innerToks.eq_def]
          simp only []
          rw [if_neg (by simp), if_neg (by simp)]
        have hP : ∀ x ∈ c :: cs', ∀ d2 F2 rest2 m2 ba2 bct2 bcs2,
            (innerToks x d2).length < F2 →
            parseElementF F2 (Element.mk m2 ba2 bct2 bcs2) (innerToks x d2 ++ rest2) =
              some (Element.mk m2 ba2 (if x.content = "" then bct2 else x.content)
                (bcs2 ++ x.children), rest2) :=
          fun x hx d2 => ihm x hx d2 (wfForest_mem (c :: cs') hforest x hx)
        rw [hit] at hF ⊢
        simp only [List.length_cons] at hF
        obtain ⟨F1, hF1⟩ : ∃ F1, F = F1 + 1 := ⟨F - 1, by omega⟩
        rw [show (Token.textTok (ct ++ "\n" ++ indentStr (d + 1)) ::
          childToks (c :: cs') (d + 1) d) ++ rest =
          Token.textTok (ct ++ "\n" ++ indentStr (d + 1)) ::
            (childToks (c :: cs') (d + 1) d ++ rest) from rfl]
        rw [hF1, parseF_text, trimSpace_ct_sep ct (d + 1) htrim]
        by_cases hct : ct = ""
        · rw [if_neg (by simp [hct])]
          rw [parse_children (c :: cs') hP (d + 1) d F1 rest m ba bct bcs (by omega)]
          show some (Element.mk m ba bct (bcs ++ (c :: cs')), rest) =
            some (Element.mk m ba (if ct = "" then bct else ct) (bcs ++ (c :: cs')), rest)
          rw [if_pos hct]
        · rw [if_pos hct]
          rw [show Element.setContent (Element.mk m ba bct bcs) ct =
            Element.mk m ba ct bcs from rfl]
          rw [parse_children (c :: cs') hP (d + 1) d F1 rest m ba ct bcs (by omega)]
          show some (Element.mk m ba ct (bcs ++ (c :: cs')), rest) =
            some (Element.mk m ba (if ct = "" then bct else ct) (bcs ++ (c :: cs')), rest)
          rw [if_neg hct]

theorem write_write (e : Encoder) (s1 s2 : String) :
    (e.write s1).write s2 = e.write (s1 ++ s2) := by
  show { e with out := (e.out ++ s1) ++ s2 } = { e with out := e.out ++ (s1 ++ s2) }
  rw [sappend_assoc]

theorem write_empty (e : Encoder) : e.write "" = e := by
  show { e with out := e.out ++ "" } = e
  rw [sappend_empty]

theorem namespacedName_empty (e : Encoder) (nm : XmlName) (h : nm.space = "") :
    namespacedName e nm = some nm.loc := by
  unfold namespacedName
  rw [if_pos h]

theorem spaces_of_pretty (e : Encoder) (h : e.pretty = true) :
    e.spaces = e.write (indentStr e.depth) := by
  unfold Encoder.spaces
  rw [if_pos h]

theorem prettyEnd_of_pretty (e : Encoder) (h : e.pretty = true) :
    e.prettyEnd = e.write "\n" := by
  unfold Encoder.prettyEnd
  rw [if_pos h]

theorem encoderExt (a b : Encoder) (h1 : a.nsPrefixMap = b.nsPrefixMap)
    (h2 : a.nsURLMap = b.nsURLMap) (h3 : a.prefixCount = b.prefixCount)
    (h4 : a.started = b.started) (h5 : a.depth = b.depth) (h6 : a.pretty = b.pretty)
    (h7 : a.out = b.out) : a = b := by
  cases a
  cases b
  simp only [] at h1 h2 h3 h4 h5 h6 h7
  rw [h1, h2, h3, h4, h5, h6, h7]

theorem writeAttrs_wf_out (attrs : List XAttr) :
    attrs.all (fun a => a.name.space == "" && nameOK a.name.loc && valueOK a.value) = true →
    ∀ e : Encoder, writeAttrs attrs e = some (e.write (attrsStr attrs)) := by
  induction attrs with
  | nil =>
    intro _ e
    show some e = some (e.write "")
    rw [write_empty]
  | cons a as ih =>
    intro hwf e
    rw [List.all_cons, Bool.and_eq_true, Bool.and_eq_true, Bool.and_eq_true] at hwf
    obtain ⟨⟨⟨hsp, _⟩, _⟩, hwfs⟩ := hwf
    have hsp' : a.name.space = "" := beq_iff_eq.mp hsp
    show (if a.name.space = "xmlns" then writeAttrs as e
      else match namespacedName e a.name with
        | none => none
        | some s => writeAttrs as (e.write (" " ++ s ++ "=\"" ++ a.value ++ "\""))) = _
    rw [if_neg (fun h0 => absurd (hsp' ▸ h0 : "" = "xmlns") (by decide))]
    rw [namespacedName_empty e a.name hsp']
    simp only []
    rw [ih hwfs]
    rw [write_write]
    rfl

theorem encodeList_wf_out (cs : List Element)
    (hP : ∀ c ∈ cs, ∀ (e : Encoder) (ord : List (String × String)),
      e.started = true → e.pretty = true →
      c.Encode e ord = some { e with out :=
        e.out ++ (indentStr e.depth ++ (xStr c e.depth ++ "\n")) }) :
    ∀ (e : Encoder) (ord : List (String × String)), e.started = true → e.pretty = true →
      encodeList cs e ord = some { e with out := e.out ++ xChild cs e.depth } := by
  induction cs with
  | nil =>
    intro e ord _ _
    show some e = some { e with out := e.out ++ xChild [] e.depth }
    rw [show xChild [] e.depth = "" from rfl, sappend_empty]
  | cons c cs ih =>
    intro e ord hst hp
    rw [encodeList_cons_eq]
    rw [hP c (List.mem_cons_self c cs) e ord hst hp]
    simp only []
    rw [ih (fun x hx => hP x (List.mem_cons_of_mem c hx))
      { e with out := e.out ++ (indentStr e.depth ++ (xStr c e.depth ++ "\n")) } ord hst hp]
    apply congrArg some
    apply encoderExt <;>
      simp [sappend_assoc,
        show xChild (c :: cs) e.depth =
          indentStr e.depth ++ xStr c e.depth ++ "\n" ++ xChild cs e.depth from rfl]

@[simp] theorem write_prefixCount (e : Encoder) (s : String) :
    (e.write s).prefixCount = e.prefixCount := rfl

@[simp] theorem spaces_prefixCount (e : Encoder) : (e.spaces).prefixCount = e.prefixCount := by
  unfold Encoder.spaces
  split <;> rfl

@[simp] theorem prettyEnd_prefixCount (e : Encoder) :
    (e.prettyEnd).prefixCount = e.prefixCount := by
  unfold Encoder.prettyEnd
  split <;> rfl

set_option maxHeartbeats 1000000 in
theorem encode_wf_out (t : Element) : ∀ (e : Encoder) (ord : List (String × String)),
    wfTree t = true → e.started = true → e.pretty = true →
    t.Encode e ord = some { e with out :=
      e.out ++ (indentStr e.depth ++ (xStr t e.depth ++ "\n")) } := by
  induction t using Element.ind with
  | h n attrs ct cs ihm =>
    intro e ord hwf hst hp
    rw [show wfTree (Element.mk n attrs ct cs) =
      (n.space == "" && nameOK n.loc &&
       attrs.all (fun a => a.name.space == "" && nameOK a.name.loc && valueOK a.value) &&
       (trimSpace ct == ct) && wfForest cs) from rfl] at hwf
    simp only [Bool.and_eq_true, beq_iff_eq] at hwf
    obtain ⟨⟨⟨⟨hsp, hname⟩, hattrs⟩, htrim⟩, hforest⟩ := hwf
    rw [encode_started_eq n attrs ct cs e ord hst]
    simp only [encodeBody]
    rw [namespacedName_empty e.spaces n hsp]
    simp only []
    rw [writeAttrs_wf_out attrs hattrs (e.spaces.write ("<" ++ n.loc))]
    simp only [Bool.false_eq_true, if_false]
    rw [spaces_of_pretty e hp]
    by_cases hcs : cs.isEmpty = true
    · have hcs2 : cs = [] := List.isEmpty_iff.mp hcs
      subst hcs2
      by_cases hct : ct = ""
      · subst hct
        rw [if_pos (by decide)]
        apply congrArg some
        apply encoderExt <;>
          simp [hp, sappend_assoc,
            show xStr (Element.mk n attrs "" []) e.depth =
              "<" ++ n.loc ++ attrsStr attrs ++ "/>" from rfl,
            show ("/>" : String) ++ "\n" = "/>\n" from rfl]
      · rw [if_neg (by simp [hct])]
        rw [if_neg hct]
        rw [if_pos List.isEmpty_nil]
        simp only []
        rw [namespacedName_empty _ n hsp]
        simp only []
        rw [prettyEnd_of_pretty _ (by simp [hp])]
        apply congrArg some
        apply encoderExt <;>
          simp [hp, sappend_assoc,
            show xStr (Element.mk n attrs ct []) e.depth =
              "<" ++ n.loc ++ attrsStr attrs ++ ">" ++ escapeText ct ++
                "</" ++ n.loc ++ ">" from
              (by rw [xStr.eq_def]; simp only [];
                  rw [if_neg (by simp [hct]), if_pos List.isEmpty_nil])]
    · cases cs with
      | nil => exact absurd (rfl : ([] : List Element).isEmpty = true) hcs
      | cons c cs2 =>
        rw [if_neg (by simp)]
        have he7 : ∀ Y : Encoder,
            (if ct = "" then Y.write ">" else (Y.write ">").write (escapeText ct)) =
              Y.write (">" ++ escapeText ct) := by
          intro Y
          split_ifs with h
          · rw [h]
            rw [show escapeText "" = "" from rfl, sappend_empty]
          · rw [write_write]
        rw [he7]
        rw [if_neg (by simp)]
        rw [prettyEnd_of_pretty _ (by simp [hp])]
        have hPmem : ∀ x ∈ c :: cs2, ∀ (e2 : Encoder) (ord2 : List (String × String)),
            e2.started = true → e2.pretty = true →
            x.Encode e2 ord2 = some { e2 with out :=
              e2.out ++ (indentStr e2.depth ++ (xStr x e2.depth ++ "\n")) } :=
          fun x hx e2 ord2 h1 h2 =>
            ihm x hx e2 ord2 (wfForest_mem (c :: cs2) hforest x hx) h1 h2
        rw [encodeList_wf_out (c :: cs2) hPmem _ ord (by simp [hst]) (by simp [hp])]
        simp only []
        rw [spaces_of_pretty _ (by simp [hp])]
        rw [namespacedName_empty _ n hsp]
        simp only []
        rw [prettyEnd_of_pretty _ (by simp [hp])]
        apply congrArg some
        apply encoderExt <;>
          simp [hp, hst, sappend_assoc, Nat.add_sub_cancel,
            show xStr (Element.mk n attrs ct (c :: cs2)) e.depth =
              "<" ++ n.loc ++ attrsStr attrs ++ ">" ++ escapeText ct ++ "\n" ++
                xChild (c :: cs2) (e.depth + 1) ++ indentStr e.depth ++
                "</" ++ n.loc ++ ">" from
              (by rw [xStr.eq_def]; simp only [];
                  rw [if_neg (by simp), if_neg (by simp)])]

theorem addNamespace_empty (e : Encoder) (p : String) : e.addNamespace "" p = e := by
  unfold Encoder.addNamespace
  rw [if_pos (Or.inl rfl)]

theorem foldl_xmlns_nop (attrs : List XAttr) (h : ∀ a ∈ attrs, a.name.space = "") :
    ∀ e : Encoder,
      attrs.foldl (fun acc a => if a.name.space = "xmlns" then
        acc.addNamespace a.value a.name.loc else acc) e = e := by
  induction attrs with
  | nil => intro e; rfl
  | cons a as ih =>
    intro e
    rw [List.foldl_cons]
    rw [if_neg (fun h0 => absurd ((h a (List.mem_cons_self a as)) ▸ h0 : "" = "xmlns")
      (by decide))]
    exact ih (fun x hx => h x (List.mem_cons_of_mem a hx)) e

theorem foldl_space_nop (attrs : List XAttr) (h : ∀ a ∈ attrs, a.name.space = "") :
    ∀ e : Encoder,
      attrs.foldl (fun acc a => acc.addNamespace a.name.space "") e = e := by
  induction attrs with
  | nil => intro e; rfl
  | cons a as ih =>
    intro e
    rw [List.foldl_cons, h a (List.mem_cons_self a as), addNamespace_empty]
    exact ih (fun x hx => h x (List.mem_cons_of_mem a hx)) e

theorem addNamespacesList_nop (cs : List Element)
    (hm : ∀ c ∈ cs, ∀ e : Encoder, c.addNamespaces e = e) :
    ∀ e : Encoder, addNamespacesList cs e = e := by
  induction cs with
  | nil => intro e; rfl
  | cons c cs ih =>
    intro e
    show addNamespacesList cs (c.addNamespaces e) = e
    rw [hm c (List.mem_cons_self c cs) e]
    exact ih (fun x hx => hm x (List.mem_cons_of_mem c hx)) e

theorem addNamespaces_wf_nop (t : Element) : wfTree t = true →
    ∀ e : Encoder, t.addNamespaces e = e := by
  induction t using Element.ind with
  | h n attrs ct cs ihm =>
    intro hwf e
    rw [show wfTree (Element.mk n attrs ct cs) =
      (n.space == "" && nameOK n.loc &&
       attrs.all (fun a => a.name.space == "" && nameOK a.name.loc && valueOK a.value) &&
       (trimSpace ct == ct) && wfForest cs) from rfl] at hwf
    simp only [Bool.and_eq_true, beq_iff_eq] at hwf
    obtain ⟨⟨⟨⟨hsp, hname⟩, hattrs⟩, htrim⟩, hforest⟩ := hwf
    have hasp : ∀ a ∈ attrs, a.name.space = "" := by
      intro a ha
      have := List.all_eq_true.mp hattrs a ha
      rw [Bool.and_eq_true, Bool.and_eq_true] at this
      exact beq_iff_eq.mp this.1.1
    show addNamespacesList cs
      ((attrs.foldl (fun acc a => acc.addNamespace a.name.space "")
        ((attrs.foldl (fun acc a => if a.name.space = "xmlns" then
          acc.addNamespace a.value a.name.loc else acc) e).addNamespace n.space ""))) = e
    rw [foldl_xmlns_nop attrs hasp e, hsp, addNamespace_empty, foldl_space_nop attrs hasp e]
    exact addNamespacesList_nop cs
      (fun c hc => ihm c hc (wfForest_mem cs hforest c hc)) e

theorem encodeBody_wns_nil (n : XmlName) (attrs : List XAttr) (ct : String)
    (cs : List Element) (e : Encoder) :
    encodeBody true n attrs ct cs e [] = encodeBody false n attrs ct cs e [] := by
  simp only [encodeBody]
  simp only [show ∀ x : Encoder, writeDecls [] x = x from fun _ => rfl]
  simp

theorem bytes_wf_out (t : Element) (hwf : wfTree t = true) :
    Element.Bytes t [] = some (xStr t 0 ++ "\n") := by
  cases t with
  | mk n attrs ct cs =>
    show (Element.Encode (Element.mk n attrs ct cs) NewEncoder.Pretty []).map Encoder.out = _
    rw [encode_eq_body]
    show (encodeBody true n attrs ct cs
      { (Element.mk n attrs ct cs).addNamespaces NewEncoder.Pretty with
        started := true } []).map Encoder.out = _
    rw [addNamespaces_wf_nop (Element.mk n attrs ct cs) hwf NewEncoder.Pretty]
    rw [encodeBody_wns_nil]
    rw [← encode_started_eq n attrs ct cs
      { NewEncoder.Pretty with started := true } [] rfl]
    rw [encode_wf_out (Element.mk n attrs ct cs)
      { NewEncoder.Pretty with started := true } [] hwf rfl rfl]
    rfl

theorem lexTokens_wf (t : Element) (hwf : wfTree t = true) :
    lexTokens (xStr t 0 ++ "\n") = some (xtoks t 0 ++ [Token.textTok "\n"]) := by
  show lexAux ((xStr t 0 ++ "\n").data.length + 1) (xStr t 0 ++ "\n").data = _
  have hdata : (xStr t 0 ++ "\n").data = (xStr t 0).data ++ ['\n'] := by
    rw [sdata_append]
  have hlen : (xStr t 0 ++ "\n").data.length = (xStr t 0).data.length + 1 := by
    rw [hdata, List.length_append]
    rfl
  rw [hlen, hdata]
  have hnl : lexAux 2 ['\n'] = some [Token.textTok "\n"] := rfl
  have h := lex_xStr t 0 hwf 2 ['\n'] [Token.textTok "\n"]
    ((xStr t 0).data.length + 1 + 1) hnl (by omega)
  exact h

theorem parse_top (t : Element) (hwf : wfTree t = true) :
    ParseElements (xtoks t 0 ++ [Token.textTok "\n"]) = some [t] := by
  cases t with
  | mk n a ct cs =>
    show parseElementsF ((xtoks (Element.mk n a ct cs) 0 ++ [Token.textTok "\n"]).length + 1)
      (xtoks (Element.mk n a ct cs) 0 ++ [Token.textTok "\n"]) = _
    have hx : xtoks (Element.mk n a ct cs) 0 ++ [Token.textTok "\n"] =
        Token.startTok n a ::
          (innerToks (Element.mk n a ct cs) 0 ++ [Token.textTok "\n"]) := by
      show (Token.startTok n a :: innerToks (Element.mk n a ct cs) 0) ++
        [Token.textTok "\n"] = _
      rw [List.cons_append]
    have hlen : (xtoks (Element.mk n a ct cs) 0 ++ [Token.textTok "\n"]).length =
        (innerToks (Element.mk n a ct cs) 0).length + 2 := by
      rw [hx]
      simp
    rw [hlen, hx, parseEls_start, startElement_eq]
    rw [parse_inner (Element.mk n a ct cs) 0 hwf
      ((innerToks (Element.mk n a ct cs) 0).length + 2) [Token.textTok "\n"]
      n a "" [] (by omega)]
    simp only []
    rw [parseEls_text, parseEls_nil]
    have hcontent : (if (Element.mk n a ct cs).content = "" then ""
        else (Element.mk n a ct cs).content) = ct := by
      show (if ct = "" then "" else ct) = ct
      split_ifs with h
      · exact h.symm
      · rfl
    rw [hcontent]
    rfl

/-- C1 counterexample to the original claim: the namespace-free tree with
content `"  x"` (leading whitespace) round-trips to the structurally
different tree with content `"x"` — the parser trims character data, so
serialization followed by parsing is not the identity on all
namespace-free trees. -/
theorem c1_roundtrip_counterexample :
    ((Element.Bytes (Element.mk ⟨"", "a"⟩ [] "  x" []) []).bind lexTokens).bind
        ParseElements = some [Element.mk ⟨"", "a"⟩ [] "x" []] ∧
      Element.mk ⟨"", "a"⟩ [] "x" [] ≠ Element.mk ⟨"", "a"⟩ [] "  x" [] := by
  constructor
  · rfl
  · intro h
    injection h with h1 h2 h3 h4
    exact absurd h3 (by decide)

/-- C1 (amended): for every well-formed namespace-free tree — every
element and attribute name has empty namespace URI and is a nonempty run
of tokenizer name characters, attribute values contain no quote, no
ampersand and no `<`, and every content field is already
whitespace-trimmed — serializing with `Bytes` (whose discovered namespace
map is empty, so the map iteration order is the empty list), tokenizing
the bytes, and parsing with `ParseElements` yields exactly the original
tree. -/
theorem c1_roundtrip_amended (t : Element) (hwf : wfTree t = true) :
    ((Element.Bytes t []).bind lexTokens).bind ParseElements = some [t] := by
  rw [bytes_wf_out t hwf]
  show (lexTokens (xStr t 0 ++ "\n")).bind ParseElements = some [t]
  rw [lexTokens_wf t hwf]
  show ParseElements (xtoks t 0 ++ [Token.textTok "\n"]) = some [t]
  exact parse_top t hwf

/-- C1 witness: the amended round trip at a concrete two-child tree with
an attribute and text content. -/
theorem c1_witness :
    wfTree (Element.mk ⟨"", "a"⟩ [] "x y" [Element.mk ⟨"", "b"⟩ [] "" [],
      Element.mk ⟨"", "c"⟩ [⟨⟨"", "q"⟩, "v w"⟩] "t" []]) = true ∧
    ((Element.Bytes (Element.mk ⟨"", "a"⟩ [] "x y" [Element.mk ⟨"", "b"⟩ [] "" [],
        Element.mk ⟨"", "c"⟩ [⟨⟨"", "q"⟩, "v w"⟩] "t" []]) []).bind lexTokens).bind
      ParseElements =
      some [Element.mk ⟨"", "a"⟩ [] "x y" [Element.mk ⟨"", "b"⟩ [] "" [],
        Element.mk ⟨"", "c"⟩ [⟨⟨"", "q"⟩, "v w"⟩] "t" []]] :=
  ⟨by decide, c1_roundtrip_amended _ (by decide)⟩
